import Mathlib

/-!
# atf-engine : `convert2j.cpp`

A shallow embedding of the packet decoder / channel demultiplexer of
`src/atf_engine/convert2j.cpp`, followed by theorems about it.

Conventions of the embedding

* A byte is a `Nat` below 256; a file is the list of its bytes.
* C++ exceptions are the `Err` values of `Except Err`; `Err.diverged` marks a
  loop of the source that never exits (the model loops carry fuel).
* `uint32_t` / `uint64_t` / `size_t` arithmetic is `Nat` arithmetic with an
  explicit `% 2^32` / `% 2^64` wherever the source can wrap.
* The host is taken to be little-endian with a 64-bit `size_t`
  (the source uses `<endian.h>` and `_FILE_OFFSET_BITS 64`).
* System calls never fail (no `EIO`, no full disk) and `open` always succeeds:
  input files exist, output files do not exist yet.  A `read` may return fewer
  bytes than asked for; how many is decided by the `chunks` list of the file.
-/

namespace Atf

/-! ## Errors -/

/-- The exceptions thrown by the source, one constructor per `throw` site kind. -/
inductive Err where
  /-- The `std::logic_error` "pre-condition violation" (`ensure`, `flush`). -/
  | precondition
  /-- The `std::runtime_error("Unexpected EoF")`. -/
  | unexpected_eof
  /-- A system call on a closed descriptor (`fd == -1`). -/
  | bad_fd
  /-- The error "Corrupt header in ...". -/
  | corrupt_header
  /-- The error "Truncated msg in ...". -/
  | truncated_msg
  /-- The error "Corrupt headerB in ...". -/
  | corrupt_headerB
  /-- The error "channel mask changes mid-stream not supported". -/
  | mask_change
  /-- The error "Inconsistency between timestamp ... and seqno ...". -/
  | inconsistency
  /-- The error "Trucated body". -/
  | truncated_body
  /-- The `std::logic_error` "Missing chmask" (`prepare_output`). -/
  | missing_chmask
  /-- A read through the raw body pointer outside the filled part of the buffer. -/
  | out_of_buffer
  /-- A loop of the source that does not terminate. -/
  | diverged
  deriving DecidableEq, Repr

/-! ## The kernel side of a file descriptor -/

/-- The file behind a descriptor: its bytes, the file offset, and the sizes
(minus one) of the chunks in which successive `read` calls deliver data. -/
structure KFile where
  data : List Nat := []
  off : Nat := 0
  chunks : List Nat := []
  deriving DecidableEq, Repr

/-- The call `::read(fd, p, count)`: the bytes delivered and the file afterwards.
With data left and `count > 0` at least one byte is delivered. -/
def sys_read (f : KFile) (count : Nat) : List Nat × KFile :=
  let k := match f.chunks with
    | [] => count
    | c :: _ => min count (c + 1)
  let got := (f.data.drop f.off).take k
  (got, { f with off := f.off + got.length, chunks := f.chunks.tail })

/-- The call `::write(fd, p, n)` with all `n` bytes accepted: the bytes replace
or extend the file at the file offset (a hole reads as zeros). -/
def sys_write (f : KFile) (bytes : List Nat) : KFile :=
  { f with
    data := f.data.take f.off ++ List.replicate (f.off - f.data.length) 0
              ++ bytes ++ f.data.drop (f.off + bytes.length)
    off := f.off + bytes.length }

/-! ## `struct rawfile` -/

/-- Size of the buffer every opened `rawfile` allocates: `64*1024*1024`. -/
def BUFSIZE : Nat := 64 * 1024 * 1024

/-- The buffered file of the source.  `buf` holds the filled front part of the
`std::vector<char>`; `cap` is `buf.size()`; `is_open` is `fd >= 0` and `file`
the file behind `fd`. -/
structure rawfile where
  buf : List Nat := []
  cap : Nat := 0
  pos : Nat := 0
  limit : Nat := 0
  is_open : Bool := false
  file : KFile := {}
  writing : Bool := false
  deriving DecidableEq, Repr

namespace rawfile

/-- The constructor `rawfile(fname, write)` on a file with the given state. -/
def mk_open (f : KFile) (write : Bool) : rawfile :=
  { buf := [], cap := BUFSIZE, pos := 0, limit := 0, is_open := true, file := f,
    writing := write }

/-- The refill loop of `ensure`: `while(limit-pos < need) { ::read ... }`. -/
def ensure_loop : Nat → rawfile → Nat → Except Err (Bool × rawfile)
  | 0, _, _ => .error .diverged
  | fuel + 1, r, need =>
    if r.limit - r.pos < need then
      let res := sys_read r.file (r.cap - r.limit)
      if res.1.length = 0 then
        if r.limit = 0 then .ok (false, { r with file := res.2 })
        else .error .unexpected_eof
      else
        ensure_loop fuel
          { r with buf := r.buf.take r.limit ++ res.1,
                   limit := r.limit + res.1.length,
                   file := res.2 } need
    else .ok (true, r)

/-- The method `rawfile::ensure(need)`. -/
def ensure (r : rawfile) (need : Nat) : Except Err (Bool × rawfile) :=
  if r.writing || decide (r.pos > r.limit) then .error .precondition
  else if r.limit - r.pos ≥ need then .ok (true, r)
  else
    let r1 : rawfile :=
      if r.pos ≠ r.limit then
        { r with buf := (r.buf.drop r.pos).take (r.limit - r.pos),
                 limit := r.limit - r.pos, pos := 0 }
      else { r with pos := 0, limit := 0 }
    ensure_loop (need + 1) r1 need

/-- The method `rawfile::read(out, request)`; `none` is the `false` return. -/
def read (r : rawfile) (request : Nat) : Except Err (Option (List Nat) × rawfile) :=
  match r.ensure request with
  | .error e => .error e
  | .ok (false, r1) => .ok (none, r1)
  | .ok (true, r1) =>
    .ok (some ((r1.buf.drop r1.pos).take request), { r1 with pos := r1.pos + request })

/-- The method `rawfile::drain(request)`. -/
def drain (r : rawfile) (request : Nat) : Except Err rawfile :=
  match r.ensure request with
  | .error e => .error e
  | .ok (false, _) => .error .unexpected_eof
  | .ok (true, r1) => .ok { r1 with pos := r1.pos + request }

/-- The method `rawfile::read_as<T>()` with `sizeof(T) = size`. -/
def read_as (r : rawfile) (size : Nat) : Except Err (List Nat × rawfile) :=
  match r.read size with
  | .error e => .error e
  | .ok (none, _) => .error .unexpected_eof
  | .ok (some bytes, r1) => .ok (bytes, r1)

/-- The method `rawfile::flush()`.  The source retries short writes until all
of `[0, pos)` is written, which leaves the file as one complete write does. -/
def flush (r : rawfile) : Except Err rawfile :=
  if !r.writing then .error .precondition
  else if r.pos = 0 then .ok r
  else if !r.is_open then .error .bad_fd
  else .ok { r with file := sys_write r.file (r.buf.take r.pos), pos := 0 }

/-- The method `rawfile::write(in, request)` with `in` the `request` bytes given. -/
def write (r : rawfile) (bytes : List Nat) : Except Err rawfile :=
  let step (r1 : rawfile) : rawfile :=
    { r1 with buf := r1.buf.take r1.pos ++ bytes ++ r1.buf.drop (r1.pos + bytes.length),
              pos := r1.pos + bytes.length }
  if r.cap - r.pos < bytes.length then
    match r.flush with
    | .error e => .error e
    | .ok r1 => .ok (step r1)
  else .ok (step r)

/-- The method `rawfile::seek(off, SEEK_SET)`: the source passes `0`, not `off`,
to `lseek`, and returns what `lseek` returns. -/
def seek (r : rawfile) (_off : Nat) : Except Err (Nat × rawfile) :=
  let go (r1 : rawfile) : Except Err (Nat × rawfile) :=
    if !r1.is_open then .error .bad_fd
    else .ok (0, { r1 with pos := 0, limit := 0, file := { r1.file with off := 0 } })
  if r.writing then
    match r.flush with
    | .error e => .error e
    | .ok r1 => go r1
  else go r

/-- The method `rawfile::tell()`: `lseek(fd, 0, SEEK_CUR) + pos`. -/
def tell (r : rawfile) : Except Err Nat :=
  if !r.is_open then .error .bad_fd
  else .ok (r.file.off + r.pos)

/-- The method `rawfile::close()`. -/
def close (r : rawfile) : Except Err rawfile :=
  if !r.is_open then .ok r
  else
    let fin (r1 : rawfile) : rawfile := { r1 with pos := 0, limit := 0, is_open := false }
    if r.writing then
      match r.flush with
      | .error e => .error e
      | .ok r1 => .ok (fin r1)
    else .ok (fin r)

end rawfile

/-! ## Wire types -/

/-- Big-endian value of a byte string (`be16toh`, `be32toh`, `be64toh` on the
bytes as stored); every element is read as a `uint8_t`. -/
def be (bytes : List Nat) : Nat :=
  bytes.foldl (fun acc b => acc * 256 + b % 256) 0

/-- The bytes `[lo, hi)` of a list. -/
def slice (bytes : List Nat) (lo hi : Nat) : List Nat :=
  (bytes.drop lo).take (hi - lo)

/-- The `struct PSCHead`, already converted to host order (`sizeof == 16`). -/
structure PSCHead where
  ps : Nat
  msgid : Nat
  msglen : Nat
  rxsec : Nat
  rxns : Nat
  deriving DecidableEq, Repr

/-- Decoding of the 16 header bytes. -/
def PSCHead.decode (b : List Nat) : PSCHead :=
  { ps := be (slice b 0 2), msgid := be (slice b 2 4), msglen := be (slice b 4 8),
    rxsec := be (slice b 8 12), rxns := be (slice b 12 16) }

/-- The `struct QuartzNA`, already converted to host order (`sizeof == 24`). -/
structure QuartzNA where
  status : Nat
  chmask : Nat
  seqno : Nat
  sec : Nat
  ns : Nat
  deriving DecidableEq, Repr

/-- Decoding of the 24 bytes of the NA payload header. -/
def QuartzNA.decode (b : List Nat) : QuartzNA :=
  { status := be (slice b 0 4), chmask := be (slice b 4 8), seqno := be (slice b 8 16),
    sec := be (slice b 16 20), ns := be (slice b 20 24) }

/-- The value of `sizeof(PSCHead)`. -/
def SIZE_HEAD : Nat := 16
/-- The value of `sizeof(QuartzNA)`. -/
def SIZE_NA : Nat := 24
/-- The value of `sizeof(QuartzNB)`. -/
def SIZE_NB : Nat := 16

/-- The test `(1u<<i) & chmask` of the channel loops. -/
def active (chmask i : Nat) : Bool :=
  ((1 <<< i) &&& chmask) != 0

/-- The value of `__builtin_popcount(chmask)` for a 32 bit mask. -/
def popcount (chmask : Nat) : Nat :=
  ((List.range 32).filter (active chmask)).length

/-- The four bytes of a `uint32_t` in host (little-endian) order. -/
def host32 (w : Nat) : List Nat :=
  [w % 256, w / 256 % 256, w / 65536 % 256, w / 16777216 % 256]

/-- The eight bytes of a 64 bit `size_t` in host (little-endian) order. -/
def host64 (w : Nat) : List Nat :=
  host32 (w % 4294967296) ++ host32 (w / 4294967296 % 4294967296)

/-- The sample word of the extraction loop:
`s = b0<<16 | b1<<8 | b2; if(s & 0x00800000) s |= 0xff000000;`. -/
def sample_word (b0 b1 b2 : Nat) : Nat :=
  let s := ((b0 % 256) <<< 16) ||| ((b1 % 256) <<< 8) ||| (b2 % 256)
  if s &&& 0x00800000 ≠ 0 then s ||| 0xff000000 else s

/-! ## The `double` arithmetic of the rate check

A finite positive `double` is carried as an exact fraction `(num, den)`.
All values that occur (a `uint64_t`, its product with `1e-9`, a quotient of
two of these) lie far inside the normal range of binary64, so rounding is
round-to-nearest-even to 53 significant bits with no overflow or underflow. -/

/-- Position of the highest set bit of `n` (`0` for `n < 2`), by halving at
most `fuel` times. -/
def ilog2 : Nat → Nat → Nat
  | 0, _ => 0
  | fuel + 1, n => if n < 2 then 0 else ilog2 fuel (n / 2) + 1

/-- The binary64 nearest to `n / d` (ties to even), as a fraction; `n, d > 0`. -/
def round_double (n d : Nat) : Nat × Nat :=
  let ln := ilog2 n n
  let ld := ilog2 d d
  let a0 := n <<< (52 + ld)
  let b := d <<< ln
  let up := decide (a0 < b * 2 ^ 52)
  let a := if up then 2 * a0 else a0
  let sh := if up then 53 + ld else 52 + ld
  let m := a / b
  let r := a % b
  let m1 := if 2 * r > b ∨ (2 * r = b ∧ m % 2 = 1) then m + 1 else m
  (m1 * 2 ^ ln, 2 ^ sh)

/-- Numerator of the `double` constant `1e-9`, which is `0x1.12e0be826d695p-30`. -/
def NANO_NUM : Nat := 4835703278458517
/-- Denominator of the `double` constant `1e-9`: `2^82`. -/
def NANO_DEN : Nat := 2 ^ 82

/-- The test `Fsamp < 0.9e3 || Fsamp > 290e3` for
`Fsamp = double(count) / (double(dt) * 1e-9)`, where `count` is the `uint64_t`
value `nmissing*last_nsamp/nchan` and `dt` the `uint64_t` value `nsec - last_ns`.
With `dt = 0` the quotient is `+inf` (out of range) or, for `0/0`, a NaN, for
which both comparisons are false. -/
def Fsamp_out_of_range (count dt : Nat) : Bool :=
  if dt = 0 then decide (count ≠ 0)
  else if count = 0 then true
  else
    let t := round_double dt 1
    let deltaT := round_double (t.1 * NANO_NUM) (t.2 * NANO_DEN)
    let c := round_double count 1
    let F := round_double (c.1 * deltaT.2) (c.2 * deltaT.1)
    decide (F.1 < 900 * F.2) || decide (F.1 > 290000 * F.2)

/-! ## `struct priv` -/

/-- One entry of `priv::errors`.  The source formats it as the string
`"Missing <nmissing> [<lo>, <hi>) <deltaT> s"`, where `deltaT` is `dt_ns`
nanoseconds printed as seconds. -/
structure Diag where
  nmissing : Nat
  lo : Nat
  hi : Nat
  dt_ns : Nat
  deriving DecidableEq, Repr

/-- The conversion state `struct priv` (without `outdir` and the unused
`out_status`).  The two `std::array<_, 32>` members are functions of the index. -/
structure priv where
  last_seqno : Nat := 0
  last_ns : Nat := 0
  last_chmask : Nat := 0
  last_nsamp : Nat := 0
  last_channel : Nat → Nat := fun _ => 0
  first : Bool := true
  force : Bool := false
  out_channel : Nat → rawfile := fun _ => {}
  errors : List Diag := []

/-- The state `priv pvt{}` of `convert2j` after `pvt.force = force`. -/
def priv.init (force : Bool) : priv := { force := force }

/-- Assignment `a[i] = v` to a `std::array`. -/
def upd {α : Type} (a : Nat → α) (i : Nat) (v : α) : Nat → α :=
  fun j => if j = i then v else a j

/-- The modulus `2^64` of `uint64_t` and `size_t` arithmetic. -/
@[irreducible]
def W64 : Nat := 2 ^ 64

/-! ## Placeholder injection (`convert1`, the `while(nmissing--)` loop) -/

/-- Body of `for(unsigned i=0; i<32; i++)` in the injection loop for channel
`i`; the state is `nsamp` and `pvt`. -/
def inject_chan (chmask : Nat) (x : Nat × priv) (i : Nat) : Except Err (Nat × priv) :=
  if !(active chmask i) then .ok x
  else
    let s := x.2.last_channel i
    match (x.2.out_channel i).write (host32 s) with
    | .error e => .error e
    | .ok o =>
      .ok ((x.1 + W64 - 1) % W64, { x.2 with out_channel := upd x.2.out_channel i o })

/-- A `for` loop over the listed channel indices with a body that may throw. -/
def for_chans {σ : Type} (body : σ → Nat → Except Err σ) : List Nat → σ → Except Err σ
  | [], x => .ok x
  | i :: rest, x =>
    match body x i with
    | .error e => .error e
    | .ok x1 => for_chans body rest x1

/-- The loop `while(nsamp) { for(i...) {...} }` of the injection. -/
def inject_while (chmask : Nat) : Nat → Nat × priv → Except Err (Nat × priv)
  | 0, _ => .error .diverged
  | fuel + 1, x =>
    if x.1 = 0 then .ok x
    else
      match for_chans (inject_chan chmask) (List.range 32) x with
      | .error e => .error e
      | .ok x1 => inject_while chmask fuel x1

/-- The loop `while(nmissing--) { auto nsamp = pvt.last_nsamp; while(nsamp) ... }`.
The inner loop steps `nsamp` down by the channel count modulo `2^64`, so after
`2^64` rounds without reaching `0` it never ends. -/
def inject (chmask : Nat) : Nat → priv → Except Err priv
  | 0, pvt => .ok pvt
  | nmissing + 1, pvt =>
    match inject_while chmask W64 (pvt.last_nsamp, pvt) with
    | .error e => .error e
    | .ok x => inject chmask nmissing x.2

/-! ## Sample extraction (`convert1`, the `while(nsamp)` loop) -/

/-- State of the extraction loop: `nsamp`, the offset of `cur` in the buffer,
and `pvt`. -/
structure XState where
  nsamp : Nat
  cur : Nat
  pvt : priv

/-- Body of `for(unsigned i=0; i<32; i++)` in the extraction loop for channel
`i`, reading the three bytes at `cur` in `buf`. -/
def extract_chan (buf : List Nat) (chmask : Nat) (x : XState) (i : Nat) :
    Except Err XState :=
  if !(active chmask i) then .ok x
  else if x.nsamp = 0 then .error .truncated_body
  else
    match buf[x.cur]?, buf[x.cur + 1]?, buf[x.cur + 2]? with
    | some b0, some b1, some b2 =>
      let s := sample_word b0 b1 b2
      match (x.pvt.out_channel i).write (host32 s) with
      | .error e => .error e
      | .ok o =>
        .ok { nsamp := x.nsamp - 1, cur := x.cur + 3,
              pvt := { x.pvt with last_channel := upd x.pvt.last_channel i s,
                                  out_channel := upd x.pvt.out_channel i o } }
    | _, _, _ => .error .out_of_buffer

/-- The loop `while(nsamp) { for(i...) {...} }` of the extraction. -/
def extract_while (buf : List Nat) (chmask : Nat) : Nat → XState → Except Err XState
  | 0, _ => .error .diverged
  | fuel + 1, x =>
    if x.nsamp = 0 then .ok x
    else
      match for_chans (extract_chan buf chmask) (List.range 32) x with
      | .error e => .error e
      | .ok x1 => extract_while buf chmask fuel x1

/-! ## `priv::prepare_output` and `priv::finalize_output` -/

/-- The placeholder header `{0xffffffff, 0xffffffff, 0xffffffff, 0, 0}`. -/
def HDR_INVALID : List Nat :=
  host32 0xffffffff ++ host32 0xffffffff ++ host32 0xffffffff ++ host32 0 ++ host32 0

/-- The final header `{1, 0, 0, fsize}` with `fsize` copied over words 3 and 4. -/
def hdr_final (fsize : Nat) : List Nat :=
  host32 1 ++ host32 0 ++ host32 0 ++ host64 fsize

/-- Body of the loop of `prepare_output` for channel `i`: a new, empty output
file is opened for writing and the placeholder header is written. -/
def prepare_chan (chmask : Nat) (pvt : priv) (i : Nat) : Except Err priv :=
  if !(active chmask i) then .ok pvt
  else
    match (rawfile.mk_open {} true).write HDR_INVALID with
    | .error e => .error e
    | .ok o => .ok { pvt with out_channel := upd pvt.out_channel i o }

/-- The method `priv::prepare_output()`. -/
def prepare_output (pvt : priv) : Except Err priv :=
  let chmask := pvt.last_chmask
  if chmask = 0 then .error .missing_chmask
  else for_chans (prepare_chan chmask) (List.range 32) pvt

/-- Body of the loop of `finalize_output` for channel `i`. -/
def finalize_chan (pvt : priv) (i : Nat) : Except Err priv :=
  if !(active pvt.last_chmask i) then .ok pvt
  else
    match (pvt.out_channel i).flush with
    | .error e => .error e
    | .ok o1 =>
      match o1.tell with
      | .error e => .error e
      | .ok t =>
        let fsize := (t + W64 - 20) % W64
        match o1.seek 0 with
        | .error e => .error e
        | .ok (_, o2) =>
          match o2.write (hdr_final fsize) with
          | .error e => .error e
          | .ok o3 =>
            match o3.close with
            | .error e => .error e
            | .ok o4 => .ok { pvt with out_channel := upd pvt.out_channel i o4 }

/-- The method `priv::finalize_output()`. -/
def finalize_output (pvt : priv) : Except Err priv :=
  for_chans finalize_chan (List.range 32) pvt

/-! ## `convert1` -/

/-- The `else` branch of `if(pvt.first)`: mask check, gap detection, rate check
and placeholder injection. -/
def gap_recover (pvt : priv) (chmask seqno nsec : Nat) : Except Err priv :=
  if pvt.last_chmask ≠ chmask then .error .mask_change
  else
    let nchan := popcount chmask
    if (pvt.last_seqno + 1) % W64 ≠ seqno then
      let nmissing := (seqno + W64 - (pvt.last_seqno + 1) % W64) % W64
      let dt := (nsec + W64 - pvt.last_ns) % W64
      let count := nmissing * pvt.last_nsamp % W64 / nchan
      let d : Diag :=
        { nmissing := nmissing, lo := (pvt.last_seqno + 1) % W64, hi := seqno, dt_ns := dt }
      let pvt1 : priv := { pvt with errors := pvt.errors ++ [d] }
      if !pvt.force && Fsamp_out_of_range count dt then .error .inconsistency
      else inject pvt.last_chmask nmissing pvt1
    else .ok pvt

/-- Processing of a sample packet from `auto hdrA(istrm.read_as<QuartzNA>())`
to the final `istrm.drain(msglen)`; `msglen0` is the message length of the
header, already checked and ensured. -/
def sample_packet (pvt : priv) (istrm : rawfile) (msglen0 : Nat) (hasB : Bool) :
    Except Err (priv × rawfile) :=
  match istrm.read_as SIZE_NA with
  | .error e => .error e
  | .ok (bytesA, is1) =>
    let hdrA := QuartzNA.decode bytesA
    let msglen1 := msglen0 - SIZE_NA
    let chmask := hdrA.chmask
    let seqno := hdrA.seqno
    let nsec := (hdrA.sec * 1000000000 + hdrA.ns) % W64
    let r1 : Except Err priv :=
      if pvt.first then
        prepare_output { pvt with first := false, last_chmask := chmask }
      else gap_recover pvt chmask seqno nsec
    match r1 with
    | .error e => .error e
    | .ok pvt1 =>
      let pvt2 : priv := { pvt1 with last_seqno := seqno, last_ns := nsec }
      let r2 : Except Err (Nat × rawfile) :=
        if hasB then
          match is1.read_as SIZE_NB with
          | .error e => .error e
          | .ok (_, is2) => .ok (msglen1 - SIZE_NB, is2)
        else .ok (msglen1, is1)
      match r2 with
      | .error e => .error e
      | .ok (msglen, is2) =>
        let nsamp := msglen / 3
        let pvt3 : priv := { pvt2 with last_nsamp := nsamp }
        match extract_while is2.buf chmask (nsamp + 1)
                { nsamp := nsamp, cur := is2.pos, pvt := pvt3 } with
        | .error e => .error e
        | .ok x =>
          match is2.drain msglen with
          | .error e => .error e
          | .ok is3 => .ok (x.pvt, is3)

/-- One pass of `while(istrm.read_into(head)) {...}`: `none` when the loop
ends, else the state after the packet. -/
def convert1_body (pvt : priv) (istrm : rawfile) : Except Err (Option (priv × rawfile)) :=
  match istrm.read SIZE_HEAD with
  | .error e => .error e
  | .ok (none, _) => .ok none
  | .ok (some hb, is1) =>
    let head := PSCHead.decode hb
    let msgid := head.msgid
    let msglen := head.msglen
    if head.ps ≠ 0x5053 ∨ msglen < SIZE_NA then .error .corrupt_header
    else
      match is1.ensure msglen with
      | .error e => .error e
      | .ok (false, _) => .error .truncated_msg
      | .ok (true, is2) =>
        if msgid = 0x4e41 then
          (sample_packet pvt is2 msglen false).map some
        else if msgid = 0x4e42 then
          if msglen < SIZE_NA + SIZE_NB then .error .corrupt_headerB
          else (sample_packet pvt is2 msglen true).map some
        else
          match is2.drain msglen with
          | .error e => .error e
          | .ok is3 => .ok (some (pvt, is3))

/-- The loop `while(istrm.read_into(head)) {...}`. -/
def convert1_loop : Nat → priv → rawfile → Except Err priv
  | 0, _, _ => .error .diverged
  | fuel + 1, pvt, istrm =>
    match convert1_body pvt istrm with
    | .error e => .error e
    | .ok none => .ok pvt
    | .ok (some (pvt1, is1)) => convert1_loop fuel pvt1 is1

/-- The function `convert1(pvt, indat)` on the input file `indat`.  Every pass
of the loop consumes at least 40 bytes, so `length + 1` passes are enough. -/
def convert1 (pvt : priv) (indat : KFile) : Except Err priv :=
  convert1_loop (indat.data.length + 1) pvt (rawfile.mk_open { indat with off := 0 } false)

/-- The loop `for(auto& indat : indats) convert1(pvt, indat);`. -/
def convert_all : List KFile → priv → Except Err priv
  | [], pvt => .ok pvt
  | f :: rest, pvt =>
    match convert1 pvt f with
    | .error e => .error e
    | .ok pvt1 => convert_all rest pvt1

/-- The function `convert2j(indats, outdir, errors, force)`: the final state,
whose `errors` is the list handed back and whose `out_channel` files are the
output files. -/
def convert2j (indats : List KFile) (force : Bool) : Except Err priv :=
  match convert_all indats (priv.init force) with
  | .error e => .error e
  | .ok pvt => finalize_output pvt

/-! ## The wire format, for stating properties of inputs -/

/-- The `k` bytes of `v` in big-endian order. -/
def be_bytes : Nat → Nat → List Nat
  | 0, _ => []
  | k + 1, v => be_bytes k (v / 256) ++ [v % 256]

/-- A packet header followed by `payload`: marker, type, length, receive time. -/
def encode_head (ps msgid msglen rxsec rxns : Nat) : List Nat :=
  be_bytes 2 ps ++ be_bytes 2 msgid ++ be_bytes 4 msglen ++ be_bytes 4 rxsec ++ be_bytes 4 rxns

/-- The NA payload header. -/
def encode_NA (status chmask seqno sec ns : Nat) : List Nat :=
  be_bytes 4 status ++ be_bytes 4 chmask ++ be_bytes 8 seqno ++ be_bytes 4 sec ++ be_bytes 4 ns

/-- A sample packet as the sender describes it.  `extB` is `none` for type
"NA" and the 16 bytes of `QuartzNB` for type "NB". -/
structure Packet where
  rxsec : Nat := 0
  rxns : Nat := 0
  status : Nat := 0
  chmask : Nat
  seqno : Nat
  sec : Nat
  ns : Nat
  extB : Option (List Nat) := none
  body : List Nat

/-- Message length of a sample packet: payload headers plus body. -/
def Packet.msglen (p : Packet) : Nat :=
  SIZE_NA + (match p.extB with | none => 0 | some b => b.length) + p.body.length

/-- The bytes of a sample packet on the wire. -/
def Packet.encode (p : Packet) : List Nat :=
  encode_head 0x5053 (match p.extB with | none => 0x4e41 | some _ => 0x4e42) p.msglen
      p.rxsec p.rxns
    ++ encode_NA p.status p.chmask p.seqno p.sec p.ns
    ++ (match p.extB with | none => [] | some b => b)
    ++ p.body

/-! ## Views used to state properties -/

/-- Logical contents of a channel that is being written: the bytes already in
the file followed by the buffered bytes `[0, pos)`. -/
def rawfile.content (r : rawfile) : List Nat :=
  r.file.data ++ r.buf.take r.pos

/-- A channel in the appending state: opened for writing with the full-size
buffer, the bytes `[0, pos)` present, and the file offset at the end of file. -/
structure WOk (r : rawfile) : Prop where
  writing : r.writing = true
  is_open : r.is_open = true
  cap : r.cap = BUFSIZE
  pos_le : r.pos ≤ r.buf.length
  off : r.file.off = r.file.data.length

/-- The unread byte stream of a file that is being read: the buffered bytes
`[pos, limit)` followed by the rest of the file. -/
def rawfile.unread (r : rawfile) : List Nat :=
  (r.buf.drop r.pos).take (r.limit - r.pos) ++ r.file.data.drop r.file.off

/-- A well-formed reading state: `pos <= limit <= buf.size()` with the bytes
`[0, limit)` present. -/
structure ROk (r : rawfile) : Prop where
  writing : r.writing = false
  pos_le : r.pos ≤ r.limit
  limit_le : r.limit ≤ r.buf.length
  limit_cap : r.limit ≤ r.cap

end Atf

namespace Atf

/-! ## Notions used to state properties of the channel loops -/

/-- Number of active channels among the listed indices. -/
def cnt (m : Nat) (l : List Nat) : Nat :=
  (l.filter (active m)).length

/-- The value of an unsigned counter of modulus `M` after `k` executions of
`nsamp--`. -/
def wdec (M : Nat) : Nat → Nat → Nat
  | 0, n => n
  | k + 1, n => wdec M k ((n + M - 1) % M)

/-- The bytes of `c` copies of the sample word `w`. -/
def rep (c w : Nat) : List Nat :=
  (List.replicate c (host32 w)).flatten

/-- The sample word read at offset `off` of a byte list. -/
def word_at (buf : List Nat) (off : Nat) : Nat :=
  sample_word (buf.getD off 0) (buf.getD (off + 1) 0) (buf.getD (off + 2) 0)

/-- Number of active channels listed before `j`. -/
def rank (m : Nat) : List Nat → Nat → Nat
  | [], _ => 0
  | i :: rest, j => if j = i then 0 else (if active m i then 1 else 0) + rank m rest j

/-- The bytes of a list of sample words as written to a channel file. -/
def wbytes (ws : List Nat) : List Nat :=
  (ws.map host32).flatten

/-- The sample words of the channel of rank `r` among `k` active channels, in a
body of `T` time points that starts at offset `cur` of `buf`. -/
def chan_words (buf : List Nat) (k r : Nat) : Nat → Nat → List Nat
  | 0, _ => []
  | T + 1, cur => word_at buf (cur + 3 * r) :: chan_words buf k r T (cur + 3 * k)

/-- Number of samples a channel file holds after its 20 byte header. -/
def nsamples (r : rawfile) : Nat :=
  (r.content.length - 20) / 4

/-- What holds of the state once `prepare_output` has run: the mask is a
non-zero 32 bit word and every active channel is in the appending state and
holds the placeholder header followed by whole samples, equally many in each. -/
structure Inv0 (pvt : priv) : Prop where
  first : pvt.first = false
  mask_ne : pvt.last_chmask ≠ 0
  mask_lt : pvt.last_chmask < 2 ^ 32
  wok : ∀ i, i < 32 → active pvt.last_chmask i = true → WOk (pvt.out_channel i)
  fmt : ∃ n, ∀ i, i < 32 → active pvt.last_chmask i = true →
    ∃ ws, (pvt.out_channel i).content = HDR_INVALID ++ wbytes ws ∧ ws.length = n

/-- What holds of the state after every sample packet that was processed
without raising. -/
structure Inv (pvt : priv) extends Inv0 pvt : Prop where
  nsamp : ∃ T, pvt.last_nsamp = popcount pvt.last_chmask * T
  nsamp_lt : pvt.last_nsamp < W64
  seq_lt : pvt.last_seqno < W64

/-- The value `nmissing` of the gap branch: `seqno - (pvt.last_seqno+1)`. -/
def gap_nmissing (pvt : priv) (seqno : Nat) : Nat :=
  (seqno + W64 - (pvt.last_seqno + 1) % W64) % W64

/-- The `uint64_t` difference `nsec - pvt.last_ns` of the gap branch. -/
def gap_dt (pvt : priv) (nsec : Nat) : Nat :=
  (nsec + W64 - pvt.last_ns) % W64

/-- The integer `nmissing*pvt.last_nsamp/nchan` of the gap branch. -/
def gap_count (pvt : priv) (seqno : Nat) : Nat :=
  gap_nmissing pvt seqno * pvt.last_nsamp % W64 / popcount pvt.last_chmask

/-- The entry appended to `pvt.errors` in the gap branch. -/
def gap_diag (pvt : priv) (seqno nsec : Nat) : Diag :=
  { nmissing := gap_nmissing pvt seqno, lo := (pvt.last_seqno + 1) % W64, hi := seqno,
    dt_ns := gap_dt pvt nsec }

/-- The rate check of the gap branch throws. -/
def gap_rejected (pvt : priv) (seqno nsec : Nat) : Bool :=
  !pvt.force && Fsamp_out_of_range (gap_count pvt seqno) (gap_dt pvt nsec)

/-- The states a run with the given `force` flag passes through between
packets: the initial state of `convert2j`, and the state after every pass of the
loop of `convert1`, on whatever input file in whatever reading state. -/
inductive Reachable (force : Bool) : priv → Prop where
  | init : Reachable force (priv.init force)
  | step {pvt q : priv} {istrm is1 : rawfile} :
      Reachable force pvt → convert1_body pvt istrm = .ok (some (q, is1)) →
      Reachable force q

/-- Whether a run returned normally. -/
def succeeded (r : Except Err priv) : Bool :=
  match r with
  | .ok _ => true
  | .error _ => false

/-- The state a run returned (the initial state if it threw). -/
def state_of (r : Except Err priv) : priv :=
  match r with
  | .ok p => p
  | .error _ => priv.init false

/-! ## Concrete inputs -/

/-- A body of 4 time points for 2 channels: 24 bytes, some with the sign bit set. -/
def ex_body (k : Nat) : List Nat :=
  (List.range 24).map (fun i => (k * 24 + i * 7) % 256)

/-- An NA packet with mask `0b011`, 4 samples per channel, stamped 4 ms per
sequence number. -/
def ex_packet (seq : Nat) : Packet :=
  { chmask := 3, seqno := seq, sec := 100, ns := seq * 4000000, body := ex_body seq }

/-- An input file with packets 10, 11 and 13, delivered in chunks of 1, 6 and
101 bytes and then whole. -/
def ex_gap_file : KFile :=
  { data := (ex_packet 10).encode ++ (ex_packet 11).encode ++ (ex_packet 13).encode,
    chunks := [0, 5, 100] }

/-- A 32 bit word read as a two's-complement signed integer. -/
def to_int32 (w : Nat) : Int :=
  if w < 2147483648 then (w : Int) else (w : Int) - 4294967296

/-- The 24 bit big-endian number formed by three bytes. -/
def be24 (b0 b1 b2 : Nat) : Nat :=
  b0 % 256 * 65536 + b1 % 256 * 256 + b2 % 256

/-- The fields of a sample packet fit their wire widths, and the extra NB
header, when present, has its 16 bytes. -/
structure Packet.wf (p : Packet) : Prop where
  chmask_lt : p.chmask < 4294967296
  seqno_lt : p.seqno < 18446744073709551616
  sec_lt : p.sec < 4294967296
  ns_lt : p.ns < 4294967296
  msglen_lt : p.msglen < 4294967296
  extB_len : ∀ b, p.extB = some b → b.length = 16

/-- The bytes of the extra NB header of a packet (none for NA). -/
def Packet.ext (p : Packet) : List Nat :=
  match p.extB with
  | none => []
  | some b => b

/-- The type tag of a sample packet. -/
def Packet.msgid (p : Packet) : Nat :=
  match p.extB with
  | none => 0x4e41
  | some _ => 0x4e42

/-- The packet time stamp in nanoseconds, as `convert1` computes it. -/
def Packet.nsec (p : Packet) : Nat :=
  (p.sec * 1000000000 + p.ns) % W64

/-- The extraction state with `cur` moved by `c0`. -/
def XState.shift (c0 : Nat) (x : XState) : XState :=
  { x with cur := c0 + x.cur }

/-- What `sample_packet` does with the state, given the decoded fields and the
body bytes of the packet it reads: the first-packet or gap branch, then the
extraction loop over the body. -/
def process (pvt : priv) (p : Packet) : Except Err priv :=
  let r1 : Except Err priv :=
    if pvt.first then
      prepare_output { pvt with first := false, last_chmask := p.chmask }
    else gap_recover pvt p.chmask p.seqno p.nsec
  match r1 with
  | .error e => .error e
  | .ok pvt1 =>
    match extract_while p.body p.chmask (p.body.length / 3 + 1)
            { nsamp := p.body.length / 3, cur := 0,
              pvt := { pvt1 with last_seqno := p.seqno, last_ns := p.nsec,
                                 last_nsamp := p.body.length / 3 } } with
    | .error e => .error e
    | .ok x => .ok x.pvt

/-- A message of the input stream: a sample packet, or a message of another
type with its header fields and payload. -/
inductive Msg where
  | sample (p : Packet)
  | other (msgid msglen rxsec rxns : Nat) (payload : List Nat)

/-- The bytes of a message on the wire. -/
def Msg.encode : Msg → List Nat
  | .sample p => p.encode
  | .other msgid msglen rxsec rxns payload =>
    encode_head 0x5053 msgid msglen rxsec rxns ++ payload

/-- A message has a valid header, is complete, and is no longer than `cap`. -/
def Msg.ok (cap : Nat) : Msg → Prop
  | .sample p => p.wf ∧ p.msglen ≤ cap
  | .other msgid msglen _ _ payload =>
    msgid < 65536 ∧ msgid ≠ 0x4e41 ∧ msgid ≠ 0x4e42 ∧ 24 ≤ msglen ∧ msglen < 4294967296 ∧
    payload.length = msglen ∧ msglen ≤ cap

/-- The bytes of a sequence of messages. -/
def encode_all (msgs : List Msg) : List Nat :=
  (msgs.map Msg.encode).flatten

/-- The state after a sequence of messages: sample packets go through
`process`, other messages leave the state alone. -/
def process_all : List Msg → priv → Except Err priv
  | [], pvt => .ok pvt
  | .sample p :: rest, pvt =>
    match process pvt p with
    | .error e => .error e
    | .ok q => process_all rest q
  | .other _ _ _ _ _ :: rest, pvt => process_all rest pvt

/-- An input file holding one complete message of type 0x4e43 whose length is
one byte more than the buffer size. -/
def ex_huge_file : KFile :=
  { data := encode_head 0x5053 0x4e43 (BUFSIZE + 1) 0 0 ++ List.replicate (BUFSIZE + 1) 0 }

/-- A message of type 0x4e43 with 24 payload bytes. -/
def ex_other : Msg :=
  .other 0x4e43 24 7 9 (List.replicate 24 1)

/-- An input file holding packet 10, a message of another type, and packet 11. -/
def ex_other_file : KFile :=
  { data := encode_all [.sample (ex_packet 10), ex_other, .sample (ex_packet 11)],
    chunks := [3, 40] }

/-- An input file holding packet 10 only. -/
def ex_first_file : KFile :=
  { data := (ex_packet 10).encode, chunks := [9] }

/-- An NB packet with mask `0b101`, following packet 10 in sequence. -/
def ex_packet_mask5 : Packet :=
  { chmask := 5, seqno := 11, sec := 100, ns := 44000000,
    extB := some (List.replicate 16 0), body := ex_body 11 }

/-- Little-endian value of a byte string: how a reader on the same host reads
back a word of a channel file. -/
def le (bytes : List Nat) : Nat :=
  bytes.foldr (fun b acc => b % 256 + 256 * acc) 0

/-- An input file holding packets 10 and 11. -/
def ex_pre_file : KFile :=
  { data := (ex_packet 10).encode ++ (ex_packet 11).encode, chunks := [20, 2] }

/-- The time stamp of `ex_packet 13` in nanoseconds. -/
def ex_nsec13 : Nat := 100052000000

/-- An NA packet with mask `0b011` whose body has 25 bytes: 4 time points and
one byte left over. -/
def ex_leftover_packet : Packet :=
  { chmask := 3, seqno := 10, sec := 100, ns := 40000000, body := ex_body 10 ++ [1] }

/-- An input file holding the packet with the 25 byte body, then packet 11. -/
def ex_leftover_file : KFile :=
  { data := ex_leftover_packet.encode ++ (ex_packet 11).encode, chunks := [7] }

/-- An NA packet with mask `0b011` whose body has 21 bytes: 7 samples for 2
channels. -/
def ex_odd_packet : Packet :=
  { chmask := 3, seqno := 10, sec := 100, ns := 40000000, body := (ex_body 10).take 21 }

/-! ## The header part of a pass of the loop of `convert1` -/

/-- How the header part of a pass ends when it does not throw. -/
inductive Head where
  /-- The call `istrm.read_into(head)` returned `false`: the loop ends. -/
  | eof
  /-- A message of another type was drained: `continue`. -/
  | skip (is3 : rawfile)
  /-- A sample packet follows: the stream with the message buffered, the
  message length and `hasB`. -/
  | sample (is2 : rawfile) (msglen : Nat) (hasB : Bool)

/-- The statements of a pass of the loop of `convert1` from
`istrm.read_into(head)` to the end of `switch(msgid)`.  None of them mentions
`pvt`, so the conversion state is not a parameter. -/
def header_phase (istrm : rawfile) : Except Err Head :=
  match istrm.read SIZE_HEAD with
  | .error e => .error e
  | .ok (none, _) => .ok .eof
  | .ok (some hb, is1) =>
    let head := PSCHead.decode hb
    let msgid := head.msgid
    let msglen := head.msglen
    if head.ps ≠ 0x5053 ∨ msglen < SIZE_NA then .error .corrupt_header
    else
      match is1.ensure msglen with
      | .error e => .error e
      | .ok (false, _) => .error .truncated_msg
      | .ok (true, is2) =>
        if msgid = 0x4e41 then .ok (.sample is2 msglen false)
        else if msgid = 0x4e42 then
          if msglen < SIZE_NA + SIZE_NB then .error .corrupt_headerB
          else .ok (.sample is2 msglen true)
        else
          match is2.drain msglen with
          | .error e => .error e
          | .ok is3 => .ok (.skip is3)

/-- What a pass of the loop does after its header part. -/
def after_header (pvt : priv) : Except Err Head → Except Err (Option (priv × rawfile))
  | .error e => .error e
  | .ok .eof => .ok none
  | .ok (.skip is3) => .ok (some (pvt, is3))
  | .ok (.sample is2 msglen hasB) => (sample_packet pvt is2 msglen hasB).map some

/-- An input file whose first header carries the marker 0x5054. -/
def ex_badmark_file : KFile :=
  { data := encode_head 0x5054 0x4e41 24 0 0 ++ List.replicate 24 0, chunks := [3] }

/-- The stream a header part handed on (an unopened file if there is none). -/
def head_stream (r : Except Err Head) : rawfile :=
  match r with
  | .ok (.sample is2 _ _) => is2
  | .ok (.skip is3) => is3
  | _ => {}

/-- Whether a header part ended with a sample packet of the given length and
kind. -/
def head_is_sample (r : Except Err Head) (msglen : Nat) (hasB : Bool) : Bool :=
  match r with
  | .ok (.sample _ ml b) => decide (ml = msglen) && decide (b = hasB)
  | _ => false

/-- The stream left by a call of `read` (an unopened file if it threw). -/
def read_stream (r : Except Err (Option (List Nat) × rawfile)) : rawfile :=
  match r with
  | .ok (_, r1) => r1
  | .error _ => {}

/-- The output channel 0 after a run over packet 10 up to, not including,
`finalize_output`: the 20 byte header and 4 samples, all still buffered. -/
def ex_channel : rawfile :=
  (state_of (convert_all [ex_first_file] (priv.init false))).out_channel 0

/-! ## Reading a byte stream back as messages -/

/-- The sample packet, NA or NB as `hasB` says, whose encoding starts the byte
stream `u`. -/
def parse_packet (u : List Nat) (hasB : Bool) : Packet :=
  let d := PSCHead.decode (u.take 16)
  let a := QuartzNA.decode ((u.drop 16).take 24)
  { rxsec := d.rxsec, rxns := d.rxns, status := a.status, chmask := a.chmask,
    seqno := a.seqno, sec := a.sec, ns := a.ns,
    extB := if hasB then some ((u.drop 40).take 16) else none,
    body := if hasB then (u.drop 56).take (d.msglen - 40) else (u.drop 40).take (d.msglen - 24) }

/-- The message whose encoding starts the byte stream `u`. -/
def parse_msg (u : List Nat) : Msg :=
  let d := PSCHead.decode (u.take 16)
  if d.msgid = 0x4e41 then .sample (parse_packet u false)
  else if d.msgid = 0x4e42 then .sample (parse_packet u true)
  else .other d.msgid d.msglen d.rxsec d.rxns ((u.drop 16).take d.msglen)

/-- An input file holding packet 10 and one holding packet 11. -/
def ex_two_files : List KFile :=
  [{ data := (ex_packet 10).encode, chunks := [9] },
   { data := (ex_packet 11).encode, chunks := [0, 30] }]

/-! ## The gap-free demultiplexing as the claim words it -/

/-- The packet `b` follows the packet `a` in sequence. -/
def next_seq (a b : Packet) : Prop :=
  b.seqno = (a.seqno + 1) % W64

/-- The samples of the channel with bit `c` of the mask `m` in a packet body:
for each time point `t` below `bodyLen / (3 * n)` the word of the three bytes
at `3 * (t * n + r)`, where `n` is the number of set bits of `m` and `r` the
number of set bits below `c`. -/
def body_words (m c : Nat) (body : List Nat) : List Nat :=
  (List.range (body.length / (3 * popcount m))).map
    (fun t => word_at body (3 * (t * popcount m + rank m (List.range 32) c)))

/-- The samples of channel `c`, packet after packet. -/
def demux_words (m c : Nat) (ps : List Packet) : List Nat :=
  (ps.map (fun p => body_words m c p.body)).flatten

/-- An NA packet for channel 0 alone whose body is 67108842 = 3 * 22369614
bytes, which makes the message two bytes longer than 64 MiB. -/
def ex_big_packet : Packet :=
  { chmask := 1, seqno := 0, sec := 0, ns := 0, body := List.replicate 67108842 0 }

/-- An input file holding the 64 MiB packet. -/
def ex_big_file : KFile :=
  { data := ex_big_packet.encode }

/-- The rate of a gap as an exact fraction, in Hz: `count` samples per channel
in `dt` nanoseconds, `count / (dt * 10^-9)`. -/
def exact_rate (count dt : Nat) : ℚ :=
  (count : ℚ) / ((dt : ℚ) / 1000000000)

/-- The rate estimate in the words of the specification, as an exact fraction
in Hz: `(missing * last_sample_count / active_channels) / deltaT`, with the
quotients taken exactly and `deltaT` the difference `nsec - last_ns` in
seconds. -/
def Fsamp_spec (pvt : priv) (seqno nsec : Nat) : ℚ :=
  ((gap_nmissing pvt seqno : ℚ) * (pvt.last_nsamp : ℚ) / (popcount pvt.last_chmask : ℚ))
    / ((gap_dt pvt nsec : ℚ) / 1000000000)

/-- The state after the packets 10 and 11 of `ex_pre_file`. -/
def ex_pre_state (force : Bool) : priv :=
  state_of (convert_all [ex_pre_file] (priv.init force))

end Atf

/-! # Theorems -/

namespace Atf

/-! ## Writing to an output channel -/

theorem sys_write_at_end (f : KFile) (bytes : List Nat) (h : f.off = f.data.length) :
    (sys_write f bytes).data = f.data ++ bytes ∧
    (sys_write f bytes).off = (sys_write f bytes).data.length := by
  simp [sys_write, h]

theorem flush_ok {r : rawfile} (h : WOk r) :
    ∃ r1, r.flush = .ok r1 ∧ WOk r1 ∧ r1.content = r.content ∧ r1.pos = 0 ∧
      r1.file.data = r.content := by
  unfold rawfile.flush
  simp only [h.writing, h.is_open, Bool.not_true, Bool.false_eq_true, if_false]
  by_cases hp : r.pos = 0
  · refine ⟨r, by simp [hp, h.writing], h, rfl, hp, ?_⟩
    simp [rawfile.content, hp]
  · have hw := sys_write_at_end r.file (r.buf.take r.pos) h.off
    refine ⟨{ r with file := sys_write r.file (r.buf.take r.pos), pos := 0 },
      by simp [hp, h.writing, h.is_open], ?_, ?_, rfl, ?_⟩
    · exact ⟨h.writing, h.is_open, h.cap, Nat.zero_le _, hw.2⟩
    · simp [rawfile.content, hw.1]
    · simp [rawfile.content, hw.1]

theorem write_ok {r : rawfile} (h : WOk r) (bytes : List Nat) :
    ∃ r1, r.write bytes = .ok r1 ∧ WOk r1 ∧ r1.content = r.content ++ bytes := by
  have key : ∀ r0 : rawfile, WOk r0 →
      WOk { r0 with buf := r0.buf.take r0.pos ++ bytes ++ r0.buf.drop (r0.pos + bytes.length),
                    pos := r0.pos + bytes.length } ∧
      rawfile.content { r0 with
          buf := r0.buf.take r0.pos ++ bytes ++ r0.buf.drop (r0.pos + bytes.length),
          pos := r0.pos + bytes.length } = r0.content ++ bytes := by
    intro r0 h0
    have hl : (r0.buf.take r0.pos).length = r0.pos := by
      simp [List.length_take, h0.pos_le]
    refine ⟨⟨h0.writing, h0.is_open, h0.cap, ?_, h0.off⟩, ?_⟩
    · simp [List.length_take, h0.pos_le]
    · simp only [rawfile.content]
      rw [List.append_assoc (r0.buf.take r0.pos), List.take_append_eq_append_take]
      simp [hl, List.take_of_length_le]
  unfold rawfile.write
  by_cases hc : r.cap - r.pos < bytes.length
  · obtain ⟨r1, hf, hw1, hc1, -, -⟩ := flush_ok h
    simp only [hc, if_true, hf]
    exact ⟨_, rfl, (key r1 hw1).1, by rw [(key r1 hw1).2, hc1]⟩
  · simp only [hc, if_false]
    exact ⟨_, rfl, (key r h).1, (key r h).2⟩

end Atf

namespace Atf

/-! ## The placeholder injection loops -/

theorem cnt_cons (m i : Nat) (l : List Nat) :
    cnt m (i :: l) = (if active m i then 1 else 0) + cnt m l := by
  unfold cnt
  by_cases h : active m i = true
  · simp [List.filter_cons, h]; omega
  · simp [List.filter_cons, h]

theorem popcount_eq_cnt (m : Nat) : popcount m = cnt m (List.range 32) := rfl

theorem dec_mod (M n : Nat) (h1 : 1 ≤ n) (h2 : n < M) : (n + M - 1) % M = n - 1 := by
  have e : n + M - 1 = (n - 1) + M := by omega
  rw [e, Nat.add_mod_right]
  exact Nat.mod_eq_of_lt (by omega)

theorem wdec_eq_sub (M k : Nat) : ∀ (n : Nat), k ≤ n → n < M → wdec M k n = n - k := by
  induction k with
  | zero => intro n _ _; rfl
  | succ k ih =>
    intro n hk hn
    have h1 : (n + M - 1) % M = n - 1 := dec_mod M n (by omega) hn
    have h2 : n - 1 < M := by omega
    show wdec M k ((n + M - 1) % M) = n - (k + 1)
    rw [h1, ih (n - 1) (by omega) h2]
    omega

theorem inject_round (m : Nat) : ∀ (l : List Nat), l.Nodup → ∀ (n : Nat) (pvt : priv),
    (∀ i ∈ l, active m i = true → WOk (pvt.out_channel i)) →
    ∃ q, for_chans (inject_chan m) l (n, pvt) = .ok (wdec W64 (cnt m l) n, q) ∧
      q = { pvt with out_channel := q.out_channel } ∧
      ∀ j, ((j ∈ l ∧ active m j = true) →
              WOk (q.out_channel j) ∧
              (q.out_channel j).content
                = (pvt.out_channel j).content ++ host32 (pvt.last_channel j)) ∧
           (¬ (j ∈ l ∧ active m j = true) → q.out_channel j = pvt.out_channel j) := by
  intro l
  induction l with
  | nil =>
    intro _ n pvt _
    exact ⟨pvt, rfl, rfl, fun j => ⟨fun h => absurd h.1 (List.not_mem_nil j), fun _ => rfl⟩⟩
  | cons i rest ih =>
    intro hnd n pvt hw
    have hi : i ∉ rest := (List.nodup_cons.mp hnd).1
    have hrest : rest.Nodup := (List.nodup_cons.mp hnd).2
    by_cases ha : active m i = true
    · obtain ⟨o, ho, hwo, hco⟩ := write_ok (hw i (List.mem_cons_self i rest) ha)
        (host32 (pvt.last_channel i))
      have hw1 : ∀ k ∈ rest, active m k = true →
          WOk (({ pvt with out_channel := upd pvt.out_channel i o } : priv).out_channel k) := by
        intro k hk hak
        have : k ≠ i := fun e => hi (e ▸ hk)
        simpa [upd, this] using hw k (List.mem_cons_of_mem i hk) hak
      obtain ⟨q, hq, hfr, hch⟩ := ih hrest ((n + W64 - 1) % W64)
        { pvt with out_channel := upd pvt.out_channel i o } hw1
      refine ⟨q, ?_, ?_, ?_⟩
      · rw [for_chans]
        simp only [inject_chan, ha, Bool.not_true, Bool.false_eq_true, if_false, ho]
        rw [hq, cnt_cons, if_pos ha, Nat.add_comm 1, wdec]
      · rw [hfr]
      · intro j
        constructor
        · rintro ⟨hj, haj⟩
          by_cases hji : j = i
          · subst hji
            have := (hch j).2 (fun h => hi h.1)
            rw [this]
            simpa [upd] using And.intro hwo hco
          · have hjr : j ∈ rest := (List.mem_cons.mp hj).resolve_left hji
            have := (hch j).1 ⟨hjr, haj⟩
            simpa [upd, hji] using this
        · intro hn
          have hn1 : ¬ (j ∈ rest ∧ active m j = true) :=
            fun h => hn ⟨List.mem_cons_of_mem i h.1, h.2⟩
          have hji : j ≠ i := fun e => hn ⟨e ▸ List.mem_cons_self i rest, e ▸ ha⟩
          have := (hch j).2 hn1
          simpa [upd, hji] using this
    · have hw1 : ∀ k ∈ rest, active m k = true → WOk (pvt.out_channel k) :=
        fun k hk hak => hw k (List.mem_cons_of_mem i hk) hak
      obtain ⟨q, hq, hfr, hch⟩ := ih hrest n pvt hw1
      refine ⟨q, ?_, hfr, ?_⟩
      · rw [for_chans]
        simp only [inject_chan, ha, Bool.not_false, if_true]
        rw [hq, cnt_cons, if_neg ha, Nat.zero_add]
      · intro j
        constructor
        · rintro ⟨hj, haj⟩
          have hji : j ≠ i := fun e => ha (e ▸ haj)
          exact (hch j).1 ⟨(List.mem_cons.mp hj).resolve_left hji, haj⟩
        · intro hn
          exact (hch j).2 (fun h => hn ⟨List.mem_cons_of_mem i h.1, h.2⟩)

theorem rep_add (a b w : Nat) : rep (a + b) w = rep a w ++ rep b w := by
  unfold rep
  rw [List.replicate_add, List.flatten_append]

theorem rep_zero (w : Nat) : rep 0 w = [] := rfl

theorem rep_one (w : Nat) : rep 1 w = host32 w := by
  unfold rep
  rw [List.replicate_one, List.flatten_cons, List.flatten_nil, List.append_nil]

theorem mem_range32_active (m j : Nat) :
    (j ∈ List.range 32 ∧ active m j = true) ↔ (j < 32 ∧ active m j = true) := by
  rw [List.mem_range]

/-- The loop `while(nsamp)` of the injection writes `t` copies of the last
value to every active channel when `nsamp` is `t` times the channel count. -/
theorem inject_while_ok (m : Nat) (hk : 0 < cnt m (List.range 32)) :
    ∀ (t fuel : Nat) (pvt : priv), t < fuel → cnt m (List.range 32) * t < W64 →
    (∀ i, i < 32 → active m i = true → WOk (pvt.out_channel i)) →
    ∃ q, inject_while m fuel (cnt m (List.range 32) * t, pvt) = .ok (0, q) ∧
      q = { pvt with out_channel := q.out_channel } ∧
      ∀ j, ((j < 32 ∧ active m j = true) →
              WOk (q.out_channel j) ∧
              (q.out_channel j).content
                = (pvt.out_channel j).content ++ rep t (pvt.last_channel j)) ∧
           (¬ (j < 32 ∧ active m j = true) → q.out_channel j = pvt.out_channel j) := by
  intro t
  induction t with
  | zero =>
    intro fuel pvt hf _ hw
    obtain ⟨f, rfl⟩ : ∃ f, fuel = f + 1 := ⟨fuel - 1, by omega⟩
    refine ⟨pvt, ?_, rfl, fun j => ⟨fun hj => ?_, fun _ => rfl⟩⟩
    · rw [inject_while]; simp
    · exact ⟨hw j hj.1 hj.2, by rw [rep_zero, List.append_nil]⟩
  | succ t ih =>
    intro fuel pvt hf hlt hw
    obtain ⟨f, rfl⟩ : ∃ f, fuel = f + 1 := ⟨fuel - 1, by omega⟩
    have hw0 : ∀ i ∈ List.range 32, active m i = true → WOk (pvt.out_channel i) :=
      fun i hi => hw i (List.mem_range.mp hi)
    obtain ⟨q1, hq1, hfr1, hch1⟩ :=
      inject_round m (List.range 32) (List.nodup_range 32)
        (cnt m (List.range 32) * (t + 1)) pvt hw0
    have hsub : wdec W64 (cnt m (List.range 32)) (cnt m (List.range 32) * (t + 1))
        = cnt m (List.range 32) * t := by
      rw [wdec_eq_sub W64 _ _ (by rw [Nat.mul_succ]; omega) hlt, Nat.mul_succ]
      omega
    rw [hsub] at hq1
    have hw1 : ∀ i, i < 32 → active m i = true → WOk (q1.out_channel i) :=
      fun i hi ha => ((hch1 i).1 ⟨List.mem_range.mpr hi, ha⟩).1
    obtain ⟨q, hq, hfr, hch⟩ := ih f q1 (by omega)
      (lt_of_le_of_lt (Nat.mul_le_mul_left _ (Nat.le_succ t)) hlt) hw1
    have hl1 : q1.last_channel = pvt.last_channel := by rw [hfr1]
    refine ⟨q, ?_, ?_, ?_⟩
    · rw [inject_while]
      have hne : ¬ (cnt m (List.range 32) * (t + 1) = 0) := by
        rw [Nat.mul_succ]; omega
      simp only [hne, if_false, hq1, hq]
    · rw [hfr, hfr1]
    · intro j
      constructor
      · intro hj
        have h1 := (hch1 j).1 ⟨List.mem_range.mpr hj.1, hj.2⟩
        have h2 := (hch j).1 hj
        refine ⟨h2.1, ?_⟩
        rw [h2.2, h1.2, hl1, List.append_assoc, Nat.add_comm t 1, rep_add, rep_one]
      · intro hj
        have h1 := (hch1 j).2 (fun h => hj ⟨List.mem_range.mp h.1, h.2⟩)
        rw [(hch j).2 hj, h1]

/-- The loop `while(nmissing--)` writes `nmissing * t` copies of the last value
to every active channel when `last_nsamp` is `t` times the channel count. -/
theorem inject_ok (m : Nat) (hk : 0 < cnt m (List.range 32)) (t : Nat)
    (hlt : cnt m (List.range 32) * t < W64) :
    ∀ (nmissing : Nat) (pvt : priv), pvt.last_nsamp = cnt m (List.range 32) * t →
    (∀ i, i < 32 → active m i = true → WOk (pvt.out_channel i)) →
    ∃ q, inject m nmissing pvt = .ok q ∧
      q = { pvt with out_channel := q.out_channel } ∧
      ∀ j, ((j < 32 ∧ active m j = true) →
              WOk (q.out_channel j) ∧
              (q.out_channel j).content
                = (pvt.out_channel j).content ++ rep (nmissing * t) (pvt.last_channel j)) ∧
           (¬ (j < 32 ∧ active m j = true) → q.out_channel j = pvt.out_channel j) := by
  intro nmissing
  induction nmissing with
  | zero =>
    intro pvt _ hw
    refine ⟨pvt, rfl, rfl, fun j => ⟨fun hj => ?_, fun _ => rfl⟩⟩
    exact ⟨hw j hj.1 hj.2, by rw [Nat.zero_mul, rep_zero, List.append_nil]⟩
  | succ n ih =>
    intro pvt hn hw
    have ht : t < W64 := lt_of_le_of_lt (Nat.le_mul_of_pos_left t hk) hlt
    obtain ⟨q1, hq1, hfr1, hch1⟩ := inject_while_ok m hk t W64 pvt ht hlt hw
    have hn1 : q1.last_nsamp = cnt m (List.range 32) * t := by rw [hfr1]; exact hn
    have hl1 : q1.last_channel = pvt.last_channel := by rw [hfr1]
    obtain ⟨q, hq, hfr, hch⟩ := ih q1 hn1 (fun i hi ha => ((hch1 i).1 ⟨hi, ha⟩).1)
    refine ⟨q, ?_, ?_, ?_⟩
    · rw [inject, hn, hq1]
      exact hq
    · rw [hfr, hfr1]
    · intro j
      constructor
      · intro hj
        have h1 := (hch1 j).1 hj
        have h2 := (hch j).1 hj
        refine ⟨h2.1, ?_⟩
        rw [h2.2, h1.2, hl1, List.append_assoc, ← rep_add, Nat.succ_mul, Nat.add_comm]
      · intro hj
        rw [(hch j).2 hj, (hch1 j).2 hj]

/-! ## The sample extraction loops -/

theorem word_at_eq {buf : List Nat} {c b0 b1 b2 : Nat} (h0 : buf[c]? = some b0)
    (h1 : buf[c + 1]? = some b1) (h2 : buf[c + 2]? = some b2) :
    word_at buf c = sample_word b0 b1 b2 := by
  unfold word_at
  rw [List.getD_eq_getElem?_getD, List.getD_eq_getElem?_getD, List.getD_eq_getElem?_getD,
    h0, h1, h2]
  rfl

theorem extract_chan_inactive (buf : List Nat) (m : Nat) (x : XState) (i : Nat)
    (ha : ¬ active m i = true) : extract_chan buf m x i = .ok x := by
  unfold extract_chan
  simp [ha]

theorem extract_chan_ok (buf : List Nat) (m : Nat) (x : XState) (i : Nat)
    (ha : active m i = true) (hw : WOk (x.pvt.out_channel i)) (y : XState)
    (h : extract_chan buf m x i = .ok y) :
    0 < x.nsamp ∧ x.cur + 3 ≤ buf.length ∧
    ∃ o, WOk o ∧
      o.content = (x.pvt.out_channel i).content ++ host32 (word_at buf x.cur) ∧
      y = { nsamp := x.nsamp - 1, cur := x.cur + 3,
            pvt := { x.pvt with
              last_channel := upd x.pvt.last_channel i (word_at buf x.cur),
              out_channel := upd x.pvt.out_channel i o } } := by
  unfold extract_chan at h
  simp only [ha, Bool.not_true, Bool.false_eq_true, if_false] at h
  by_cases hn : x.nsamp = 0
  · simp [hn] at h
  · simp only [hn, if_false] at h
    cases h0 : buf[x.cur]? with
    | none => simp [h0] at h
    | some b0 =>
      cases h1 : buf[x.cur + 1]? with
      | none => simp [h0, h1] at h
      | some b1 =>
        cases h2 : buf[x.cur + 2]? with
        | none => simp [h0, h1, h2] at h
        | some b2 =>
          obtain ⟨o, ho, hwo, hco⟩ := write_ok hw (host32 (sample_word b0 b1 b2))
          simp only [h0, h1, h2, ho] at h
          have hlen : x.cur + 2 < buf.length := (List.getElem?_eq_some.mp h2).1
          refine ⟨Nat.pos_of_ne_zero hn, by omega, o, hwo, ?_, ?_⟩
          · rw [hco, word_at_eq h0 h1 h2]
          · rw [word_at_eq h0 h1 h2]
            exact (Except.ok.inj h).symm

theorem extract_chan_total (buf : List Nat) (m : Nat) (x : XState) (i : Nat)
    (ha : active m i = true) (hw : WOk (x.pvt.out_channel i))
    (hn : 0 < x.nsamp) (hb : x.cur + 3 ≤ buf.length) :
    ∃ y, extract_chan buf m x i = .ok y := by
  obtain ⟨o, ho, -, -⟩ := write_ok hw
    (host32 (sample_word (buf.get ⟨x.cur, by omega⟩) (buf.get ⟨x.cur + 1, by omega⟩)
      (buf.get ⟨x.cur + 2, by omega⟩)))
  have h0 : buf[x.cur]? = some (buf.get ⟨x.cur, by omega⟩) :=
    List.getElem?_eq_getElem (by omega)
  have h1 : buf[x.cur + 1]? = some (buf.get ⟨x.cur + 1, by omega⟩) :=
    List.getElem?_eq_getElem (by omega)
  have h2 : buf[x.cur + 2]? = some (buf.get ⟨x.cur + 2, by omega⟩) :=
    List.getElem?_eq_getElem (by omega)
  unfold extract_chan
  simp only [ha, Bool.not_true, Bool.false_eq_true, if_false, Nat.ne_of_gt hn, h0, h1, h2, ho]
  exact ⟨_, rfl⟩

theorem extract_round_ok (buf : List Nat) (m : Nat) : ∀ (l : List Nat), l.Nodup →
    ∀ (x y : XState), (∀ i ∈ l, active m i = true → WOk (x.pvt.out_channel i)) →
    for_chans (extract_chan buf m) l x = .ok y →
    cnt m l ≤ x.nsamp ∧ y.nsamp = x.nsamp - cnt m l ∧ y.cur = x.cur + 3 * cnt m l ∧
    y.pvt = { x.pvt with last_channel := y.pvt.last_channel,
                         out_channel := y.pvt.out_channel } ∧
    ∀ j, ((j ∈ l ∧ active m j = true) →
            WOk (y.pvt.out_channel j) ∧
            (y.pvt.out_channel j).content = (x.pvt.out_channel j).content
                ++ host32 (word_at buf (x.cur + 3 * rank m l j)) ∧
            y.pvt.last_channel j = word_at buf (x.cur + 3 * rank m l j)) ∧
         (¬ (j ∈ l ∧ active m j = true) →
            y.pvt.out_channel j = x.pvt.out_channel j ∧
            y.pvt.last_channel j = x.pvt.last_channel j) := by
  intro l
  induction l with
  | nil =>
    intro _ x y _ h
    rw [for_chans] at h
    cases Except.ok.inj h
    exact ⟨Nat.zero_le _, rfl, rfl, rfl,
      fun j => ⟨fun hj => absurd hj.1 (List.not_mem_nil j), fun _ => ⟨rfl, rfl⟩⟩⟩
  | cons i rest ih =>
    intro hnd x y hw h
    have hi : i ∉ rest := (List.nodup_cons.mp hnd).1
    have hrest : rest.Nodup := (List.nodup_cons.mp hnd).2
    rw [for_chans] at h
    by_cases ha : active m i = true
    · cases hb : extract_chan buf m x i with
      | error e => simp [hb] at h
      | ok x1 =>
        simp only [hb] at h
        obtain ⟨hpos, -, o, hwo, hco, hx1⟩ :=
          extract_chan_ok buf m x i ha (hw i (List.mem_cons_self i rest) ha) x1 hb
        subst hx1
        have hw1 : ∀ k ∈ rest, active m k = true → WOk (upd x.pvt.out_channel i o k) := by
          intro k hk hak
          have : k ≠ i := fun e => hi (e ▸ hk)
          simpa [upd, this] using hw k (List.mem_cons_of_mem i hk) hak
        obtain ⟨hc, hn, hcur, hfr, hch⟩ := ih hrest _ y hw1 h
        simp only at hc hn hcur hfr hch
        rw [cnt_cons, if_pos ha]
        refine ⟨by omega, by omega, by omega, by rw [hfr], ?_⟩
        intro j
        constructor
        · rintro ⟨hj, haj⟩
          by_cases hji : j = i
          · subst hji
            have h2 := (hch j).2 (fun h => hi h.1)
            have hr : rank m (j :: rest) j = 0 := by simp [rank]
            rw [h2.1, h2.2, hr]
            simpa [upd] using And.intro hwo hco
          · have hjr : j ∈ rest := (List.mem_cons.mp hj).resolve_left hji
            have h2 := (hch j).1 ⟨hjr, haj⟩
            have hr : x.cur + 3 * rank m (i :: rest) j = x.cur + 3 + 3 * rank m rest j := by
              simp only [rank, hji, if_false, ha, if_true]
              omega
            rw [hr]
            simpa [upd, hji] using h2
        · intro hn2
          have hn1 : ¬ (j ∈ rest ∧ active m j = true) :=
            fun h => hn2 ⟨List.mem_cons_of_mem i h.1, h.2⟩
          have hji : j ≠ i := fun e => hn2 ⟨e ▸ List.mem_cons_self i rest, e ▸ ha⟩
          simpa [upd, hji] using (hch j).2 hn1
    · rw [extract_chan_inactive buf m x i ha] at h
      simp only at h
      obtain ⟨hc, hn, hcur, hfr, hch⟩ :=
        ih hrest x y (fun k hk hak => hw k (List.mem_cons_of_mem i hk) hak) h
      rw [cnt_cons, if_neg ha, Nat.zero_add]
      refine ⟨hc, hn, hcur, hfr, ?_⟩
      intro j
      constructor
      · rintro ⟨hj, haj⟩
        have hji : j ≠ i := fun e => ha (e ▸ haj)
        have hr : rank m (i :: rest) j = rank m rest j := by
          simp [rank, hji, ha]
        rw [hr]
        exact (hch j).1 ⟨(List.mem_cons.mp hj).resolve_left hji, haj⟩
      · intro hn2
        exact (hch j).2 (fun h => hn2 ⟨List.mem_cons_of_mem i h.1, h.2⟩)

theorem extract_round_total (buf : List Nat) (m : Nat) : ∀ (l : List Nat), l.Nodup →
    ∀ (x : XState), (∀ i ∈ l, active m i = true → WOk (x.pvt.out_channel i)) →
    cnt m l ≤ x.nsamp → x.cur + 3 * cnt m l ≤ buf.length →
    ∃ y, for_chans (extract_chan buf m) l x = .ok y := by
  intro l
  induction l with
  | nil => intro _ x _ _ _; exact ⟨x, rfl⟩
  | cons i rest ih =>
    intro hnd x hw hc hb
    have hi : i ∉ rest := (List.nodup_cons.mp hnd).1
    have hrest : rest.Nodup := (List.nodup_cons.mp hnd).2
    rw [for_chans]
    by_cases ha : active m i = true
    · rw [cnt_cons, if_pos ha] at hc hb
      have hwi := hw i (List.mem_cons_self i rest) ha
      obtain ⟨x1, hx1⟩ := extract_chan_total buf m x i ha hwi (by omega) (by omega)
      obtain ⟨-, -, o, hwo, hco, he⟩ := extract_chan_ok buf m x i ha hwi x1 hx1
      rw [hx1]
      subst he
      apply ih hrest
      · intro k hk hak
        have : k ≠ i := fun e => hi (e ▸ hk)
        simpa [upd, this] using hw k (List.mem_cons_of_mem i hk) hak
      · simp only; omega
      · simp only; omega
    · rw [cnt_cons, if_neg ha, Nat.zero_add] at hc hb
      rw [extract_chan_inactive buf m x i ha]
      exact ih hrest x (fun k hk hak => hw k (List.mem_cons_of_mem i hk) hak) hc hb

theorem wbytes_nil : wbytes [] = [] := rfl

theorem wbytes_cons (w : Nat) (ws : List Nat) : wbytes (w :: ws) = host32 w ++ wbytes ws := by
  unfold wbytes
  rw [List.map_cons, List.flatten_cons]

theorem wbytes_append (a b : List Nat) : wbytes (a ++ b) = wbytes a ++ wbytes b := by
  unfold wbytes
  rw [List.map_append, List.flatten_append]

theorem rep_eq_wbytes (c w : Nat) : rep c w = wbytes (List.replicate c w) := by
  unfold rep wbytes
  rw [List.map_replicate]

theorem length_host32 (w : Nat) : (host32 w).length = 4 := rfl

theorem length_wbytes (ws : List Nat) : (wbytes ws).length = 4 * ws.length := by
  induction ws with
  | nil => rfl
  | cons w ws ih =>
    rw [wbytes_cons, List.length_append, ih, length_host32, List.length_cons]
    omega

/-- What a normal exit of the extraction loop implies: `nsamp` was a multiple
of the channel count and every active channel received its column of words. -/
theorem extract_while_ok (buf : List Nat) (m : Nat) :
    ∀ (fuel : Nat) (x y : XState),
    (∀ i, i < 32 → active m i = true → WOk (x.pvt.out_channel i)) →
    extract_while buf m fuel x = .ok y →
    ∃ T, x.nsamp = cnt m (List.range 32) * T ∧ y.nsamp = 0 ∧
      y.cur = x.cur + 3 * (cnt m (List.range 32) * T) ∧
      y.pvt = { x.pvt with last_channel := y.pvt.last_channel,
                           out_channel := y.pvt.out_channel } ∧
      ∀ j, ((j < 32 ∧ active m j = true) →
              WOk (y.pvt.out_channel j) ∧
              (y.pvt.out_channel j).content = (x.pvt.out_channel j).content
                ++ wbytes (chan_words buf (cnt m (List.range 32))
                    (rank m (List.range 32) j) T x.cur) ∧
              y.pvt.last_channel j
                = (chan_words buf (cnt m (List.range 32))
                    (rank m (List.range 32) j) T x.cur).getLastD (x.pvt.last_channel j)) ∧
           (¬ (j < 32 ∧ active m j = true) →
              y.pvt.out_channel j = x.pvt.out_channel j ∧
              y.pvt.last_channel j = x.pvt.last_channel j) := by
  intro fuel
  induction fuel with
  | zero => intro x y _ h; rw [extract_while] at h; cases h
  | succ fuel ih =>
    intro x y hw h
    rw [extract_while] at h
    by_cases hz : x.nsamp = 0
    · simp only [hz, if_true] at h
      cases Except.ok.inj h
      refine ⟨0, by rw [hz, Nat.mul_zero], hz, by rw [Nat.mul_zero, Nat.mul_zero, Nat.add_zero],
        rfl, fun j => ⟨fun hj => ?_, fun _ => ⟨rfl, rfl⟩⟩⟩
      exact ⟨hw j hj.1 hj.2, by rw [chan_words, wbytes_nil, List.append_nil], rfl⟩
    · simp only [hz, if_false] at h
      cases hb : for_chans (extract_chan buf m) (List.range 32) x with
      | error e => simp [hb] at h
      | ok x1 =>
        simp only [hb] at h
        obtain ⟨hc, hn, hcur, hfr, hch⟩ :=
          extract_round_ok buf m (List.range 32) (List.nodup_range 32) x x1
            (fun i hi => hw i (List.mem_range.mp hi)) hb
        have hw1 : ∀ i, i < 32 → active m i = true → WOk (x1.pvt.out_channel i) :=
          fun i hi ha => ((hch i).1 ⟨List.mem_range.mpr hi, ha⟩).1
        obtain ⟨T, hT, hy0, hycur, hyfr, hych⟩ := ih x1 y hw1 h
        refine ⟨T + 1, ?_, hy0, ?_, ?_, ?_⟩
        · rw [Nat.mul_succ]; omega
        · rw [hycur, hcur, Nat.mul_succ]; omega
        · rw [hyfr, hfr]
        · intro j
          constructor
          · intro hj
            have h1 := (hch j).1 ⟨List.mem_range.mpr hj.1, hj.2⟩
            have h2 := (hych j).1 hj
            refine ⟨h2.1, ?_, ?_⟩
            · rw [h2.2.1, h1.2.1, chan_words, wbytes_cons, List.append_assoc, hcur]
            · rw [h2.2.2, h1.2.2, chan_words, List.getLastD_cons, hcur]
          · intro hj
            have h1 := (hch j).2 (fun h => hj ⟨List.mem_range.mp h.1, h.2⟩)
            have h2 := (hych j).2 hj
            exact ⟨by rw [h2.1, h1.1], by rw [h2.2, h1.2]⟩

/-- The extraction loop exits normally when `nsamp` is a multiple of the channel
count and the body bytes are in the buffer. -/
theorem extract_while_total (buf : List Nat) (m : Nat) :
    ∀ (T fuel : Nat) (x : XState), T < fuel →
    (∀ i, i < 32 → active m i = true → WOk (x.pvt.out_channel i)) →
    x.nsamp = cnt m (List.range 32) * T →
    x.cur + 3 * (cnt m (List.range 32) * T) ≤ buf.length →
    ∃ y, extract_while buf m fuel x = .ok y := by
  intro T
  induction T with
  | zero =>
    intro fuel x hf _ hn _
    obtain ⟨f, rfl⟩ : ∃ f, fuel = f + 1 := ⟨fuel - 1, by omega⟩
    rw [extract_while, hn, Nat.mul_zero]
    exact ⟨x, by simp⟩
  | succ T ih =>
    intro fuel x hf hw hn hb
    obtain ⟨f, rfl⟩ : ∃ f, fuel = f + 1 := ⟨fuel - 1, by omega⟩
    rw [Nat.mul_succ] at hn hb
    have hw0 : ∀ i ∈ List.range 32, active m i = true → WOk (x.pvt.out_channel i) :=
      fun i hi => hw i (List.mem_range.mp hi)
    obtain ⟨x1, hx1⟩ := extract_round_total buf m (List.range 32) (List.nodup_range 32) x hw0
      (by omega) (by omega)
    obtain ⟨hc, hn1, hcur, hfr, hch⟩ :=
      extract_round_ok buf m (List.range 32) (List.nodup_range 32) x x1 hw0 hx1
    have hw1 : ∀ i, i < 32 → active m i = true → WOk (x1.pvt.out_channel i) :=
      fun i hi ha => ((hch i).1 ⟨List.mem_range.mpr hi, ha⟩).1
    obtain ⟨y, hy⟩ := ih f x1 (by omega) hw1 (by omega) (by omega)
    rw [extract_while]
    by_cases hz : x.nsamp = 0
    · exact ⟨x, by simp [hz]⟩
    · exact ⟨y, by simp only [hz, if_false, hx1, hy]⟩

/-! ## `prepare_output` -/

theorem WOk_mk_open : WOk (rawfile.mk_open {} true) :=
  ⟨rfl, rfl, rfl, Nat.le_refl _, rfl⟩

theorem prepare_round (m : Nat) : ∀ (l : List Nat), l.Nodup → ∀ (pvt : priv),
    ∃ q, for_chans (prepare_chan m) l pvt = .ok q ∧
      q = { pvt with out_channel := q.out_channel } ∧
      ∀ j, ((j ∈ l ∧ active m j = true) →
              WOk (q.out_channel j) ∧ (q.out_channel j).content = HDR_INVALID) ∧
           (¬ (j ∈ l ∧ active m j = true) → q.out_channel j = pvt.out_channel j) := by
  intro l
  induction l with
  | nil =>
    intro _ pvt
    exact ⟨pvt, rfl, rfl, fun j => ⟨fun h => absurd h.1 (List.not_mem_nil j), fun _ => rfl⟩⟩
  | cons i rest ih =>
    intro hnd pvt
    have hi : i ∉ rest := (List.nodup_cons.mp hnd).1
    have hrest : rest.Nodup := (List.nodup_cons.mp hnd).2
    by_cases ha : active m i = true
    · obtain ⟨o, ho, hwo, hco⟩ := write_ok WOk_mk_open HDR_INVALID
      obtain ⟨q, hq, hfr, hch⟩ := ih hrest { pvt with out_channel := upd pvt.out_channel i o }
      refine ⟨q, ?_, by rw [hfr], ?_⟩
      · rw [for_chans]
        simp only [prepare_chan, ha, Bool.not_true, Bool.false_eq_true, if_false, ho]
        exact hq
      · intro j
        constructor
        · rintro ⟨hj, haj⟩
          by_cases hji : j = i
          · subst hji
            rw [(hch j).2 (fun h => hi h.1)]
            refine ⟨by simpa [upd] using hwo, ?_⟩
            have : (rawfile.mk_open {} true).content = [] := rfl
            simpa [upd, this] using hco
          · exact (hch j).1 ⟨(List.mem_cons.mp hj).resolve_left hji, haj⟩
        · intro hn
          have hn1 : ¬ (j ∈ rest ∧ active m j = true) :=
            fun h => hn ⟨List.mem_cons_of_mem i h.1, h.2⟩
          have hji : j ≠ i := fun e => hn ⟨e ▸ List.mem_cons_self i rest, e ▸ ha⟩
          simpa [upd, hji] using (hch j).2 hn1
    · obtain ⟨q, hq, hfr, hch⟩ := ih hrest pvt
      refine ⟨q, ?_, hfr, ?_⟩
      · rw [for_chans]
        simp only [prepare_chan, ha, Bool.not_false, if_true]
        exact hq
      · intro j
        constructor
        · rintro ⟨hj, haj⟩
          have hji : j ≠ i := fun e => ha (e ▸ haj)
          exact (hch j).1 ⟨(List.mem_cons.mp hj).resolve_left hji, haj⟩
        · intro hn
          exact (hch j).2 (fun h => hn ⟨List.mem_cons_of_mem i h.1, h.2⟩)

/-- With a non-zero mask `prepare_output` opens every active channel and
leaves the placeholder header as its contents. -/
theorem prepare_output_ok (pvt : priv) (h : pvt.last_chmask ≠ 0) :
    ∃ q, prepare_output pvt = .ok q ∧
      q = { pvt with out_channel := q.out_channel } ∧
      ∀ j, ((j < 32 ∧ active pvt.last_chmask j = true) →
              WOk (q.out_channel j) ∧ (q.out_channel j).content = HDR_INVALID) ∧
           (¬ (j < 32 ∧ active pvt.last_chmask j = true) →
              q.out_channel j = pvt.out_channel j) := by
  obtain ⟨q, hq, hfr, hch⟩ :=
    prepare_round pvt.last_chmask (List.range 32) (List.nodup_range 32) pvt
  refine ⟨q, ?_, hfr, fun j => ⟨fun hj => (hch j).1 ⟨List.mem_range.mpr hj.1, hj.2⟩,
    fun hj => (hch j).2 (fun hh => hj ⟨List.mem_range.mp hh.1, hh.2⟩)⟩⟩
  unfold prepare_output
  simp only [h, if_false]
  exact hq

theorem prepare_output_zero (pvt : priv) (h : pvt.last_chmask = 0) :
    prepare_output pvt = .error .missing_chmask := by
  unfold prepare_output
  simp only [h, if_true]

/-! ## Reading: `ensure`, `read`, `drain` -/

theorem take_append_drop_length (l : List Nat) (k : Nat) :
    l = l.take k ++ l.drop (l.take k).length := by
  by_cases h : k ≤ l.length
  · rw [List.length_take, Nat.min_eq_left h, List.take_append_drop]
  · rw [List.take_of_length_le (by omega), List.drop_length, List.append_nil]

theorem sys_read_spec (f : KFile) (count : Nat) :
    (sys_read f count).2.data = f.data ∧
    (sys_read f count).2.off = f.off + (sys_read f count).1.length ∧
    f.data.drop f.off
      = (sys_read f count).1 ++ f.data.drop (f.off + (sys_read f count).1.length) ∧
    (sys_read f count).1.length ≤ count ∧
    ((sys_read f count).1.length = 0 → count = 0 ∨ f.data.drop f.off = []) := by
  obtain ⟨k, hk, hk0, hgot⟩ : ∃ k, k ≤ count ∧ (k = 0 → count = 0) ∧
      (sys_read f count).1 = (f.data.drop f.off).take k := by
    unfold sys_read
    cases f.chunks with
    | nil => exact ⟨count, Nat.le_refl _, fun h => h, rfl⟩
    | cons c cs => exact ⟨min count (c + 1), Nat.min_le_left _ _, fun h => by omega, rfl⟩
  refine ⟨rfl, rfl, ?_, ?_, ?_⟩
  · rw [hgot, ← List.drop_drop]
    exact take_append_drop_length _ k
  · rw [hgot, List.length_take]; omega
  · intro h0
    rw [hgot, List.length_take] at h0
    by_cases hkz : k = 0
    · exact Or.inl (hk0 hkz)
    · right
      have : (f.data.drop f.off).length = 0 := by omega
      exact List.length_eq_zero.mp this

theorem unread_pos_zero (r : rawfile) (hp : r.pos = 0) :
    r.unread = r.buf.take r.limit ++ r.file.data.drop r.file.off := by
  unfold rawfile.unread
  rw [hp, List.drop_zero, Nat.sub_zero]

/-- A `true` return of the refill loop: the stream is unchanged and `need`
bytes are buffered. -/
theorem ensure_loop_true : ∀ (fuel : Nat) (r r1 : rawfile) (need : Nat),
    ROk r → r.pos = 0 → r.ensure_loop fuel need = .ok (true, r1) →
    ROk r1 ∧ r1.unread = r.unread ∧ need ≤ r1.limit - r1.pos ∧ r1.cap = r.cap ∧ r1.pos = 0
  | 0, r, r1, need, _, _, h => by rw [rawfile.ensure_loop] at h; cases h
  | fuel + 1, r, r1, need, hr, hp, h => by
    rw [rawfile.ensure_loop] at h
    by_cases hc : r.limit - r.pos < need
    · simp only [hc, if_true] at h
      by_cases hz : (sys_read r.file (r.cap - r.limit)).1.length = 0
      · simp only [hz, if_true] at h
        split at h <;> cases h
      · simp only [hz, if_false] at h
        obtain ⟨hd, ho, hsp, hle, -⟩ := sys_read_spec r.file (r.cap - r.limit)
        have hlim := hr.limit_cap
        obtain ⟨r2, hr2def⟩ : ∃ r2 : rawfile, r2 = { r with
            buf := r.buf.take r.limit ++ (sys_read r.file (r.cap - r.limit)).1,
            limit := r.limit + (sys_read r.file (r.cap - r.limit)).1.length,
            file := (sys_read r.file (r.cap - r.limit)).2 } := ⟨_, rfl⟩
        rw [← hr2def] at h
        have e1 : r2.pos = 0 := by rw [hr2def]; exact hp
        have e2 : r2.limit = r.limit + (sys_read r.file (r.cap - r.limit)).1.length := by
          rw [hr2def]
        have e3 : r2.buf = r.buf.take r.limit ++ (sys_read r.file (r.cap - r.limit)).1 := by
          rw [hr2def]
        have e4 : r2.file = (sys_read r.file (r.cap - r.limit)).2 := by rw [hr2def]
        have e5 : r2.cap = r.cap := by rw [hr2def]
        have e6 : r2.writing = r.writing := by rw [hr2def]
        have hblen : r2.buf.length = r2.limit := by
          rw [e3, e2, List.length_append, List.length_take, Nat.min_eq_left hr.limit_le]
        have hr2 : ROk r2 :=
          ⟨by rw [e6]; exact hr.writing, by rw [e1]; exact Nat.zero_le _,
            by rw [hblen], by rw [e2, e5]; omega⟩
        obtain ⟨h1, h2, h3, h4, h5⟩ := ensure_loop_true fuel r2 r1 need hr2 e1 h
        refine ⟨h1, ?_, h3, by rw [h4, e5], h5⟩
        rw [h2, unread_pos_zero r2 e1, unread_pos_zero r hp,
          List.take_of_length_le (by rw [hblen]), e3, e4, ho, hd, List.append_assoc, ← hsp]
    · simp only [hc, if_false] at h
      cases Except.ok.inj h
      exact ⟨hr, rfl, by omega, rfl, hp⟩

/-- The refill loop returns `true` when the stream holds `need` bytes and the
buffer can take them. -/
theorem ensure_loop_total : ∀ (fuel : Nat) (r : rawfile) (need : Nat),
    ROk r → r.pos = 0 → need ≤ r.cap → need ≤ r.unread.length → need - r.limit < fuel →
    ∃ r1, r.ensure_loop fuel need = .ok (true, r1)
  | 0, _, _, _, _, _, _, hf => absurd hf (Nat.not_lt_zero _)
  | fuel + 1, r, need, hr, hp, hcap, hlen, hf => by
    rw [rawfile.ensure_loop]
    by_cases hc : r.limit - r.pos < need
    · simp only [hc, if_true]
      rw [hp, Nat.sub_zero] at hc
      obtain ⟨hd, ho, hsp, hle, hzero⟩ := sys_read_spec r.file (r.cap - r.limit)
      have hul : r.unread.length = r.limit + (r.file.data.drop r.file.off).length := by
        rw [unread_pos_zero r hp, List.length_append, List.length_take,
          Nat.min_eq_left hr.limit_le]
      have hz : ¬ (sys_read r.file (r.cap - r.limit)).1.length = 0 := by
        intro h0
        rcases hzero h0 with h | h
        · omega
        · rw [h, List.length_nil] at hul; omega
      simp only [hz, if_false]
      obtain ⟨r2, hr2def⟩ : ∃ r2 : rawfile, r2 = { r with
          buf := r.buf.take r.limit ++ (sys_read r.file (r.cap - r.limit)).1,
          limit := r.limit + (sys_read r.file (r.cap - r.limit)).1.length,
          file := (sys_read r.file (r.cap - r.limit)).2 } := ⟨_, rfl⟩
      rw [← hr2def]
      have e1 : r2.pos = 0 := by rw [hr2def]; exact hp
      have e2 : r2.limit = r.limit + (sys_read r.file (r.cap - r.limit)).1.length := by
        rw [hr2def]
      have e3 : r2.buf = r.buf.take r.limit ++ (sys_read r.file (r.cap - r.limit)).1 := by
        rw [hr2def]
      have e4 : r2.file = (sys_read r.file (r.cap - r.limit)).2 := by rw [hr2def]
      have e5 : r2.cap = r.cap := by rw [hr2def]
      have e6 : r2.writing = r.writing := by rw [hr2def]
      have hlim := hr.limit_cap
      have hblen : r2.buf.length = r2.limit := by
        rw [e3, e2, List.length_append, List.length_take, Nat.min_eq_left hr.limit_le]
      have hr2 : ROk r2 :=
        ⟨by rw [e6]; exact hr.writing, by rw [e1]; exact Nat.zero_le _,
          by rw [hblen], by rw [e2, e5]; omega⟩
      have hu2 : r2.unread = r.unread := by
        rw [unread_pos_zero r2 e1, unread_pos_zero r hp,
          List.take_of_length_le (by rw [hblen]), e3, e4, ho, hd, List.append_assoc, ← hsp]
      exact ensure_loop_total fuel r2 need hr2 e1 (by rw [e5]; exact hcap)
        (by rw [hu2]; exact hlen) (by rw [e2]; omega)
    · simp only [hc, if_false]
      exact ⟨r, rfl⟩

/-- The refill loop returns `false` at end of data with an empty buffer. -/
theorem ensure_loop_eof (fuel : Nat) (r : rawfile) (need : Nat)
    (hr : ROk r) (hp : r.pos = 0) (hu : r.unread = []) (hn : 0 < need) :
    ∃ r1, r.ensure_loop (fuel + 1) need = .ok (false, r1) := by
  rw [unread_pos_zero r hp] at hu
  have hl : r.limit = 0 := by
    have := congrArg List.length (List.append_eq_nil.mp hu).1
    rw [List.length_take, Nat.min_eq_left hr.limit_le, List.length_nil] at this
    exact this
  have hrest : r.file.data.drop r.file.off = [] := (List.append_eq_nil.mp hu).2
  have hz : (sys_read r.file (r.cap - r.limit)).1.length = 0 := by
    have h3 := (sys_read_spec r.file (r.cap - r.limit)).2.2.1
    rw [hrest] at h3
    have := congrArg List.length h3
    rw [List.length_nil, List.length_append] at this
    omega
  rw [rawfile.ensure_loop]
  have hc : r.limit - r.pos < need := by omega
  simp only [hc, if_true, hz]
  rw [if_pos hl]
  exact ⟨_, rfl⟩

theorem buffered_length (r : rawfile) (hr : ROk r) :
    ((r.buf.drop r.pos).take (r.limit - r.pos)).length = r.limit - r.pos := by
  have h1 := hr.pos_le
  have h2 := hr.limit_le
  rw [List.length_take, List.length_drop]
  omega

/-- The state of `ensure` after the `memmove` step. -/
theorem compact_spec (r : rawfile) (hr : ROk r) :
    ∃ r1 : rawfile,
      r1 = (if r.pos ≠ r.limit then
              { r with buf := (r.buf.drop r.pos).take (r.limit - r.pos),
                       limit := r.limit - r.pos, pos := 0 }
            else { r with pos := 0, limit := 0 }) ∧
      ROk r1 ∧ r1.pos = 0 ∧ r1.unread = r.unread ∧ r1.cap = r.cap ∧
      r1.limit = r.limit - r.pos := by
  have h1 := hr.pos_le
  have h2 := hr.limit_le
  have h3 := hr.limit_cap
  by_cases hc : r.pos ≠ r.limit
  · refine ⟨_, rfl, ?_⟩
    rw [if_pos hc]
    refine ⟨⟨hr.writing, Nat.zero_le _, ?_, ?_⟩, rfl, ?_, rfl, rfl⟩
    · show r.limit - r.pos ≤ ((r.buf.drop r.pos).take (r.limit - r.pos)).length
      rw [buffered_length r hr]
    · show r.limit - r.pos ≤ r.cap
      omega
    · show List.take (r.limit - r.pos - 0) (List.drop 0 _) ++ _ = _
      rw [List.drop_zero, Nat.sub_zero, List.take_take, Nat.min_self]
      rfl
  · refine ⟨_, rfl, ?_⟩
    rw [if_neg hc]
    have he : r.limit - r.pos = 0 := by omega
    refine ⟨⟨hr.writing, Nat.zero_le _, Nat.zero_le _, Nat.zero_le _⟩, rfl, ?_, rfl, he.symm⟩
    show List.take (0 - 0) (List.drop 0 r.buf) ++ _ = List.take (r.limit - r.pos) _ ++ _
    rw [he, Nat.sub_zero, List.take_zero, List.take_zero]

theorem ensure_unfold (r : rawfile) (hr : ROk r) (need : Nat) :
    r.ensure need =
      if r.limit - r.pos ≥ need then .ok (true, r)
      else rawfile.ensure_loop (need + 1)
        (if r.pos ≠ r.limit then
            { r with buf := (r.buf.drop r.pos).take (r.limit - r.pos),
                     limit := r.limit - r.pos, pos := 0 }
          else { r with pos := 0, limit := 0 }) need := by
  have h1 := hr.pos_le
  unfold rawfile.ensure
  have : (r.writing || decide (r.pos > r.limit)) = false := by
    rw [hr.writing, Bool.false_or, decide_eq_false_iff_not]
    omega
  rw [this]
  rfl

/-- A `true` return of `ensure`: the stream is unchanged and `need` bytes are
buffered. -/
theorem ensure_true (r r1 : rawfile) (need : Nat) (hr : ROk r)
    (h : r.ensure need = .ok (true, r1)) :
    ROk r1 ∧ r1.unread = r.unread ∧ need ≤ r1.limit - r1.pos ∧ r1.cap = r.cap := by
  rw [ensure_unfold r hr] at h
  by_cases hc : r.limit - r.pos ≥ need
  · rw [if_pos hc] at h
    cases Except.ok.inj h
    exact ⟨hr, rfl, hc, rfl⟩
  · rw [if_neg hc] at h
    obtain ⟨r0, hdef, hr0, hp0, hu0, hc0, -⟩ := compact_spec r hr
    rw [← hdef] at h
    obtain ⟨h1, h2, h3, h4, -⟩ := ensure_loop_true _ r0 r1 need hr0 hp0 h
    exact ⟨h1, by rw [h2, hu0], h3, by rw [h4, hc0]⟩

/-- The call `ensure(need)` returns `true` when the stream holds `need` bytes and
`need` does not exceed the buffer size. -/
theorem ensure_total (r : rawfile) (need : Nat) (hr : ROk r) (hcap : need ≤ r.cap)
    (hlen : need ≤ r.unread.length) : ∃ r1, r.ensure need = .ok (true, r1) := by
  rw [ensure_unfold r hr]
  by_cases hc : r.limit - r.pos ≥ need
  · rw [if_pos hc]; exact ⟨r, rfl⟩
  · rw [if_neg hc]
    obtain ⟨r0, hdef, hr0, hp0, hu0, hc0, -⟩ := compact_spec r hr
    rw [← hdef]
    exact ensure_loop_total _ r0 need hr0 hp0 (by rw [hc0]; exact hcap)
      (by rw [hu0]; exact hlen) (by omega)

/-- The call `ensure(need)` returns `false` at end of data with nothing buffered. -/
theorem ensure_eof (r : rawfile) (need : Nat) (hr : ROk r) (hu : r.unread = [])
    (hn : 0 < need) : ∃ r1, r.ensure need = .ok (false, r1) := by
  rw [ensure_unfold r hr]
  have hb : r.limit - r.pos = 0 := by
    have := buffered_length r hr
    unfold rawfile.unread at hu
    rw [(List.append_eq_nil.mp hu).1, List.length_nil] at this
    exact this.symm
  have hc : ¬ r.limit - r.pos ≥ need := by omega
  rw [if_neg hc]
  obtain ⟨r0, hdef, hr0, hp0, hu0, -, -⟩ := compact_spec r hr
  rw [← hdef]
  exact ensure_loop_eof need r0 need hr0 hp0 (by rw [hu0]; exact hu) hn

/-- Moving `pos` forward over `n` buffered bytes. -/
theorem advance_spec (r : rawfile) (n : Nat) (hr : ROk r) (hn : n ≤ r.limit - r.pos) :
    ROk { r with pos := r.pos + n } ∧
    rawfile.unread { r with pos := r.pos + n } = r.unread.drop n ∧
    (r.buf.drop r.pos).take n = r.unread.take n ∧
    n ≤ r.unread.length := by
  have h1 := hr.pos_le
  have h2 := hr.limit_le
  have hbl := buffered_length r hr
  refine ⟨⟨hr.writing, ?_, hr.limit_le, hr.limit_cap⟩, ?_, ?_, ?_⟩
  · show r.pos + n ≤ r.limit
    omega
  · unfold rawfile.unread
    show List.take (r.limit - (r.pos + n)) (List.drop (r.pos + n) r.buf) ++ _ = _
    rw [List.drop_append_of_le_length (by rw [hbl]; exact hn), List.drop_take,
      List.drop_drop, Nat.sub_add_eq]
  · unfold rawfile.unread
    rw [List.take_append_of_le_length (by rw [hbl]; exact hn), List.take_take,
      Nat.min_eq_left hn]
  · unfold rawfile.unread
    rw [List.length_append, hbl]
    omega

/-- A successful `read`: the bytes are the front of the stream, which moves on. -/
theorem read_some (r r1 : rawfile) (n : Nat) (b : List Nat) (hr : ROk r)
    (h : r.read n = .ok (some b, r1)) :
    b = r.unread.take n ∧ ROk r1 ∧ r1.unread = r.unread.drop n ∧ r1.cap = r.cap ∧
    n ≤ r.unread.length := by
  unfold rawfile.read at h
  cases he : r.ensure n with
  | error e => rw [he] at h; cases h
  | ok res =>
    obtain ⟨flag, r0⟩ := res
    cases flag with
    | false => rw [he] at h; cases h
    | true =>
      rw [he] at h
      obtain ⟨hr0, hu0, hn0, hc0⟩ := ensure_true r r0 n hr he
      obtain ⟨a1, a2, a3, a4⟩ := advance_spec r0 n hr0 hn0
      simp only [Except.ok.injEq, Prod.mk.injEq, Option.some.injEq] at h
      obtain ⟨hb, hr1⟩ := h
      subst hr1
      exact ⟨by rw [← hb, a3, hu0], a1, by rw [a2, hu0], hc0, by rw [← hu0]; exact a4⟩

/-- The call `read(n)` succeeds when the stream holds `n` bytes and `n` does not
exceed the buffer size. -/
theorem read_total (r : rawfile) (n : Nat) (hr : ROk r) (hcap : n ≤ r.cap)
    (hlen : n ≤ r.unread.length) :
    ∃ r1, r.read n = .ok (some (r.unread.take n), r1) ∧ ROk r1 ∧
      r1.unread = r.unread.drop n ∧ r1.cap = r.cap := by
  obtain ⟨r0, he⟩ := ensure_total r n hr hcap hlen
  have hrd : r.read n
      = .ok (some ((r0.buf.drop r0.pos).take n), { r0 with pos := r0.pos + n }) := by
    unfold rawfile.read
    rw [he]
  obtain ⟨hb, h1, h2, h3, -⟩ := read_some r _ n _ hr hrd
  exact ⟨_, by rw [hrd, hb], h1, h2, h3⟩

/-- The call `read(n)` returns `false` at end of data with nothing buffered. -/
theorem read_eof (r : rawfile) (n : Nat) (hr : ROk r) (hu : r.unread = []) (hn : 0 < n) :
    ∃ r1, r.read n = .ok (none, r1) := by
  obtain ⟨r0, he⟩ := ensure_eof r n hr hu hn
  exact ⟨r0, by unfold rawfile.read; rw [he]⟩

/-- With `n` bytes already buffered, `read_as` takes them and only moves `pos`. -/
theorem read_as_buffered (r : rawfile) (n : Nat) (hr : ROk r) (hn : n ≤ r.limit - r.pos) :
    r.read_as n = .ok (r.unread.take n, { r with pos := r.pos + n }) := by
  have he : r.ensure n = .ok (true, r) := by
    rw [ensure_unfold r hr, if_pos hn]
  unfold rawfile.read_as rawfile.read
  rw [he]
  simp only
  rw [(advance_spec r n hr hn).2.2.1]

/-- With `n` bytes already buffered, `drain` only moves `pos`. -/
theorem drain_buffered (r : rawfile) (n : Nat) (hr : ROk r) (hn : n ≤ r.limit - r.pos) :
    r.drain n = .ok { r with pos := r.pos + n } := by
  have he : r.ensure n = .ok (true, r) := by
    rw [ensure_unfold r hr, if_pos hn]
  unfold rawfile.drain
  rw [he]

/-! ## Channel masks and big-endian words -/

theorem active_eq_testBit (m i : Nat) : active m i = m.testBit i := by
  unfold active
  rw [Nat.one_shiftLeft]
  cases hb : m.testBit i with
  | true =>
    have h1 : (2 ^ i &&& m).testBit i = true := by
      rw [Nat.testBit_and, Nat.testBit_two_pow, hb]; simp
    have h2 : 2 ^ i &&& m ≠ 0 := by
      intro h0
      rw [h0, Nat.zero_testBit] at h1
      cases h1
    simpa using h2
  | false =>
    have h2 : 2 ^ i &&& m = 0 := by
      apply Nat.eq_of_testBit_eq
      intro j
      rw [Nat.testBit_and, Nat.testBit_two_pow, Nat.zero_testBit]
      by_cases hij : i = j
      · subst hij; rw [hb]; simp
      · simp [hij]
    simp [h2]

theorem exists_active (m : Nat) (h0 : m ≠ 0) (hlt : m < 2 ^ 32) :
    ∃ i, i < 32 ∧ active m i = true := by
  obtain ⟨i, hi⟩ := Nat.ne_zero_implies_bit_true h0
  refine ⟨i, ?_, by rw [active_eq_testBit]; exact hi⟩
  by_contra hge
  have h1 : m < 2 ^ i := lt_of_lt_of_le hlt (Nat.pow_le_pow_right (by decide) (by omega))
  rw [Nat.testBit_lt_two_pow h1] at hi
  cases hi

theorem cnt_pos_of_mem (m : Nat) (l : List Nat) (i : Nat) (hi : i ∈ l)
    (ha : active m i = true) : 0 < cnt m l := by
  unfold cnt
  exact List.length_pos_of_mem (List.mem_filter.mpr ⟨hi, ha⟩)

theorem popcount_pos (m : Nat) (h0 : m ≠ 0) (hlt : m < 2 ^ 32) : 0 < popcount m := by
  obtain ⟨i, hi, ha⟩ := exists_active m h0 hlt
  exact cnt_pos_of_mem m _ i (List.mem_range.mpr hi) ha

theorem be_foldl_lt (l : List Nat) : ∀ acc : Nat,
    l.foldl (fun a b => a * 256 + b % 256) acc < (acc + 1) * 256 ^ l.length := by
  induction l with
  | nil => intro acc; simp
  | cons b l ih =>
    intro acc
    rw [List.foldl_cons, List.length_cons, Nat.pow_succ]
    have h1 := ih (acc * 256 + b % 256)
    have h2 : b % 256 < 256 := Nat.mod_lt _ (by decide)
    have h3 : (acc * 256 + b % 256 + 1) * 256 ^ l.length
        ≤ (acc + 1) * (256 ^ l.length * 256) := by
      have : acc * 256 + b % 256 + 1 ≤ (acc + 1) * 256 := by omega
      calc (acc * 256 + b % 256 + 1) * 256 ^ l.length
          ≤ ((acc + 1) * 256) * 256 ^ l.length := Nat.mul_le_mul_right _ this
        _ = (acc + 1) * (256 ^ l.length * 256) := by ring
    exact lt_of_lt_of_le h1 h3

theorem be_lt (l : List Nat) : be l < 256 ^ l.length := by
  have := be_foldl_lt l 0
  rw [Nat.zero_add, Nat.one_mul] at this
  exact this

theorem slice_length_le (b : List Nat) (lo hi : Nat) : (slice b lo hi).length ≤ hi - lo := by
  unfold slice
  rw [List.length_take]
  exact Nat.min_le_left _ _

theorem be_slice_lt (b : List Nat) (lo hi : Nat) : be (slice b lo hi) < 256 ^ (hi - lo) :=
  lt_of_lt_of_le (be_lt _) (Nat.pow_le_pow_right (by decide) (slice_length_le b lo hi))

theorem decode_chmask_lt (b : List Nat) : (QuartzNA.decode b).chmask < 2 ^ 32 := by
  have := be_slice_lt b 4 8
  exact this

theorem W64_eq : W64 = 18446744073709551616 := by
  unfold W64
  rfl

theorem decode_seqno_lt (b : List Nat) : (QuartzNA.decode b).seqno < W64 := by
  have h := be_slice_lt b 8 16
  have e : (256 : Nat) ^ (16 - 8) = 18446744073709551616 := by norm_num
  rw [e] at h
  rw [W64_eq]
  exact h

theorem decode_msglen_lt (b : List Nat) : (PSCHead.decode b).msglen < 2 ^ 32 := by
  have := be_slice_lt b 4 8
  exact this

/-! ## `gap_recover` -/

theorem gap_recover_mask (pvt : priv) (chmask seqno nsec : Nat)
    (h : pvt.last_chmask ≠ chmask) :
    gap_recover pvt chmask seqno nsec = .error .mask_change := by
  unfold gap_recover
  rw [if_pos h]

theorem gap_recover_next (pvt : priv) (seqno nsec : Nat)
    (h : (pvt.last_seqno + 1) % W64 = seqno) :
    gap_recover pvt pvt.last_chmask seqno nsec = .ok pvt := by
  unfold gap_recover
  simp only [ne_eq, not_true_eq_false, if_false, h]

theorem gap_recover_gap (pvt : priv) (seqno nsec : Nat)
    (h : (pvt.last_seqno + 1) % W64 ≠ seqno) :
    gap_recover pvt pvt.last_chmask seqno nsec =
      if gap_rejected pvt seqno nsec then .error .inconsistency
      else inject pvt.last_chmask (gap_nmissing pvt seqno)
        { pvt with errors := pvt.errors ++ [gap_diag pvt seqno nsec] } := by
  unfold gap_recover
  simp only [ne_eq, not_true_eq_false, if_false, h, not_false_eq_true, if_true]
  rfl

/-- A gap that passes the rate check: the entry is appended and every active
channel receives `nmissing * T` copies of its last value, where `last_nsamp` is
`T` times the channel count. -/
theorem gap_recover_inject (pvt : priv) (seqno nsec T : Nat) (hI : Inv0 pvt)
    (hT : pvt.last_nsamp = popcount pvt.last_chmask * T) (hlt : pvt.last_nsamp < W64)
    (h : (pvt.last_seqno + 1) % W64 ≠ seqno) (hrej : gap_rejected pvt seqno nsec = false) :
    ∃ q, gap_recover pvt pvt.last_chmask seqno nsec = .ok q ∧
      q = { pvt with errors := pvt.errors ++ [gap_diag pvt seqno nsec],
                     out_channel := q.out_channel } ∧
      ∀ j, ((j < 32 ∧ active pvt.last_chmask j = true) →
              WOk (q.out_channel j) ∧
              (q.out_channel j).content = (pvt.out_channel j).content
                ++ rep (gap_nmissing pvt seqno * T) (pvt.last_channel j)) ∧
           (¬ (j < 32 ∧ active pvt.last_chmask j = true) →
              q.out_channel j = pvt.out_channel j) := by
  rw [gap_recover_gap pvt seqno nsec h, hrej]
  have hk := popcount_pos _ hI.mask_ne hI.mask_lt
  rw [popcount_eq_cnt] at hk hT
  obtain ⟨q, hq, hfr, hch⟩ := inject_ok pvt.last_chmask hk T (by rw [← hT]; exact hlt)
    (gap_nmissing pvt seqno)
    { pvt with errors := pvt.errors ++ [gap_diag pvt seqno nsec] } hT hI.wok
  exact ⟨q, by simpa using hq, hfr, hch⟩

/-! ## Preservation of the state invariant -/

theorem Inv0_of_append (p q : priv) (hI : Inv0 p) (hm : q.last_chmask = p.last_chmask)
    (hf : q.first = p.first) (c : Nat)
    (hch : ∀ j, (j < 32 ∧ active p.last_chmask j = true) →
      WOk (q.out_channel j) ∧
      ∃ ws, (q.out_channel j).content = (p.out_channel j).content ++ wbytes ws ∧
        ws.length = c) : Inv0 q := by
  obtain ⟨n, hn⟩ := hI.fmt
  refine ⟨by rw [hf]; exact hI.first, by rw [hm]; exact hI.mask_ne,
    by rw [hm]; exact hI.mask_lt, ?_, ?_⟩
  · intro i hi ha
    rw [hm] at ha
    exact (hch i ⟨hi, ha⟩).1
  · refine ⟨n + c, ?_⟩
    intro i hi ha
    rw [hm] at ha
    obtain ⟨ws0, h0, hl0⟩ := hn i hi ha
    obtain ⟨-, ws, h1, hl1⟩ := hch i ⟨hi, ha⟩
    refine ⟨ws0 ++ ws, ?_, by rw [List.length_append, hl0, hl1]⟩
    rw [h1, h0, List.append_assoc, wbytes_append]

theorem length_chan_words (buf : List Nat) (k r : Nat) :
    ∀ (T cur : Nat), (chan_words buf k r T cur).length = T
  | 0, _ => rfl
  | T + 1, cur => by rw [chan_words, List.length_cons, length_chan_words buf k r T]

/-- A normal return of `gap_recover` keeps the invariant, the mask and the
sample count of the previous packet. -/
theorem gap_recover_inv (pvt q : priv) (chmask seqno nsec : Nat) (hI : Inv pvt)
    (h : gap_recover pvt chmask seqno nsec = .ok q) :
    Inv q ∧ chmask = pvt.last_chmask ∧ q.last_chmask = pvt.last_chmask ∧
    q.force = pvt.force := by
  by_cases hm : pvt.last_chmask ≠ chmask
  · rw [gap_recover_mask pvt chmask seqno nsec hm] at h; cases h
  · have hm1 : pvt.last_chmask = chmask := not_not.mp hm
    subst hm1
    by_cases hs : (pvt.last_seqno + 1) % W64 = seqno
    · rw [gap_recover_next pvt seqno nsec hs] at h
      cases Except.ok.inj h
      exact ⟨hI, rfl, rfl, rfl⟩
    · cases hrej : gap_rejected pvt seqno nsec with
      | true =>
        rw [gap_recover_gap pvt seqno nsec hs, hrej] at h
        cases h
      | false =>
        obtain ⟨T, hT⟩ := hI.nsamp
        obtain ⟨q1, hq1, hfr, hch⟩ :=
          gap_recover_inject pvt seqno nsec T hI.toInv0 hT hI.nsamp_lt hs hrej
        rw [hq1] at h
        cases Except.ok.inj h
        have e1 : q.last_chmask = pvt.last_chmask := by rw [hfr]
        have e2 : q.first = pvt.first := by rw [hfr]
        have e3 : q.last_nsamp = pvt.last_nsamp := by rw [hfr]
        have e4 : q.force = pvt.force := by rw [hfr]
        have e5 : q.last_seqno = pvt.last_seqno := by rw [hfr]
        refine ⟨⟨?_, ?_, ?_, by rw [e5]; exact hI.seq_lt⟩, rfl, e1, e4⟩
        · apply Inv0_of_append pvt q hI.toInv0 e1 e2 (gap_nmissing pvt seqno * T)
          intro j hj
          refine ⟨((hch j).1 hj).1, List.replicate (gap_nmissing pvt seqno * T)
            (pvt.last_channel j), ?_, List.length_replicate _ _⟩
          rw [((hch j).1 hj).2, rep_eq_wbytes]
        · exact ⟨T, by rw [e3, e1]; exact hT⟩
        · rw [e3]; exact hI.nsamp_lt

/-! ## `sample_packet` step by step -/

/-- The steps behind a normal return of `sample_packet`. -/
theorem sample_packet_inv_steps (pvt q : priv) (istrm is3 : rawfile) (msglen0 : Nat)
    (hasB : Bool) (h : sample_packet pvt istrm msglen0 hasB = .ok (q, is3)) :
    ∃ (bytesA : List Nat) (is1 is2 : rawfile) (pvt1 : priv) (msglen : Nat) (x : XState),
      istrm.read_as SIZE_NA = .ok (bytesA, is1) ∧
      (if pvt.first then
          prepare_output { pvt with first := false,
                                    last_chmask := (QuartzNA.decode bytesA).chmask }
        else gap_recover pvt (QuartzNA.decode bytesA).chmask (QuartzNA.decode bytesA).seqno
          (((QuartzNA.decode bytesA).sec * 1000000000 + (QuartzNA.decode bytesA).ns) % W64))
        = .ok pvt1 ∧
      (if hasB then
          (∃ bB, is1.read_as SIZE_NB = .ok (bB, is2)) ∧ msglen = msglen0 - SIZE_NA - SIZE_NB
        else is2 = is1 ∧ msglen = msglen0 - SIZE_NA) ∧
      extract_while is2.buf (QuartzNA.decode bytesA).chmask (msglen / 3 + 1)
        { nsamp := msglen / 3, cur := is2.pos,
          pvt := { pvt1 with
            last_seqno := (QuartzNA.decode bytesA).seqno,
            last_ns := ((QuartzNA.decode bytesA).sec * 1000000000
                          + (QuartzNA.decode bytesA).ns) % W64,
            last_nsamp := msglen / 3 } } = .ok x ∧
      is2.drain msglen = .ok is3 ∧ q = x.pvt := by
  unfold sample_packet at h
  cases hA : istrm.read_as SIZE_NA with
  | error e => rw [hA] at h; cases h
  | ok resA =>
    obtain ⟨bytesA, is1⟩ := resA
    rw [hA] at h
    simp only at h
    split at h
    · cases h
    · rename_i pvt1 hr1
      split at h
      · cases h
      · rename_i msglen is2 hr2
        split at h
        · cases h
        · rename_i x hx
          split at h
          · cases h
          · rename_i is3a hd
            simp only [Except.ok.injEq, Prod.mk.injEq] at h
            obtain ⟨hq, his⟩ := h
            subst hq his
            refine ⟨bytesA, is1, is2, pvt1, msglen, x, rfl, hr1, ?_, hx, hd, rfl⟩
            cases hasB with
            | true =>
              simp only [if_true] at hr2 ⊢
              split at hr2
              · cases hr2
              · rename_i bB is2a hB
                simp only [Except.ok.injEq, Prod.mk.injEq] at hr2
                obtain ⟨hm, hi⟩ := hr2
                subst hi
                exact ⟨⟨bB, hB⟩, hm.symm⟩
            | false =>
              simp only [Bool.false_eq_true, if_false, Except.ok.injEq, Prod.mk.injEq] at hr2 ⊢
              exact ⟨hr2.2.symm, hr2.1.symm⟩

theorem lt_W64_of_lt {n : Nat} (h : n < 2 ^ 32) : n < W64 := by
  rw [W64_eq]
  have : (2 : Nat) ^ 32 = 4294967296 := by norm_num
  omega

theorem Inv0_congr (p q : priv) (hI : Inv0 p) (h1 : q.first = p.first)
    (h2 : q.last_chmask = p.last_chmask) (h3 : q.out_channel = p.out_channel) : Inv0 q := by
  obtain ⟨n, hn⟩ := hI.fmt
  refine ⟨by rw [h1]; exact hI.first, by rw [h2]; exact hI.mask_ne,
    by rw [h2]; exact hI.mask_lt, ?_, ⟨n, ?_⟩⟩
  · intro i hi ha
    rw [h2] at ha; rw [h3]
    exact hI.wok i hi ha
  · intro i hi ha
    rw [h2] at ha; rw [h3]
    exact hn i hi ha

/-- The first-packet branch: a normal return of `prepare_output` gives a state
with every active channel opened and holding the placeholder header. -/
theorem prepare_output_inv (pvt pvt1 : priv) (cm : Nat) (hcm : cm < 2 ^ 32)
    (h : prepare_output { pvt with first := false, last_chmask := cm } = .ok pvt1) :
    Inv0 pvt1 ∧ pvt1.last_chmask = cm ∧ pvt1.force = pvt.force ∧
    pvt1.errors = pvt.errors ∧
    ∀ j, j < 32 → active cm j = true → (pvt1.out_channel j).content = HDR_INVALID := by
  by_cases h0 : cm = 0
  · rw [prepare_output_zero _ (by exact h0)] at h; cases h
  · obtain ⟨q, hq, hfr, hch⟩ :=
      prepare_output_ok { pvt with first := false, last_chmask := cm } (by exact h0)
    rw [hq] at h
    cases Except.ok.inj h
    simp only at hfr hch
    have e1 : pvt1.last_chmask = cm := by rw [hfr]
    have e2 : pvt1.first = false := by rw [hfr]
    refine ⟨⟨e2, by rw [e1]; exact h0, by rw [e1]; exact hcm, ?_, ⟨0, ?_⟩⟩, e1,
      by rw [hfr], by rw [hfr], ?_⟩
    · intro i hi ha
      rw [e1] at ha
      exact ((hch i).1 ⟨hi, ha⟩).1
    · intro i hi ha
      rw [e1] at ha
      exact ⟨[], by rw [((hch i).1 ⟨hi, ha⟩).2, wbytes_nil, List.append_nil], rfl⟩
    · intro j hj ha
      exact ((hch j).1 ⟨hj, ha⟩).2

/-- Every sample packet processed without raising leaves the invariant. -/
theorem sample_packet_Inv (pvt q : priv) (istrm is3 : rawfile) (msglen0 : Nat)
    (hasB : Bool) (hI : pvt.first = true ∨ Inv pvt) (hm : msglen0 < 2 ^ 32)
    (h : sample_packet pvt istrm msglen0 hasB = .ok (q, is3)) :
    Inv q ∧ q.force = pvt.force := by
  obtain ⟨bytesA, is1, is2, pvt1, msglen, x, -, h1, h2, hx, -, hq⟩ :=
    sample_packet_inv_steps pvt q istrm is3 msglen0 hasB h
  have hpre : Inv0 pvt1 ∧ pvt1.last_chmask = (QuartzNA.decode bytesA).chmask ∧
      pvt1.force = pvt.force := by
    cases hf : pvt.first with
    | true =>
      rw [hf] at h1
      simp only [if_true] at h1
      obtain ⟨a, b, c, -, -⟩ := prepare_output_inv pvt pvt1 _ (decode_chmask_lt bytesA) h1
      exact ⟨a, b, c⟩
    | false =>
      rw [hf] at h1
      simp only [Bool.false_eq_true, if_false] at h1
      have hI1 : Inv pvt := by
        rcases hI with hI | hI
        · rw [hf] at hI; cases hI
        · exact hI
      obtain ⟨a, b, c, d⟩ := gap_recover_inv pvt pvt1 _ _ _ hI1 h1
      exact ⟨a.toInv0, by rw [c, b], d⟩
  obtain ⟨hI0, hcm, hfo⟩ := hpre
  have hml : msglen ≤ msglen0 := by
    cases hasB with
    | true => simp only [if_true] at h2; rw [h2.2]; omega
    | false => simp only [Bool.false_eq_true, if_false] at h2; rw [h2.2]; omega
  obtain ⟨T, hT, -, -, hfr, hch⟩ := extract_while_ok is2.buf _ _ _ x
    (by
      intro i hi ha
      rw [← hcm] at ha
      exact hI0.wok i hi ha) hx
  simp only at hT hfr hch
  subst hq
  have e1 : x.pvt.last_chmask = pvt1.last_chmask := by rw [hfr]
  have e2 : x.pvt.first = pvt1.first := by rw [hfr]
  have e3 : x.pvt.last_nsamp = msglen / 3 := by rw [hfr]
  have e4 : x.pvt.force = pvt1.force := by rw [hfr]
  have e5 : x.pvt.last_seqno = (QuartzNA.decode bytesA).seqno := by rw [hfr]
  refine ⟨⟨?_, ⟨T, ?_⟩, ?_, by rw [e5]; exact decode_seqno_lt bytesA⟩, by rw [e4, hfo]⟩
  · apply Inv0_of_append pvt1 x.pvt hI0 e1 e2 T
    intro j hj
    rw [hcm] at hj
    have := (hch j).1 hj
    exact ⟨this.1, _, this.2.1, length_chan_words _ _ _ _ _⟩
  · rw [e3, e1, hcm, popcount_eq_cnt]
    exact hT
  · rw [e3]
    exact lt_W64_of_lt (lt_of_le_of_lt (le_trans (Nat.div_le_self _ _) hml) hm)

/-! ## The loop of `convert1` -/

theorem eq_ok_of_succeeded (r : Except Err priv) (h : succeeded r = true) :
    r = .ok (state_of r) := by
  cases r with
  | ok p => rfl
  | error e => cases h

/-- A pass of the loop that returns normally either skipped a packet of another
type, leaving the state as it was, or ran `sample_packet`. -/
theorem convert1_body_cases (pvt q : priv) (istrm is3 : rawfile)
    (h : convert1_body pvt istrm = .ok (some (q, is3))) :
    q = pvt ∨ ∃ (is2 : rawfile) (msglen : Nat) (hasB : Bool), msglen < 2 ^ 32 ∧
      sample_packet pvt is2 msglen hasB = .ok (q, is3) := by
  unfold convert1_body at h
  split at h
  · cases h
  · cases h
  · rename_i hb is1 hrd
    simp only at h
    split at h
    · cases h
    · split at h
      · cases h
      · cases h
      · rename_i is2 hens
        have hml := decode_msglen_lt hb
        split at h
        · right
          cases hs : sample_packet pvt is2 (PSCHead.decode hb).msglen false with
          | error e => rw [hs] at h; cases h
          | ok res =>
            rw [hs] at h
            cases Except.ok.inj h
            exact ⟨is2, _, false, hml, hs⟩
        · split at h
          · split at h
            · cases h
            · right
              cases hs : sample_packet pvt is2 (PSCHead.decode hb).msglen true with
              | error e => rw [hs] at h; cases h
              | ok res =>
                rw [hs] at h
                cases Except.ok.inj h
                exact ⟨is2, _, true, hml, hs⟩
          · split at h
            · cases h
            · left
              simp only [Except.ok.injEq, Option.some.injEq, Prod.mk.injEq] at h
              exact h.1.symm

theorem convert1_body_Inv (pvt q : priv) (istrm is3 : rawfile)
    (hI : pvt.first = true ∨ Inv pvt)
    (h : convert1_body pvt istrm = .ok (some (q, is3))) :
    (q.first = true ∨ Inv q) ∧ q.force = pvt.force := by
  rcases convert1_body_cases pvt q istrm is3 h with hq | ⟨is2, msglen, hasB, hm, hs⟩
  · subst hq; exact ⟨hI, rfl⟩
  · have := sample_packet_Inv pvt q is2 is3 msglen hasB hI hm hs
    exact ⟨Or.inr this.1, this.2⟩

theorem Reachable_Inv (force : Bool) (pvt : priv) (h : Reachable force pvt) :
    (pvt.first = true ∨ Inv pvt) ∧ pvt.force = force := by
  induction h with
  | init => exact ⟨Or.inl rfl, rfl⟩
  | step _ hb ih =>
    have := convert1_body_Inv _ _ _ _ ih.1 hb
    exact ⟨this.1, by rw [this.2, ih.2]⟩

theorem Reachable_convert1_loop (force : Bool) : ∀ (fuel : Nat) (pvt q : priv)
    (istrm : rawfile), Reachable force pvt → convert1_loop fuel pvt istrm = .ok q →
    Reachable force q
  | 0, _, _, _, _, h => by rw [convert1_loop] at h; cases h
  | fuel + 1, pvt, q, istrm, hr, h => by
    rw [convert1_loop] at h
    split at h
    · cases h
    · cases Except.ok.inj h; exact hr
    · rename_i pvt1 is1 hb
      exact Reachable_convert1_loop force fuel pvt1 q is1 (Reachable.step hr hb) h

theorem Reachable_convert_all (force : Bool) : ∀ (indats : List KFile) (pvt q : priv),
    Reachable force pvt → convert_all indats pvt = .ok q → Reachable force q
  | [], pvt, q, hr, h => by
    rw [convert_all] at h
    cases Except.ok.inj h; exact hr
  | f :: rest, pvt, q, hr, h => by
    rw [convert_all] at h
    split at h
    · cases h
    · rename_i pvt1 h1
      exact Reachable_convert_all force rest pvt1 q
        (Reachable_convert1_loop force _ pvt pvt1 _ hr h1) h

/-! ## C1 -/

theorem length_HDR_INVALID : HDR_INVALID.length = 20 := rfl

/-- C1 (channel alignment).  In every state a run of `convert2j` passes through
after a sample packet was processed without raising (any input files, any gaps,
either `force`), all active channels hold the same number of samples, real and
placeholder ones together, and each channel holds its header and whole samples. -/
theorem C1_channel_alignment (force : Bool) (pvt : priv) (h : Reachable force pvt)
    (hf : pvt.first = false) (i j : Nat) (hi : i < 32) (hj : j < 32)
    (hai : active pvt.last_chmask i = true) (haj : active pvt.last_chmask j = true) :
    nsamples (pvt.out_channel i) = nsamples (pvt.out_channel j) ∧
    (pvt.out_channel i).content.length = 20 + 4 * nsamples (pvt.out_channel i) := by
  have hI : Inv pvt := by
    rcases (Reachable_Inv force pvt h).1 with h1 | h1
    · rw [hf] at h1; cases h1
    · exact h1
  obtain ⟨n, hn⟩ := hI.fmt
  have key : ∀ k, k < 32 → active pvt.last_chmask k = true →
      (pvt.out_channel k).content.length = 20 + 4 * n ∧ nsamples (pvt.out_channel k) = n := by
    intro k hk hak
    obtain ⟨ws, hc, hl⟩ := hn k hk hak
    have hlen : (pvt.out_channel k).content.length = 20 + 4 * n := by
      rw [hc, List.length_append, length_HDR_INVALID, length_wbytes, hl]
    refine ⟨hlen, ?_⟩
    unfold nsamples
    rw [hlen]
    omega
  obtain ⟨a1, a2⟩ := key i hi hai
  obtain ⟨-, b2⟩ := key j hj haj
  exact ⟨by rw [a2, b2], by rw [a1, a2]⟩

/-- Witness for C1: the state after the three packets of `ex_gap_file`. -/
theorem C1_channel_alignment_witness :
    Reachable true (state_of (convert_all [ex_gap_file] (priv.init true))) ∧
    (state_of (convert_all [ex_gap_file] (priv.init true))).first = false ∧
    nsamples ((state_of (convert_all [ex_gap_file] (priv.init true))).out_channel 0)
      = nsamples ((state_of (convert_all [ex_gap_file] (priv.init true))).out_channel 1) :=
  have hR : Reachable true (state_of (convert_all [ex_gap_file] (priv.init true))) :=
    Reachable_convert_all true [ex_gap_file] _ _ Reachable.init
      (eq_ok_of_succeeded _ (by decide!))
  ⟨hR, by decide!,
    (C1_channel_alignment true _ hR (by decide!) 0 1 (by decide) (by decide)
      (by decide!) (by decide!)).1⟩

/-! ## C3 -/

theorem or_bytes (a b c : Nat) (hb : b < 256) (hc : c < 256) :
    (a <<< 16) ||| (b <<< 8) ||| c = a * 65536 + b * 256 + c := by
  have h1 : a <<< 16 = 2 ^ 16 * a := by rw [Nat.shiftLeft_eq, Nat.mul_comm]
  have h2 : b <<< 8 = b * 256 := by rw [Nat.shiftLeft_eq]
  have h3 : b * 256 < 2 ^ 16 := by
    have : (2 : Nat) ^ 16 = 65536 := by norm_num
    omega
  have h4 : c < 2 ^ 8 := by
    have : (2 : Nat) ^ 8 = 256 := by norm_num
    omega
  have e : 2 ^ 16 * a + b * 256 = 2 ^ 8 * (a * 256 + b) := by
    have : (2 : Nat) ^ 16 = 2 ^ 8 * 256 := by norm_num
    rw [this]; ring
  rw [h1, h2, ← Nat.mul_add_lt_is_or h3, e, ← Nat.mul_add_lt_is_or h4]
  have : (2 : Nat) ^ 8 = 256 := by norm_num
  rw [this]; ring

theorem and_sign_bit (s : Nat) (hs : s < 16777216) :
    (s &&& 0x00800000 ≠ 0) ↔ 8388608 ≤ s := by
  have e23 : (0x00800000 : Nat) = 2 ^ 23 := by norm_num
  have hact : active s 23 = s.testBit 23 := active_eq_testBit s 23
  have hiff : (s &&& 0x00800000 ≠ 0) ↔ s.testBit 23 = true := by
    rw [← hact]
    unfold active
    rw [Nat.one_shiftLeft, Nat.and_comm, e23]
    simp
  rw [hiff]
  constructor
  · intro h
    have := Nat.testBit_implies_ge h
    have e : (2 : Nat) ^ 23 = 8388608 := by norm_num
    omega
  · intro h
    have e : s = 2 ^ 23 + (s - 8388608) := by
      have : (2 : Nat) ^ 23 = 8388608 := by norm_num
      omega
    have hx : s - 8388608 < 2 ^ 23 := by
      have : (2 : Nat) ^ 23 = 8388608 := by norm_num
      omega
    rw [e, Nat.testBit_two_pow_add_eq, Nat.testBit_lt_two_pow hx]
    rfl

theorem or_sign_ext (s : Nat) (hs : s < 16777216) :
    s ||| 0xff000000 = s + 4278190080 := by
  have e : (0xff000000 : Nat) = 2 ^ 24 * 255 := by norm_num
  have hs2 : s < 2 ^ 24 := by
    have : (2 : Nat) ^ 24 = 16777216 := by norm_num
    omega
  rw [Nat.lor_comm, e, ← Nat.mul_add_lt_is_or hs2]
  have : (2 : Nat) ^ 24 * 255 = 4278190080 := by norm_num
  omega

theorem be24_lt (b0 b1 b2 : Nat) : be24 b0 b1 b2 < 16777216 := by
  unfold be24
  have h0 : b0 % 256 < 256 := Nat.mod_lt _ (by decide)
  have h1 : b1 % 256 < 256 := Nat.mod_lt _ (by decide)
  have h2 : b2 % 256 < 256 := Nat.mod_lt _ (by decide)
  omega

theorem sample_word_eq (b0 b1 b2 : Nat) :
    sample_word b0 b1 b2 =
      if 8388608 ≤ be24 b0 b1 b2 then be24 b0 b1 b2 + 4278190080 else be24 b0 b1 b2 := by
  have h1 : b1 % 256 < 256 := Nat.mod_lt _ (by decide)
  have h2 : b2 % 256 < 256 := Nat.mod_lt _ (by decide)
  have hor := or_bytes (b0 % 256) (b1 % 256) (b2 % 256) h1 h2
  have hlt := be24_lt b0 b1 b2
  unfold sample_word
  simp only
  rw [hor]
  change (if be24 b0 b1 b2 &&& 0x00800000 ≠ 0 then be24 b0 b1 b2 ||| 0xff000000
    else be24 b0 b1 b2) = _
  by_cases hs : 8388608 ≤ be24 b0 b1 b2
  · rw [if_pos ((and_sign_bit _ hlt).mpr hs), if_pos hs, or_sign_ext _ hlt]
  · rw [if_neg (fun h => hs ((and_sign_bit _ hlt).mp h)), if_neg hs]

/-- C3 (sign extension).  For all bytes `b0 b1 b2` the word the demuxer writes
is a 32 bit word whose two's-complement value is that of the 24 bit big-endian
number `v = b0*65536 + b1*256 + b2`: `v` below `2^23`, `v - 2^24` from there on;
so every written sample lies in `[-2^23, 2^23)`. -/
theorem C3_sign_extension (b0 b1 b2 : Nat) :
    sample_word b0 b1 b2 < 4294967296 ∧
    to_int32 (sample_word b0 b1 b2)
      = (if be24 b0 b1 b2 < 8388608 then (be24 b0 b1 b2 : Int)
         else (be24 b0 b1 b2 : Int) - 16777216) ∧
    -8388608 ≤ to_int32 (sample_word b0 b1 b2) ∧
    to_int32 (sample_word b0 b1 b2) < 8388608 := by
  have hlt := be24_lt b0 b1 b2
  rw [sample_word_eq]
  unfold to_int32
  by_cases hs : 8388608 ≤ be24 b0 b1 b2
  · have hn : ¬ be24 b0 b1 b2 < 8388608 := by omega
    have hbig : ¬ be24 b0 b1 b2 + 4278190080 < 2147483648 := by omega
    rw [if_pos hs, if_neg hn, if_neg hbig]
    refine ⟨by omega, by push_cast; omega, by push_cast; omega, by push_cast; omega⟩
  · have hn : be24 b0 b1 b2 < 8388608 := by omega
    have hsm : be24 b0 b1 b2 < 2147483648 := by omega
    rw [if_neg hs, if_pos hn, if_pos hsm]
    refine ⟨by omega, rfl, by omega, by omega⟩

/-! ## Decoding what was encoded -/

theorem be_bytes2 (v : Nat) : be_bytes 2 v = [v / 256 % 256, v % 256] := by
  simp [be_bytes]

theorem be_bytes4 (v : Nat) :
    be_bytes 4 v = [v / 256 / 256 / 256 % 256, v / 256 / 256 % 256, v / 256 % 256, v % 256] := by
  simp [be_bytes]

theorem be_bytes8 (v : Nat) :
    be_bytes 8 v = [v / 256 / 256 / 256 / 256 / 256 / 256 / 256 % 256,
      v / 256 / 256 / 256 / 256 / 256 / 256 % 256, v / 256 / 256 / 256 / 256 / 256 % 256,
      v / 256 / 256 / 256 / 256 % 256, v / 256 / 256 / 256 % 256, v / 256 / 256 % 256,
      v / 256 % 256, v % 256] := by
  simp [be_bytes]

theorem be2 (a b : Nat) : be [a, b] = a % 256 * 256 + b % 256 := by
  simp [be]

theorem be4 (a b c d : Nat) :
    be [a, b, c, d] = ((a % 256 * 256 + b % 256) * 256 + c % 256) * 256 + d % 256 := by
  simp [be]

theorem be8 (a b c d e f g h : Nat) :
    be [a, b, c, d, e, f, g, h] =
      ((((((a % 256 * 256 + b % 256) * 256 + c % 256) * 256 + d % 256) * 256 + e % 256) * 256
        + f % 256) * 256 + g % 256) * 256 + h % 256 := by
  simp [be]

theorem length_encode_head (ps msgid msglen rxsec rxns : Nat) :
    (encode_head ps msgid msglen rxsec rxns).length = 16 := by
  simp [encode_head, be_bytes2, be_bytes4]

theorem length_encode_NA (st cm seq sec ns : Nat) :
    (encode_NA st cm seq sec ns).length = 24 := by
  simp [encode_NA, be_bytes4, be_bytes8]

theorem decode_encode_head (ps msgid msglen rxsec rxns : Nat) :
    (PSCHead.decode (encode_head ps msgid msglen rxsec rxns)).ps = ps % 65536 ∧
    (PSCHead.decode (encode_head ps msgid msglen rxsec rxns)).msgid = msgid % 65536 ∧
    (PSCHead.decode (encode_head ps msgid msglen rxsec rxns)).msglen = msglen % 4294967296 := by
  have e : encode_head ps msgid msglen rxsec rxns =
      [ps / 256 % 256, ps % 256, msgid / 256 % 256, msgid % 256,
       msglen / 256 / 256 / 256 % 256, msglen / 256 / 256 % 256, msglen / 256 % 256,
       msglen % 256,
       rxsec / 256 / 256 / 256 % 256, rxsec / 256 / 256 % 256, rxsec / 256 % 256, rxsec % 256,
       rxns / 256 / 256 / 256 % 256, rxns / 256 / 256 % 256, rxns / 256 % 256, rxns % 256] := by
    simp [encode_head, be_bytes2, be_bytes4]
  rw [e]
  refine ⟨?_, ?_, ?_⟩
  · show be [ps / 256 % 256, ps % 256] = _
    rw [be2]; omega
  · show be [msgid / 256 % 256, msgid % 256] = _
    rw [be2]; omega
  · show be [msglen / 256 / 256 / 256 % 256, msglen / 256 / 256 % 256, msglen / 256 % 256,
      msglen % 256] = _
    rw [be4]; omega

theorem decode_encode_NA (st cm seq sec ns : Nat) :
    (QuartzNA.decode (encode_NA st cm seq sec ns)).chmask = cm % 4294967296 ∧
    (QuartzNA.decode (encode_NA st cm seq sec ns)).seqno = seq % 18446744073709551616 ∧
    (QuartzNA.decode (encode_NA st cm seq sec ns)).sec = sec % 4294967296 ∧
    (QuartzNA.decode (encode_NA st cm seq sec ns)).ns = ns % 4294967296 := by
  have e : encode_NA st cm seq sec ns =
      [st / 256 / 256 / 256 % 256, st / 256 / 256 % 256, st / 256 % 256, st % 256,
       cm / 256 / 256 / 256 % 256, cm / 256 / 256 % 256, cm / 256 % 256, cm % 256,
       seq / 256 / 256 / 256 / 256 / 256 / 256 / 256 % 256,
       seq / 256 / 256 / 256 / 256 / 256 / 256 % 256, seq / 256 / 256 / 256 / 256 / 256 % 256,
       seq / 256 / 256 / 256 / 256 % 256, seq / 256 / 256 / 256 % 256, seq / 256 / 256 % 256,
       seq / 256 % 256, seq % 256,
       sec / 256 / 256 / 256 % 256, sec / 256 / 256 % 256, sec / 256 % 256, sec % 256,
       ns / 256 / 256 / 256 % 256, ns / 256 / 256 % 256, ns / 256 % 256, ns % 256] := by
    simp [encode_NA, be_bytes4, be_bytes8]
  rw [e]
  refine ⟨?_, ?_, ?_, ?_⟩
  · show be [cm / 256 / 256 / 256 % 256, cm / 256 / 256 % 256, cm / 256 % 256, cm % 256] = _
    rw [be4]; omega
  · show be [seq / 256 / 256 / 256 / 256 / 256 / 256 / 256 % 256,
       seq / 256 / 256 / 256 / 256 / 256 / 256 % 256, seq / 256 / 256 / 256 / 256 / 256 % 256,
       seq / 256 / 256 / 256 / 256 % 256, seq / 256 / 256 / 256 % 256, seq / 256 / 256 % 256,
       seq / 256 % 256, seq % 256] = _
    rw [be8]; omega
  · show be [sec / 256 / 256 / 256 % 256, sec / 256 / 256 % 256, sec / 256 % 256, sec % 256] = _
    rw [be4]; omega
  · show be [ns / 256 / 256 / 256 % 256, ns / 256 / 256 % 256, ns / 256 % 256, ns % 256] = _
    rw [be4]; omega

theorem Packet.decode_NA (p : Packet) (hw : p.wf) :
    (QuartzNA.decode (encode_NA p.status p.chmask p.seqno p.sec p.ns)).chmask = p.chmask ∧
    (QuartzNA.decode (encode_NA p.status p.chmask p.seqno p.sec p.ns)).seqno = p.seqno ∧
    ((QuartzNA.decode (encode_NA p.status p.chmask p.seqno p.sec p.ns)).sec * 1000000000
      + (QuartzNA.decode (encode_NA p.status p.chmask p.seqno p.sec p.ns)).ns) % W64
      = p.nsec := by
  obtain ⟨h1, h2, h3, h4⟩ := decode_encode_NA p.status p.chmask p.seqno p.sec p.ns
  rw [h1, h2, h3, h4, Nat.mod_eq_of_lt hw.chmask_lt, Nat.mod_eq_of_lt hw.seqno_lt,
    Nat.mod_eq_of_lt hw.sec_lt, Nat.mod_eq_of_lt hw.ns_lt]
  exact ⟨rfl, rfl, rfl⟩

theorem Packet.encode_eq (p : Packet) :
    p.encode = encode_head 0x5053 p.msgid p.msglen p.rxsec p.rxns
      ++ (encode_NA p.status p.chmask p.seqno p.sec p.ns ++ (p.ext ++ p.body)) := by
  unfold Packet.encode Packet.msgid Packet.ext
  simp only [List.append_assoc]

theorem Packet.msglen_eq (p : Packet) : p.msglen = 24 + p.ext.length + p.body.length := by
  unfold Packet.msglen Packet.ext SIZE_NA
  cases p.extB <;> rfl

/-! ## One pass of the loop on a well-formed message -/

/-- A pass of the loop of `convert1` on a stream that starts with a complete
message whose header is valid and whose length fits the buffer: the header is
consumed, the message is buffered, and the type decides what follows. -/
theorem convert1_body_head (pvt : priv) (istrm : rawfile)
    (msgid msglen rxsec rxns : Nat) (payload rest : List Nat)
    (hr : ROk istrm) (hcap16 : 16 ≤ istrm.cap)
    (hu : istrm.unread = encode_head 0x5053 msgid msglen rxsec rxns ++ (payload ++ rest))
    (hid : msgid < 65536) (hml : msglen < 4294967296) (h24 : 24 ≤ msglen)
    (hpl : payload.length = msglen) (hcap : msglen ≤ istrm.cap) :
    ∃ is2, ROk is2 ∧ is2.unread = payload ++ rest ∧ is2.cap = istrm.cap ∧
      msglen ≤ is2.limit - is2.pos ∧
      convert1_body pvt istrm =
        if msgid = 0x4e41 then (sample_packet pvt is2 msglen false).map some
        else if msgid = 0x4e42 then
          if msglen < 40 then .error .corrupt_headerB
          else (sample_packet pvt is2 msglen true).map some
        else .ok (some (pvt, { is2 with pos := is2.pos + msglen })) := by
  have hl16 := length_encode_head 0x5053 msgid msglen rxsec rxns
  obtain ⟨is1, hrd, hr1, hu1, hc1⟩ := read_total istrm 16 hr hcap16
    (by rw [hu, List.length_append, hl16]; omega)
  rw [hu, List.take_left' hl16] at hrd
  rw [hu, List.drop_left' hl16] at hu1
  obtain ⟨is2, hens⟩ := ensure_total is1 msglen hr1 (by rw [hc1]; exact hcap)
    (by rw [hu1, List.length_append, hpl]; omega)
  obtain ⟨hr2, hu2, hn2, hc2⟩ := ensure_true is1 is2 msglen hr1 hens
  obtain ⟨d1, d2, d3⟩ := decode_encode_head 0x5053 msgid msglen rxsec rxns
  rw [Nat.mod_eq_of_lt hid] at d2
  rw [Nat.mod_eq_of_lt hml] at d3
  have d1' : (PSCHead.decode (encode_head 0x5053 msgid msglen rxsec rxns)).ps = 0x5053 := d1
  refine ⟨is2, hr2, by rw [hu2, hu1], by rw [hc2, hc1], hn2, ?_⟩
  obtain ⟨is3, hdr⟩ : ∃ is3, is2.drain msglen = .ok is3 ∧ is3 = { is2 with pos := is2.pos + msglen } :=
    ⟨_, drain_buffered is2 msglen hr2 hn2, rfl⟩
  unfold convert1_body
  have hnot : ¬ ((PSCHead.decode (encode_head 0x5053 msgid msglen rxsec rxns)).ps ≠ 0x5053 ∨
      msglen < SIZE_NA) := by
    rw [d1']
    unfold SIZE_NA
    omega
  simp only [SIZE_HEAD, hrd, d2, d3, hens, hdr.1, hdr.2]
  rw [if_neg hnot]
  rfl

/-! ## The extraction loop reads only the body -/

theorem window_getElem? (buf : List Nat) (c0 L k : Nat) (hk : k < L) :
    ((buf.drop c0).take L)[k]? = buf[c0 + k]? := by
  rw [List.getElem?_take_of_lt hk, List.getElem?_drop]

theorem extract_chan_shift (buf : List Nat) (c0 L m : Nat) (x : XState) (i : Nat)
    (hx : x.cur + 3 * x.nsamp ≤ L) :
    extract_chan buf m (x.shift c0) i
      = (extract_chan ((buf.drop c0).take L) m x i).map (XState.shift c0) := by
  unfold extract_chan
  by_cases ha : active m i = true
  · simp only [ha, Bool.not_true, Bool.false_eq_true, if_false]
    by_cases hn : x.nsamp = 0
    · simp only [XState.shift, hn, if_true]
      rfl
    · have h0 := window_getElem? buf c0 L x.cur (by omega)
      have h1 := window_getElem? buf c0 L (x.cur + 1) (by omega)
      have h2 := window_getElem? buf c0 L (x.cur + 2) (by omega)
      simp only [XState.shift, hn, if_false, h0, h1, h2, Nat.add_assoc]
      cases buf[c0 + x.cur]? with
      | none => rfl
      | some b0 =>
        cases buf[c0 + (x.cur + 1)]? with
        | none => rfl
        | some b1 =>
          cases buf[c0 + (x.cur + 2)]? with
          | none => rfl
          | some b2 =>
            simp only
            cases (x.pvt.out_channel i).write (host32 (sample_word b0 b1 b2)) with
            | error e => rfl
            | ok o => rfl
  · simp only [ha, Bool.not_false, if_true]
    rfl

theorem extract_chan_measure (buf : List Nat) (m : Nat) (x y : XState) (i : Nat)
    (h : extract_chan buf m x i = .ok y) : y.cur + 3 * y.nsamp = x.cur + 3 * x.nsamp := by
  unfold extract_chan at h
  split at h
  · cases Except.ok.inj h; rfl
  · split at h
    · cases h
    · rename_i hn
      split at h
      · simp only at h
        split at h
        · cases h
        · cases Except.ok.inj h
          simp only
          omega
      · cases h

theorem for_chans_measure (buf : List Nat) (m : Nat) : ∀ (l : List Nat) (x y : XState),
    for_chans (extract_chan buf m) l x = .ok y →
    y.cur + 3 * y.nsamp = x.cur + 3 * x.nsamp
  | [], x, y, h => by rw [for_chans] at h; cases Except.ok.inj h; rfl
  | i :: rest, x, y, h => by
    rw [for_chans] at h
    split at h
    · cases h
    · rename_i x1 h1
      rw [for_chans_measure buf m rest x1 y h, extract_chan_measure buf m x x1 i h1]

theorem for_chans_shift (buf : List Nat) (c0 L m : Nat) : ∀ (l : List Nat) (x : XState),
    x.cur + 3 * x.nsamp ≤ L →
    for_chans (extract_chan buf m) l (x.shift c0)
      = (for_chans (extract_chan ((buf.drop c0).take L) m) l x).map (XState.shift c0)
  | [], x, _ => rfl
  | i :: rest, x, hx => by
    rw [for_chans, for_chans, extract_chan_shift buf c0 L m x i hx]
    cases h1 : extract_chan ((buf.drop c0).take L) m x i with
    | error e => rfl
    | ok x1 =>
      have hm := extract_chan_measure _ m x x1 i h1
      exact for_chans_shift buf c0 L m rest x1 (by omega)

theorem extract_while_shift (buf : List Nat) (c0 L m : Nat) : ∀ (fuel : Nat) (x : XState),
    x.cur + 3 * x.nsamp ≤ L →
    extract_while buf m fuel (x.shift c0)
      = (extract_while ((buf.drop c0).take L) m fuel x).map (XState.shift c0)
  | 0, _, _ => rfl
  | fuel + 1, x, hx => by
    rw [extract_while, extract_while]
    by_cases hn : x.nsamp = 0
    · have : (x.shift c0).nsamp = 0 := hn
      rw [if_pos hn, if_pos this]
      rfl
    · have : ¬ (x.shift c0).nsamp = 0 := hn
      rw [if_neg hn, if_neg this, for_chans_shift buf c0 L m _ x hx]
      cases h1 : for_chans (extract_chan ((buf.drop c0).take L) m) (List.range 32) x with
      | error e => rfl
      | ok x1 =>
        have hm := for_chans_measure _ m _ x x1 h1
        exact extract_while_shift buf c0 L m fuel x1 (by omega)

/-! ## `sample_packet` on a buffered packet -/

theorem extract_on_window (is : rawfile) (body rest : List Nat) (m : Nat) (pvt : priv)
    (hr : ROk is) (hu : is.unread = body ++ rest) (hn : body.length ≤ is.limit - is.pos) :
    extract_while is.buf m (body.length / 3 + 1)
        { nsamp := body.length / 3, cur := is.pos, pvt := pvt }
      = (extract_while body m (body.length / 3 + 1)
          { nsamp := body.length / 3, cur := 0, pvt := pvt }).map (XState.shift is.pos) := by
  have hwin : (is.buf.drop is.pos).take body.length = body := by
    rw [(advance_spec is body.length hr hn).2.2.1, hu, List.take_left]
  have h := extract_while_shift is.buf is.pos body.length m (body.length / 3 + 1)
    { nsamp := body.length / 3, cur := 0, pvt := pvt }
    (by simp only; have := Nat.div_mul_le_self body.length 3; omega)
  rw [hwin] at h
  exact h

/-- The tail of `sample_packet`, from the extraction loop on, when the body is
buffered at `pos`. -/
theorem sample_tail (is : rawfile) (body rest : List Nat) (m : Nat) (pvt : priv)
    (hr : ROk is) (hu : is.unread = body ++ rest) (hn : body.length ≤ is.limit - is.pos) :
    (match extract_while is.buf m (body.length / 3 + 1)
              { nsamp := body.length / 3, cur := is.pos, pvt := pvt } with
      | .error e => (.error e : Except Err (priv × rawfile))
      | .ok x =>
        match is.drain body.length with
        | .error e => .error e
        | .ok is3 => .ok (x.pvt, is3))
      = (match extract_while body m (body.length / 3 + 1)
              { nsamp := body.length / 3, cur := 0, pvt := pvt } with
          | .error e => .error e
          | .ok x => .ok (x.pvt, { is with pos := is.pos + body.length })) := by
  rw [extract_on_window is body rest m pvt hr hu hn, drain_buffered is body.length hr hn]
  cases extract_while body m (body.length / 3 + 1)
      { nsamp := body.length / 3, cur := 0, pvt := pvt } with
  | error e => rfl
  | ok x => rfl

theorem advance_ROk (r : rawfile) (n : Nat) (front rest : List Nat) (hr : ROk r)
    (hu : r.unread = front ++ rest) (hl : front.length = n) (hn : n ≤ r.limit - r.pos) :
    ROk { r with pos := r.pos + n } ∧
    rawfile.unread { r with pos := r.pos + n } = rest ∧
    r.read_as n = .ok (front, { r with pos := r.pos + n }) := by
  obtain ⟨a1, a2, -, -⟩ := advance_spec r n hr hn
  refine ⟨a1, by rw [a2, hu, List.drop_left' hl], ?_⟩
  rw [read_as_buffered r n hr hn, hu, List.take_left' hl]

/-- On a buffered, well-formed sample packet `sample_packet` does to the state
what `process` does, and moves the stream past the message. -/
theorem sample_packet_eq_process (pvt : priv) (is2 : rawfile) (p : Packet) (rest : List Nat)
    (hr : ROk is2)
    (hu : is2.unread
      = (encode_NA p.status p.chmask p.seqno p.sec p.ns ++ (p.ext ++ p.body)) ++ rest)
    (hw : p.wf) (hn : p.msglen ≤ is2.limit - is2.pos) :
    sample_packet pvt is2 p.msglen p.extB.isSome
      = (process pvt p).map (fun q => (q, { is2 with pos := is2.pos + p.msglen })) := by
  obtain ⟨d1, d2, d3⟩ := p.decode_NA hw
  have hml := p.msglen_eq
  have hlA := length_encode_NA p.status p.chmask p.seqno p.sec p.ns
  rw [List.append_assoc] at hu
  obtain ⟨rA, uA, eA⟩ := advance_ROk is2 24 _ _ hr hu hlA (by omega)
  have hext : (p.extB = none ∧ p.ext = []) ∨ (∃ b, p.extB = some b ∧ p.ext = b ∧ b.length = 16) := by
    unfold Packet.ext
    cases he : p.extB with
    | none => exact Or.inl ⟨rfl, rfl⟩
    | some b => exact Or.inr ⟨b, rfl, rfl, hw.extB_len b he⟩
  unfold sample_packet process
  rw [show SIZE_NA = 24 from rfl, eA]
  simp only [d1, d2, d3]
  cases (if pvt.first = true then
      prepare_output { pvt with first := false, last_chmask := p.chmask }
    else gap_recover pvt p.chmask p.seqno p.nsec) with
  | error e => rfl
  | ok pvt1 =>
    simp only
    rcases hext with ⟨he, hx⟩ | ⟨b, he, hx, hb⟩
    · rw [he]
      rw [hx, List.length_nil] at hml
      rw [hx, List.nil_append] at uA
      have hm : p.msglen - 24 = p.body.length := by omega
      simp only [Option.isSome_none, Bool.false_eq_true, if_false, hm]
      have hn2 : p.body.length ≤
          ({ is2 with pos := is2.pos + 24 } : rawfile).limit
            - ({ is2 with pos := is2.pos + 24 } : rawfile).pos := by
        show p.body.length ≤ is2.limit - (is2.pos + 24)
        omega
      rw [sample_tail _ p.body rest p.chmask _ rA uA hn2]
      have hp : is2.pos + 24 + p.body.length = is2.pos + p.msglen := by omega
      simp only [hp]
      cases extract_while p.body p.chmask (p.body.length / 3 + 1)
          { nsamp := p.body.length / 3, cur := 0,
            pvt := { pvt1 with last_seqno := p.seqno, last_ns := p.nsec,
                               last_nsamp := p.body.length / 3 } } with
      | error e => rfl
      | ok x => rfl
    · rw [he]
      rw [hx, hb] at hml
      rw [hx, List.append_assoc] at uA
      have hm : p.msglen - 24 - 16 = p.body.length := by omega
      have hnA : 16 ≤ ({ is2 with pos := is2.pos + 24 } : rawfile).limit
            - ({ is2 with pos := is2.pos + 24 } : rawfile).pos := by
        show 16 ≤ is2.limit - (is2.pos + 24)
        omega
      obtain ⟨rB, uB, eB⟩ := advance_ROk _ 16 b _ rA uA hb hnA
      simp only [Option.isSome_some, if_true, show SIZE_NB = 16 from rfl, eB, hm]
      have hn2 : p.body.length ≤
          ({ is2 with pos := is2.pos + 24 + 16 } : rawfile).limit
            - ({ is2 with pos := is2.pos + 24 + 16 } : rawfile).pos := by
        show p.body.length ≤ is2.limit - (is2.pos + 24 + 16)
        omega
      rw [sample_tail _ p.body rest p.chmask _ rB uB hn2]
      have hp : is2.pos + 24 + 16 + p.body.length = is2.pos + p.msglen := by omega
      simp only [hp]
      cases extract_while p.body p.chmask (p.body.length / 3 + 1)
          { nsamp := p.body.length / 3, cur := 0,
            pvt := { pvt1 with last_seqno := p.seqno, last_ns := p.nsec,
                               last_nsamp := p.body.length / 3 } } with
      | error e => rfl
      | ok x => rfl

/-! ## The loop of `convert1` on a stream of messages -/

theorem Packet.msgid_lt (p : Packet) : p.msgid < 65536 := by
  unfold Packet.msgid
  cases p.extB with
  | none => show 0x4e41 < 65536; decide
  | some b => show 0x4e42 < 65536; decide

/-- A pass of the loop on a stream that starts with a well-formed sample packet
that fits the buffer. -/
theorem convert1_body_sample (pvt : priv) (istrm : rawfile) (p : Packet) (rest : List Nat)
    (hr : ROk istrm) (hu : istrm.unread = p.encode ++ rest) (hw : p.wf)
    (hcap : p.msglen ≤ istrm.cap) :
    ∃ is3, ROk is3 ∧ is3.unread = rest ∧ is3.cap = istrm.cap ∧
      convert1_body pvt istrm = (process pvt p).map (fun q => some (q, is3)) := by
  have hml := p.msglen_eq
  have hlA := length_encode_NA p.status p.chmask p.seqno p.sec p.ns
  have hpl : (encode_NA p.status p.chmask p.seqno p.sec p.ns ++ (p.ext ++ p.body)).length
      = p.msglen := by
    rw [List.length_append, List.length_append, hlA, hml]; omega
  rw [p.encode_eq, List.append_assoc] at hu
  obtain ⟨is2, hr2, hu2, hc2, hn2, hb⟩ := convert1_body_head pvt istrm p.msgid p.msglen
    p.rxsec p.rxns _ rest hr (by omega) hu p.msgid_lt hw.msglen_lt (by omega) hpl hcap
  obtain ⟨a1, a2, -⟩ := advance_ROk is2 p.msglen _ rest hr2 hu2 hpl hn2
  refine ⟨_, a1, a2, hc2, ?_⟩
  have hsp := sample_packet_eq_process pvt is2 p rest hr2 hu2 hw hn2
  rw [hb]
  unfold Packet.msgid
  cases he : p.extB with
  | none =>
    rw [he] at hsp
    simp only [if_true]
    rw [show false = (none : Option (List Nat)).isSome from rfl, hsp]
    cases process pvt p <;> rfl
  | some b =>
    rw [he] at hsp
    have h40 : ¬ p.msglen < 40 := by
      have : p.ext = b := by unfold Packet.ext; rw [he]
      rw [this, hw.extB_len b he] at hml
      omega
    simp only [show ¬ ((0x4e42 : Nat) = 0x4e41) by decide, if_false, if_true, h40]
    rw [show true = (some b : Option (List Nat)).isSome from rfl, hsp]
    cases process pvt p <;> rfl

/-- A pass of the loop on a stream that starts with a complete message of
another type that fits the buffer. -/
theorem convert1_body_other (pvt : priv) (istrm : rawfile)
    (msgid msglen rxsec rxns : Nat) (payload rest : List Nat) (hr : ROk istrm)
    (hu : istrm.unread = encode_head 0x5053 msgid msglen rxsec rxns ++ payload ++ rest)
    (hok : Msg.ok istrm.cap (.other msgid msglen rxsec rxns payload)) :
    ∃ is3, ROk is3 ∧ is3.unread = rest ∧ is3.cap = istrm.cap ∧
      convert1_body pvt istrm = .ok (some (pvt, is3)) := by
  obtain ⟨h1, h2, h3, h4, h5, h6, h7⟩ := hok
  rw [List.append_assoc] at hu
  obtain ⟨is2, hr2, hu2, hc2, hn2, hb⟩ := convert1_body_head pvt istrm msgid msglen
    rxsec rxns payload rest hr (by omega) hu h1 h5 h4 h6 h7
  obtain ⟨a1, a2, -⟩ := advance_ROk is2 msglen payload rest hr2 hu2 h6 hn2
  refine ⟨_, a1, a2, hc2, ?_⟩
  rw [hb, if_neg h2, if_neg h3]

/-- A pass of the loop at the end of the input. -/
theorem convert1_body_eof (pvt : priv) (istrm : rawfile) (hr : ROk istrm)
    (hu : istrm.unread = []) : convert1_body pvt istrm = .ok none := by
  obtain ⟨r1, h⟩ := read_eof istrm 16 hr hu (by decide)
  unfold convert1_body
  rw [show SIZE_HEAD = 16 from rfl, h]

theorem encode_all_cons (m : Msg) (ms : List Msg) :
    encode_all (m :: ms) = m.encode ++ encode_all ms := by
  unfold encode_all
  rw [List.map_cons, List.flatten_cons]

theorem Msg.encode_length_pos (m : Msg) : 1 ≤ m.encode.length := by
  cases m with
  | sample p =>
    show 1 ≤ p.encode.length
    rw [p.encode_eq, List.length_append, length_encode_head]
    omega
  | other msgid msglen rxsec rxns payload =>
    show 1 ≤ (encode_head 0x5053 msgid msglen rxsec rxns ++ payload).length
    rw [List.length_append, length_encode_head]
    omega

theorem length_le_encode_all : ∀ (ms : List Msg), ms.length ≤ (encode_all ms).length
  | [] => Nat.le_refl _
  | m :: ms => by
    rw [encode_all_cons, List.length_append, List.length_cons]
    have := m.encode_length_pos
    have := length_le_encode_all ms
    omega

/-- The loop of `convert1` on a stream made of well-formed messages that fit
the buffer does to the state what `process_all` does. -/
theorem convert1_loop_stream : ∀ (msgs : List Msg) (fuel : Nat) (pvt : priv)
    (istrm : rawfile), ROk istrm → istrm.unread = encode_all msgs →
    (∀ m ∈ msgs, m.ok istrm.cap) → msgs.length < fuel →
    convert1_loop fuel pvt istrm = process_all msgs pvt
  | [], fuel, pvt, istrm, hr, hu, _, hf => by
    obtain ⟨f, rfl⟩ : ∃ f, fuel = f + 1 := ⟨fuel - 1, by omega⟩
    rw [convert1_loop, convert1_body_eof pvt istrm hr hu]
    rfl
  | .sample p :: ms, fuel, pvt, istrm, hr, hu, hok, hf => by
    obtain ⟨f, rfl⟩ : ∃ f, fuel = f + 1 := ⟨fuel - 1, by omega⟩
    rw [encode_all_cons] at hu
    have hp : Msg.ok istrm.cap (.sample p) := hok _ (List.mem_cons_self _ _)
    obtain ⟨is3, hr3, hu3, hc3, hb⟩ := convert1_body_sample pvt istrm p _ hr hu hp.1 hp.2
    rw [convert1_loop, hb, process_all]
    cases hpr : process pvt p with
    | error e => rfl
    | ok q =>
      exact convert1_loop_stream ms f q is3 hr3 hu3
        (fun m hm => by rw [hc3]; exact hok m (List.mem_cons_of_mem _ hm))
        (by rw [List.length_cons] at hf; omega)
  | .other msgid msglen rxsec rxns payload :: ms, fuel, pvt, istrm, hr, hu, hok, hf => by
    obtain ⟨f, rfl⟩ : ∃ f, fuel = f + 1 := ⟨fuel - 1, by omega⟩
    rw [encode_all_cons] at hu
    have hp := hok _ (List.mem_cons_self _ _)
    obtain ⟨is3, hr3, hu3, hc3, hb⟩ :=
      convert1_body_other pvt istrm msgid msglen rxsec rxns payload _ hr hu hp
    rw [convert1_loop, hb, process_all]
    exact convert1_loop_stream ms f pvt is3 hr3 hu3
      (fun m hm => by rw [hc3]; exact hok m (List.mem_cons_of_mem _ hm))
      (by rw [List.length_cons] at hf; omega)

theorem ROk_mk_open (f : KFile) : ROk (rawfile.mk_open f false) :=
  ⟨rfl, Nat.le_refl _, Nat.le_refl _, Nat.zero_le _⟩

/-- The function `convert1` on a file made of well-formed messages that fit the
buffer, however the reads are chunked. -/
theorem convert1_stream (pvt : priv) (indat : KFile) (msgs : List Msg)
    (hd : indat.data = encode_all msgs) (hok : ∀ m ∈ msgs, m.ok BUFSIZE) :
    convert1 pvt indat = process_all msgs pvt := by
  unfold convert1
  apply convert1_loop_stream msgs _ pvt _ (ROk_mk_open _)
  · show List.take (0 - 0) (List.drop 0 []) ++ List.drop 0 indat.data = _
    rw [List.drop_zero, hd]
    rfl
  · exact hok
  · rw [hd]
    have := length_le_encode_all msgs
    omega

/-! ## Messages longer than the buffer -/

/-- A message whose length exceeds the buffer size makes the pass throw, even
when all its bytes are in the file. -/
theorem convert1_body_too_long (pvt : priv) (istrm : rawfile)
    (msgid msglen rxsec rxns : Nat) (tail : List Nat) (hr : ROk istrm)
    (hu : istrm.unread = encode_head 0x5053 msgid msglen rxsec rxns ++ tail)
    (hml : msglen < 4294967296) (hcap16 : 16 ≤ istrm.cap) (hbig : istrm.cap < msglen) :
    ∃ e, convert1_body pvt istrm = .error e := by
  have hl16 := length_encode_head 0x5053 msgid msglen rxsec rxns
  obtain ⟨is1, hrd, hr1, hu1, hc1⟩ := read_total istrm 16 hr hcap16
    (by rw [hu, List.length_append, hl16]; omega)
  rw [hu, List.take_left' hl16] at hrd
  obtain ⟨-, -, d3⟩ := decode_encode_head 0x5053 msgid msglen rxsec rxns
  rw [Nat.mod_eq_of_lt hml] at d3
  unfold convert1_body
  simp only [SIZE_HEAD, hrd, d3]
  split
  · exact ⟨_, rfl⟩
  · cases hens : is1.ensure msglen with
    | error e => exact ⟨e, rfl⟩
    | ok res =>
      obtain ⟨flag, is2⟩ := res
      cases flag with
      | false => exact ⟨_, rfl⟩
      | true =>
        obtain ⟨hr2, -, hn2, hc2⟩ := ensure_true is1 is2 msglen hr1 hens
        have := hr2.limit_cap
        omega

theorem unread_mk_open (f : KFile) :
    (rawfile.mk_open { f with off := 0 } false).unread = f.data := rfl

theorem convert2j_error_of_body (f : KFile) (force : Bool) (e : Err)
    (h : convert1_body (priv.init force) (rawfile.mk_open { f with off := 0 } false)
      = .error e) : convert2j [f] force = .error e := by
  unfold convert2j
  rw [convert_all, convert1, convert1_loop, h]

theorem process_all_skip (msgid msglen rxsec rxns : Nat) (payload : List Nat) :
    ∀ (pre post : List Msg) (pvt : priv),
    process_all (pre ++ .other msgid msglen rxsec rxns payload :: post) pvt
      = process_all (pre ++ post) pvt
  | [], post, pvt => by rw [List.nil_append, List.nil_append, process_all]
  | .sample p :: pre, post, pvt => by
    rw [List.cons_append, List.cons_append, process_all, process_all]
    cases process pvt p with
    | error e => rfl
    | ok q => exact process_all_skip msgid msglen rxsec rxns payload pre post q
  | .other _ _ _ _ _ :: pre, post, pvt => by
    rw [List.cons_append, List.cons_append, process_all, process_all]
    exact process_all_skip msgid msglen rxsec rxns payload pre post pvt

theorem convert_all_congr (f g : KFile) (h : ∀ pvt, convert1 pvt f = convert1 pvt g) :
    ∀ (before after : List KFile) (pvt : priv),
    convert_all (before ++ f :: after) pvt = convert_all (before ++ g :: after) pvt
  | [], after, pvt => by
    rw [List.nil_append, List.nil_append, convert_all, convert_all, h pvt]
  | b :: before, after, pvt => by
    rw [List.cons_append, List.cons_append, convert_all, convert_all]
    cases convert1 pvt b with
    | error e => rfl
    | ok q => exact convert_all_congr f g h before after q

/-! ## C10 -/

/-- C10, as stated, fails: a complete message of type 0x4e43 with a valid header
whose length exceeds the 64 MiB buffer is not skipped, the run throws. -/
theorem C10_counterexample : ∃ e, convert2j [ex_huge_file] false = .error e := by
  obtain ⟨e, he⟩ := convert1_body_too_long (priv.init false)
    (rawfile.mk_open { ex_huge_file with off := 0 } false) 0x4e43 (BUFSIZE + 1) 0 0
    (List.replicate (BUFSIZE + 1) 0) (ROk_mk_open _) (unread_mk_open ex_huge_file)
    (by decide) (by decide) (Nat.lt_succ_self _)
  exact ⟨e, convert2j_error_of_body ex_huge_file false e he⟩

/-- C10 (amended).  A complete message with a valid header, a type other than
NA and NB and a length of at most the buffer size (64 MiB) is skipped: the pass
returns the state as it was (so nothing is written and no entry is appended) and
the stream moves on by the 16 header bytes and the message length.  Hence a run
over a file of such messages and well-formed sample packets equals the run over
the file with one of these messages taken out. -/
theorem C10_unknown_skipped (pvt : priv) (istrm : rawfile)
    (msgid msglen rxsec rxns : Nat) (payload rest : List Nat) (hr : ROk istrm)
    (hc : istrm.cap = BUFSIZE)
    (hu : istrm.unread = encode_head 0x5053 msgid msglen rxsec rxns ++ payload ++ rest)
    (hok : Msg.ok BUFSIZE (.other msgid msglen rxsec rxns payload)) :
    (∃ is3, convert1_body pvt istrm = .ok (some (pvt, is3)) ∧ ROk is3 ∧
      is3.unread = rest ∧
      istrm.unread.length = 16 + msglen + is3.unread.length) ∧
    (∀ (pre post : List Msg) (f g : KFile) (before after : List KFile) (force : Bool),
      (∀ m ∈ pre ++ post, m.ok BUFSIZE) →
      f.data = encode_all (pre ++ .other msgid msglen rxsec rxns payload :: post) →
      g.data = encode_all (pre ++ post) →
      convert2j (before ++ f :: after) force = convert2j (before ++ g :: after) force) := by
  constructor
  · obtain ⟨is3, h1, h2, -, h4⟩ := convert1_body_other pvt istrm msgid msglen rxsec rxns
      payload rest hr hu (by rw [hc]; exact hok)
    refine ⟨is3, h4, h1, h2, ?_⟩
    rw [hu, h2, List.length_append, List.length_append, length_encode_head, hok.2.2.2.2.2.1]
  · intro pre post f g before after force hall hf hg
    have hfg : ∀ q, convert1 q f = convert1 q g := by
      intro q
      rw [convert1_stream q f _ hf, convert1_stream q g _ hg, process_all_skip]
      · exact hall
      · intro m hm
        rcases List.mem_append.mp hm with h | h
        · exact hall m (List.mem_append_left _ h)
        · rcases List.mem_cons.mp h with h | h
          · rw [h]; exact hok
          · exact hall m (List.mem_append_right _ h)
    unfold convert2j
    rw [convert_all_congr f g hfg before after]

/-- Witness for C10: the message `ex_other` at the head of a freshly opened file. -/
theorem C10_unknown_skipped_witness :
    ∃ is3, convert1_body (priv.init false)
        (rawfile.mk_open { data := encode_head 0x5053 0x4e43 24 7 9 ++ List.replicate 24 1
                              ++ (ex_packet 10).encode } false)
      = .ok (some (priv.init false, is3)) ∧ ROk is3 ∧ is3.unread = (ex_packet 10).encode :=
  have h := (C10_unknown_skipped (priv.init false)
    (rawfile.mk_open { data := encode_head 0x5053 0x4e43 24 7 9 ++ List.replicate 24 1
                          ++ (ex_packet 10).encode } false)
    0x4e43 24 7 9 (List.replicate 24 1) (ex_packet 10).encode (ROk_mk_open _) rfl rfl
    (by unfold Msg.ok; decide)).1
  h.elim (fun is3 h3 => ⟨is3, h3.1, h3.2.1, h3.2.2.1⟩)

/-! ## C7 -/

/-- C7 (a channel-mask change is fatal).  Once a first sample packet has been
processed, a pass of the loop on a well-formed NA or NB packet whose mask
differs from the first packet's mask throws, whatever `force`, the sequence
number and the time stamp are; the error is raised by the mask test of
`gap_recover`, which precedes every write (for a message longer than the buffer
the pass throws before that). -/
theorem C7_mask_change_fatal (pvt : priv) (istrm : rawfile) (p : Packet) (rest : List Nat)
    (hf : pvt.first = false) (hr : ROk istrm) (hc : istrm.cap = BUFSIZE)
    (hu : istrm.unread = p.encode ++ rest) (hw : p.wf)
    (hne : p.chmask ≠ pvt.last_chmask) :
    (∃ e, convert1_body pvt istrm = .error e) ∧
    gap_recover pvt p.chmask p.seqno p.nsec = .error .mask_change ∧
    (p.msglen ≤ BUFSIZE → convert1_body pvt istrm = .error .mask_change) := by
  have hg : gap_recover pvt p.chmask p.seqno p.nsec = .error .mask_change :=
    gap_recover_mask pvt _ _ _ (fun h => hne h.symm)
  have hfit : p.msglen ≤ BUFSIZE → convert1_body pvt istrm = .error .mask_change := by
    intro hm
    obtain ⟨is3, -, -, -, hb⟩ := convert1_body_sample pvt istrm p rest hr hu hw
      (by rw [hc]; exact hm)
    rw [hb]
    unfold process
    simp only [hf, Bool.false_eq_true, if_false, hg]
    rfl
  refine ⟨?_, hg, hfit⟩
  by_cases hm : p.msglen ≤ BUFSIZE
  · exact ⟨_, hfit hm⟩
  · rw [p.encode_eq] at hu
    exact convert1_body_too_long pvt istrm p.msgid p.msglen p.rxsec p.rxns _ hr hu
      hw.msglen_lt (by rw [hc]; decide) (by rw [hc]; omega)

/-- Witness for C7: after packet 10 with mask `0b011`, an NB packet with mask
`0b101`. -/
theorem C7_mask_change_fatal_witness :
    convert1_body (state_of (convert_all [ex_first_file] (priv.init true)))
      (rawfile.mk_open { data := ex_packet_mask5.encode } false) = .error .mask_change :=
  (C7_mask_change_fatal (state_of (convert_all [ex_first_file] (priv.init true)))
    (rawfile.mk_open { data := ex_packet_mask5.encode ++ [] } false) ex_packet_mask5 []
    (by decide!) (ROk_mk_open _) rfl rfl
    ⟨by decide, by decide, by decide, by decide, by decide,
      fun b hb => by cases hb; rfl⟩
    (by decide!)).2.2 (by decide)

/-! ## `finalize_output` -/

theorem length_hdr_final (fsize : Nat) : (hdr_final fsize).length = 20 := rfl

/-- The steps of `finalize_output` on one channel in the appending state: the
file ends up closed, with the final header over its first 20 bytes and the rest
as it was. -/
theorem finalize_steps (r : rawfile) (hw : WOk r) :
    ∃ o1 t o2 o3 o4, r.flush = .ok o1 ∧ o1.tell = .ok t ∧ t = r.content.length ∧
      o1.seek 0 = .ok (0, o2) ∧
      o2.write (hdr_final ((t + W64 - 20) % W64)) = .ok o3 ∧ o3.close = .ok o4 ∧
      o4.is_open = false ∧
      o4.file.data = hdr_final ((r.content.length + W64 - 20) % W64) ++ r.content.drop 20 := by
  obtain ⟨o1, h1, hw1, hc1, hp1, hd1⟩ := flush_ok hw
  have ht : o1.tell = .ok r.content.length := by
    unfold rawfile.tell
    rw [hw1.is_open, hp1, hw1.off, hd1]
    rfl
  have hf1 : o1.flush = .ok o1 := by
    unfold rawfile.flush
    rw [hw1.writing, hp1]
    rfl
  have hs : o1.seek 0
      = .ok (0, { o1 with pos := 0, limit := 0, file := { o1.file with off := 0 } }) := by
    unfold rawfile.seek
    simp only [hw1.writing, if_true, hf1, hw1.is_open, Bool.not_true, Bool.false_eq_true,
      if_false]
  obtain ⟨hdr, hhdr⟩ : ∃ hdr, hdr = hdr_final ((r.content.length + W64 - 20) % W64) := ⟨_, rfl⟩
  have hl : hdr.length = 20 := by rw [hhdr]; rfl
  obtain ⟨o2, ho2⟩ : ∃ o2 : rawfile,
      o2 = { o1 with pos := 0, limit := 0, file := { o1.file with off := 0 } } := ⟨_, rfl⟩
  obtain ⟨o3, ho3⟩ : ∃ o3 : rawfile,
      o3 = { o2 with buf := hdr ++ o2.buf.drop 20, pos := 20 } := ⟨_, rfl⟩
  obtain ⟨o4, ho4⟩ : ∃ o4 : rawfile,
      o4 = { o3 with pos := 0, limit := 0, is_open := false,
                     file := sys_write o3.file hdr } := ⟨_, rfl⟩
  have hwr : o2.write hdr = .ok o3 := by
    unfold rawfile.write
    have hcap : ¬ (o2.cap - o2.pos < 20) := by
      rw [ho2]
      show ¬ (o1.cap - 0 < 20)
      rw [hw1.cap]; decide
    rw [hl, if_neg hcap, ho3]
    have hp : o2.pos = 0 := by rw [ho2]
    simp only [hp, List.take_zero, List.nil_append, Nat.zero_add]
  have hcl : o3.close = .ok o4 := by
    have e1 : o3.is_open = true := by rw [ho3, ho2]; exact hw1.is_open
    have e2 : o3.writing = true := by rw [ho3, ho2]; exact hw1.writing
    have e3 : o3.pos = 20 := by rw [ho3]
    have e4 : o3.buf.take 20 = hdr := by rw [ho3]; exact List.take_left' hl
    unfold rawfile.close rawfile.flush
    simp only [e1, e2, e3, e4, Bool.not_true, Bool.false_eq_true, if_false, if_true,
      show ¬ ((20 : Nat) = 0) by decide]
    rw [ho4, e2]
  refine ⟨o1, _, o2, o3, o4, h1, ht, rfl, by rw [hs, ho2], ?_, hcl, by rw [ho4], ?_⟩
  · rw [← hhdr]; exact hwr
  · have e5 : o3.file = { o1.file with off := 0 } := by rw [ho3, ho2]
    rw [ho4]
    show (sys_write o3.file hdr).data = _
    rw [e5]
    unfold sys_write
    simp only [List.take_zero, List.nil_append, Nat.zero_sub, List.replicate_zero, Nat.zero_add,
      hl, hd1]
    rw [hhdr]

theorem finalize_chan_ok (pvt : priv) (i : Nat) (ha : active pvt.last_chmask i = true)
    (hw : WOk (pvt.out_channel i)) :
    ∃ o4, finalize_chan pvt i = .ok { pvt with out_channel := upd pvt.out_channel i o4 } ∧
      o4.is_open = false ∧
      o4.file.data = hdr_final (((pvt.out_channel i).content.length + W64 - 20) % W64)
        ++ (pvt.out_channel i).content.drop 20 := by
  obtain ⟨o1, t, o2, o3, o4, h1, h2, ht, h3, h4, h5, h6, h7⟩ := finalize_steps _ hw
  refine ⟨o4, ?_, h6, h7⟩
  unfold finalize_chan
  simp only [ha, Bool.not_true, Bool.false_eq_true, if_false, h1, h2, h3, h4, h5]

theorem finalize_round : ∀ (l : List Nat), l.Nodup → ∀ (pvt : priv),
    (∀ i ∈ l, active pvt.last_chmask i = true → WOk (pvt.out_channel i)) →
    ∃ q, for_chans finalize_chan l pvt = .ok q ∧
      q = { pvt with out_channel := q.out_channel } ∧
      ∀ j, ((j ∈ l ∧ active pvt.last_chmask j = true) →
              (q.out_channel j).is_open = false ∧
              (q.out_channel j).file.data
                = hdr_final (((pvt.out_channel j).content.length + W64 - 20) % W64)
                  ++ (pvt.out_channel j).content.drop 20) ∧
           (¬ (j ∈ l ∧ active pvt.last_chmask j = true) →
              q.out_channel j = pvt.out_channel j) := by
  intro l
  induction l with
  | nil =>
    intro _ pvt _
    exact ⟨pvt, rfl, rfl, fun j => ⟨fun h => absurd h.1 (List.not_mem_nil j), fun _ => rfl⟩⟩
  | cons i rest ih =>
    intro hnd pvt hw
    have hi : i ∉ rest := (List.nodup_cons.mp hnd).1
    have hrest : rest.Nodup := (List.nodup_cons.mp hnd).2
    by_cases ha : active pvt.last_chmask i = true
    · obtain ⟨o4, ho, hop, hdat⟩ := finalize_chan_ok pvt i ha (hw i (List.mem_cons_self i rest) ha)
      obtain ⟨q, hq, hfr, hch⟩ := ih hrest { pvt with out_channel := upd pvt.out_channel i o4 }
        (by
          intro k hk hak
          have : k ≠ i := fun e => hi (e ▸ hk)
          simpa [upd, this] using hw k (List.mem_cons_of_mem i hk) hak)
      simp only at hfr hch
      refine ⟨q, by rw [for_chans, ho]; exact hq, by rw [hfr], ?_⟩
      intro j
      constructor
      · rintro ⟨hj, haj⟩
        by_cases hji : j = i
        · subst hji
          rw [(hch j).2 (fun h => hi h.1)]
          simpa [upd] using And.intro hop hdat
        · have := (hch j).1 ⟨(List.mem_cons.mp hj).resolve_left hji, haj⟩
          simpa [upd, hji] using this
      · intro hn
        have hn1 : ¬ (j ∈ rest ∧ active pvt.last_chmask j = true) :=
          fun h => hn ⟨List.mem_cons_of_mem i h.1, h.2⟩
        have hji : j ≠ i := fun e => hn ⟨e ▸ List.mem_cons_self i rest, e ▸ ha⟩
        simpa [upd, hji] using (hch j).2 hn1
    · obtain ⟨q, hq, hfr, hch⟩ := ih hrest pvt
        (fun k hk hak => hw k (List.mem_cons_of_mem i hk) hak)
      refine ⟨q, ?_, hfr, ?_⟩
      · rw [for_chans]
        simp only [finalize_chan, ha, Bool.not_false, if_true]
        exact hq
      · intro j
        constructor
        · rintro ⟨hj, haj⟩
          have hji : j ≠ i := fun e => ha (e ▸ haj)
          exact (hch j).1 ⟨(List.mem_cons.mp hj).resolve_left hji, haj⟩
        · intro hn
          exact (hch j).2 (fun h => hn ⟨List.mem_cons_of_mem i h.1, h.2⟩)

/-- With every active channel in the appending state `finalize_output` returns
normally and leaves each of them closed with the final header in place. -/
theorem finalize_output_ok (pvt : priv)
    (hw : ∀ i, i < 32 → active pvt.last_chmask i = true → WOk (pvt.out_channel i)) :
    ∃ q, finalize_output pvt = .ok q ∧
      q = { pvt with out_channel := q.out_channel } ∧
      ∀ j, ((j < 32 ∧ active pvt.last_chmask j = true) →
              (q.out_channel j).is_open = false ∧
              (q.out_channel j).file.data
                = hdr_final (((pvt.out_channel j).content.length + W64 - 20) % W64)
                  ++ (pvt.out_channel j).content.drop 20) ∧
           (¬ (j < 32 ∧ active pvt.last_chmask j = true) →
              q.out_channel j = pvt.out_channel j) := by
  obtain ⟨q, hq, hfr, hch⟩ := finalize_round (List.range 32) (List.nodup_range 32) pvt
    (fun i hi => hw i (List.mem_range.mp hi))
  exact ⟨q, hq, hfr, fun j => ⟨fun hj => (hch j).1 ⟨List.mem_range.mpr hj.1, hj.2⟩,
    fun hj => (hch j).2 (fun hh => hj ⟨List.mem_range.mp hh.1, hh.2⟩)⟩⟩

/-! ## C9 -/

theorem Reachable_init_or_Inv (force : Bool) (pvt : priv) (h : Reachable force pvt) :
    pvt = priv.init force ∨ Inv pvt := by
  induction h with
  | init => exact Or.inl rfl
  | step _ hb ih =>
    rename_i p q istrm is1 _
    rcases convert1_body_cases p q istrm is1 hb with hq | ⟨is2, msglen, hasB, hm, hs⟩
    · rw [hq]; exact ih
    · right
      have hI : p.first = true ∨ Inv p := by
        rcases ih with h | h
        · left; rw [h]; rfl
        · exact Or.inr h
      exact (sample_packet_Inv p q is2 is1 msglen hasB hI hm hs).1

theorem slice_append_left (a b : List Nat) (lo hi : Nat) (h1 : lo ≤ hi) (h2 : hi ≤ a.length) :
    slice (a ++ b) lo hi = slice a lo hi := by
  unfold slice
  rw [List.drop_append_of_le_length (by omega),
    List.take_append_of_le_length (by rw [List.length_drop]; omega)]

theorem hdr_final_fields (X : Nat) (hX : X < 18446744073709551616) :
    le (slice (hdr_final X) 0 4) = 1 ∧ le (slice (hdr_final X) 4 8) = 0 ∧
    le (slice (hdr_final X) 8 12) = 0 ∧
    le (slice (hdr_final X) 12 16) + 4294967296 * le (slice (hdr_final X) 16 20) = X := by
  refine ⟨rfl, rfl, rfl, ?_⟩
  show le (host32 (X % 4294967296)) + 4294967296 * le (host32 (X / 4294967296 % 4294967296)) = X
  have hle : ∀ w, le (host32 w) = w % 256 % 256 + 256 * (w / 256 % 256 % 256 + 256 *
      (w / 65536 % 256 % 256 + 256 * (w / 16777216 % 256 % 256 + 256 * 0))) := fun w => rfl
  rw [hle, hle]
  omega

/-- C9 (header round trip).  After a run of `convert2j` that returns normally,
every channel opened by `prepare_output` is closed and its file reads back as the
words `1, 0, 0` and a 64 bit size, low word first, followed by the sample bytes
exactly as they were before `finalize_output`; the file is 20 bytes plus 4 bytes
per sample, and the stored size is the file length minus 20 (modulo `2^64`, so
exactly that for every file shorter than `2^64` bytes). -/
theorem C9_header_round_trip (indats : List KFile) (force : Bool) (pvt : priv)
    (h : convert2j indats force = .ok pvt) (hf : pvt.first = false) (i : Nat) (hi : i < 32)
    (ha : active pvt.last_chmask i = true) :
    ∃ (pvt0 : priv) (ws : List Nat),
      convert_all indats (priv.init force) = .ok pvt0 ∧
      (pvt0.out_channel i).content = HDR_INVALID ++ wbytes ws ∧
      (pvt.out_channel i).is_open = false ∧
      (pvt.out_channel i).file.data.length = 20 + 4 * ws.length ∧
      (pvt.out_channel i).file.data.drop 20 = wbytes ws ∧
      le (slice (pvt.out_channel i).file.data 0 4) = 1 ∧
      le (slice (pvt.out_channel i).file.data 4 8) = 0 ∧
      le (slice (pvt.out_channel i).file.data 8 12) = 0 ∧
      le (slice (pvt.out_channel i).file.data 12 16)
          + 4294967296 * le (slice (pvt.out_channel i).file.data 16 20)
        = ((pvt.out_channel i).file.data.length - 20) % W64 ∧
      ((pvt.out_channel i).file.data.length < W64 →
        le (slice (pvt.out_channel i).file.data 12 16)
            + 4294967296 * le (slice (pvt.out_channel i).file.data 16 20)
          = (pvt.out_channel i).file.data.length - 20) := by
  unfold convert2j at h
  cases hc : convert_all indats (priv.init force) with
  | error e => rw [hc] at h; cases h
  | ok pvt0 =>
    rw [hc] at h
    simp only at h
    have hR := Reachable_convert_all force indats _ pvt0 Reachable.init hc
    rcases Reachable_init_or_Inv force pvt0 hR with h0 | hI
    · -- no sample packet was processed: the final state still has `first` set
      exfalso
      subst h0
      have hfin : finalize_output (priv.init force) = .ok (priv.init force) := by
        obtain ⟨q, hq, hfr, hch⟩ := finalize_output_ok (priv.init force)
          (fun k _ hk => by
            have : active 0 k = false := by rw [active_eq_testBit, Nat.zero_testBit]
            exact absurd hk (by rw [show (priv.init force).last_chmask = 0 from rfl, this]; simp))
        rw [hq, hfr]
        have : q.out_channel = (priv.init force).out_channel := by
          funext j
          apply (hch j).2
          intro hj
          have : active 0 j = false := by rw [active_eq_testBit, Nat.zero_testBit]
          rw [show (priv.init force).last_chmask = 0 from rfl, this] at hj
          exact absurd hj.2 (by simp)
        rw [this]
      rw [hfin] at h
      cases Except.ok.inj h
      cases hf
    · obtain ⟨q, hq, hfr, hch⟩ := finalize_output_ok pvt0 hI.wok
      rw [hq] at h
      cases Except.ok.inj h
      have hm : pvt.last_chmask = pvt0.last_chmask := by rw [hfr]
      rw [hm] at ha
      obtain ⟨n, hn⟩ := hI.fmt
      obtain ⟨ws, hws, -⟩ := hn i hi ha
      obtain ⟨hop, hdat⟩ := (hch i).1 ⟨hi, ha⟩
      have hlen0 : (pvt0.out_channel i).content.length = 20 + 4 * ws.length := by
        rw [hws, List.length_append, length_HDR_INVALID, length_wbytes]
      have hdrop : (pvt0.out_channel i).content.drop 20 = wbytes ws := by
        rw [hws, List.drop_left' length_HDR_INVALID]
      obtain ⟨X, hX⟩ : ∃ X, X = ((pvt0.out_channel i).content.length + W64 - 20) % W64 :=
        ⟨_, rfl⟩
      rw [← hX, hdrop] at hdat
      have hXlt : X < 18446744073709551616 := by
        rw [hX, ← W64_eq]
        exact Nat.mod_lt _ (by rw [W64_eq]; decide)
      have hXeq : X = (4 * ws.length) % W64 := by
        rw [hX, hlen0, W64_eq]
        omega
      have hlen : (pvt.out_channel i).file.data.length = 20 + 4 * ws.length := by
        rw [hdat, List.length_append, length_hdr_final, length_wbytes]
      obtain ⟨f1, f2, f3, f4⟩ := hdr_final_fields X hXlt
      have hs : ∀ lo hi, lo ≤ hi → hi ≤ 20 →
          slice (pvt.out_channel i).file.data lo hi = slice (hdr_final X) lo hi := by
        intro lo hi h1 h2
        rw [hdat]
        exact slice_append_left _ _ lo hi h1 (by rw [length_hdr_final]; exact h2)
      refine ⟨pvt0, ws, rfl, hws, hop, hlen, ?_, ?_, ?_, ?_, ?_, ?_⟩
      · rw [hdat, List.drop_left' (length_hdr_final X)]
      · rw [hs 0 4 (by decide) (by decide)]; exact f1
      · rw [hs 4 8 (by decide) (by decide)]; exact f2
      · rw [hs 8 12 (by decide) (by decide)]; exact f3
      · rw [hs 12 16 (by decide) (by decide), hs 16 20 (by decide) (by decide), f4, hlen,
          hXeq]
        congr 1
        omega
      · intro hlt
        rw [hs 12 16 (by decide) (by decide), hs 16 20 (by decide) (by decide), f4, hlen,
          hXeq]
        rw [hlen, W64_eq] at hlt
        rw [W64_eq]
        omega

/-- Witness for C9: channel 1 after the run over `ex_gap_file`. -/
theorem C9_header_round_trip_witness :
    ∃ (pvt0 : priv) (ws : List Nat),
      convert_all [ex_gap_file] (priv.init true) = .ok pvt0 ∧
      (pvt0.out_channel 1).content = HDR_INVALID ++ wbytes ws ∧
      ((state_of (convert2j [ex_gap_file] true)).out_channel 1).file.data.length
        = 20 + 4 * ws.length :=
  (C9_header_round_trip [ex_gap_file] true (state_of (convert2j [ex_gap_file] true))
    (eq_ok_of_succeeded _ (by decide!)) (by decide!) 1 (by decide) (by decide!)).elim
    (fun pvt0 h0 => h0.elim (fun ws hws => ⟨pvt0, ws, hws.1, hws.2.1, hws.2.2.2.1⟩))

/-! ## `process` on a packet -/

theorem Packet.body_div_lt (p : Packet) (hw : p.wf) : p.body.length / 3 < W64 := by
  have h1 := p.msglen_eq
  have h2 := hw.msglen_lt
  rw [W64_eq]
  have := Nat.div_le_self p.body.length 3
  omega

/-- The extraction over the body of a packet, started in a state whose active
channels are in the appending state. -/
theorem extract_body_spec (pvt1 : priv) (p : Packet) (hI0 : Inv0 pvt1)
    (hm : pvt1.last_chmask = p.chmask) (hw : p.wf) (x : XState)
    (h : extract_while p.body p.chmask (p.body.length / 3 + 1)
          { nsamp := p.body.length / 3, cur := 0,
            pvt := { pvt1 with last_seqno := p.seqno, last_ns := p.nsec,
                               last_nsamp := p.body.length / 3 } } = .ok x) :
    ∃ T, p.body.length / 3 = popcount p.chmask * T ∧ Inv x.pvt ∧
      x.pvt.last_chmask = p.chmask ∧ x.pvt.last_seqno = p.seqno ∧ x.pvt.last_ns = p.nsec ∧
      x.pvt.last_nsamp = p.body.length / 3 ∧ x.pvt.errors = pvt1.errors ∧
      x.pvt.force = pvt1.force ∧
      ∀ j, j < 32 → active p.chmask j = true →
        (x.pvt.out_channel j).content = (pvt1.out_channel j).content
          ++ wbytes (chan_words p.body (popcount p.chmask) (rank p.chmask (List.range 32) j) T 0) ∧
        x.pvt.last_channel j
          = (chan_words p.body (popcount p.chmask) (rank p.chmask (List.range 32) j) T 0).getLastD
              (pvt1.last_channel j) := by
  obtain ⟨T, hT, -, -, hfr, hch⟩ := extract_while_ok p.body p.chmask _ _ x
    (by
      intro i hi ha
      rw [← hm] at ha
      exact hI0.wok i hi ha) h
  simp only at hT hfr hch
  have e1 : x.pvt.last_chmask = pvt1.last_chmask := by rw [hfr]
  have e2 : x.pvt.first = pvt1.first := by rw [hfr]
  have e3 : x.pvt.last_nsamp = p.body.length / 3 := by rw [hfr]
  have e4 : x.pvt.force = pvt1.force := by rw [hfr]
  have e5 : x.pvt.last_seqno = p.seqno := by rw [hfr]
  have e6 : x.pvt.last_ns = p.nsec := by rw [hfr]
  have e7 : x.pvt.errors = pvt1.errors := by rw [hfr]
  refine ⟨T, by rw [popcount_eq_cnt]; exact hT, ⟨?_, ⟨T, ?_⟩, ?_, ?_⟩, by rw [e1, hm], e5, e6,
    e3, e7, e4, ?_⟩
  · apply Inv0_of_append pvt1 x.pvt hI0 e1 e2 T
    intro j hj
    rw [hm] at hj
    have := (hch j).1 hj
    exact ⟨this.1, _, this.2.1, length_chan_words _ _ _ _ _⟩
  · rw [e3, e1, hm, popcount_eq_cnt]; exact hT
  · rw [e3]; exact p.body_div_lt hw
  · rw [e5, W64_eq]; exact hw.seqno_lt
  · intro j hj ha
    have := (hch j).1 ⟨hj, ha⟩
    rw [popcount_eq_cnt]
    exact ⟨this.2.1, this.2.2⟩

theorem extract_body_total (pvt1 : priv) (p : Packet) (hI0 : Inv0 pvt1)
    (hm : pvt1.last_chmask = p.chmask) (T : Nat)
    (hT : p.body.length = 3 * (popcount p.chmask * T)) :
    ∃ x, extract_while p.body p.chmask (p.body.length / 3 + 1)
          { nsamp := p.body.length / 3, cur := 0,
            pvt := { pvt1 with last_seqno := p.seqno, last_ns := p.nsec,
                               last_nsamp := p.body.length / 3 } } = .ok x := by
  have hk := popcount_pos _ hI0.mask_ne hI0.mask_lt
  rw [hm] at hk
  have hdiv : p.body.length / 3 = popcount p.chmask * T := by
    rw [hT]; exact Nat.mul_div_cancel_left _ (by decide)
  have hTle : T ≤ popcount p.chmask * T := Nat.le_mul_of_pos_left T hk
  apply extract_while_total p.body p.chmask T
  · omega
  · intro i hi ha
    rw [← hm] at ha
    exact hI0.wok i hi ha
  · show p.body.length / 3 = cnt p.chmask (List.range 32) * T
    rw [← popcount_eq_cnt]; exact hdiv
  · show 0 + 3 * (cnt p.chmask (List.range 32) * T) ≤ p.body.length
    rw [← popcount_eq_cnt, hT]; omega

theorem process_of_branch (pvt pvt1 : priv) (p : Packet)
    (hb : (if pvt.first then
            prepare_output { pvt with first := false, last_chmask := p.chmask }
          else gap_recover pvt p.chmask p.seqno p.nsec) = .ok pvt1) :
    process pvt p =
      match extract_while p.body p.chmask (p.body.length / 3 + 1)
              { nsamp := p.body.length / 3, cur := 0,
                pvt := { pvt1 with last_seqno := p.seqno, last_ns := p.nsec,
                                   last_nsamp := p.body.length / 3 } } with
      | .error e => .error e
      | .ok x => .ok x.pvt := by
  unfold process
  simp only [hb]

theorem process_ok_steps (pvt q : priv) (p : Packet) (h : process pvt p = .ok q) :
    ∃ pvt1 x,
      (if pvt.first then
          prepare_output { pvt with first := false, last_chmask := p.chmask }
        else gap_recover pvt p.chmask p.seqno p.nsec) = .ok pvt1 ∧
      extract_while p.body p.chmask (p.body.length / 3 + 1)
        { nsamp := p.body.length / 3, cur := 0,
          pvt := { pvt1 with last_seqno := p.seqno, last_ns := p.nsec,
                             last_nsamp := p.body.length / 3 } } = .ok x ∧
      q = x.pvt := by
  cases hb : (if pvt.first then
          prepare_output { pvt with first := false, last_chmask := p.chmask }
        else gap_recover pvt p.chmask p.seqno p.nsec) with
  | error e =>
    unfold process at h
    simp only [hb] at h
    cases h
  | ok pvt1 =>
    rw [process_of_branch pvt pvt1 p hb] at h
    split at h
    · cases h
    · rename_i x hx
      exact ⟨pvt1, x, rfl, hx, (Except.ok.inj h).symm⟩

/-- The first sample packet of a run: with a non-zero mask and a body of `T`
whole time points it is processed without raising, the channels are opened and
each active channel holds the placeholder header and its `T` words. -/
theorem process_first (pvt : priv) (p : Packet) (hf : pvt.first = true) (hw : p.wf)
    (hne : p.chmask ≠ 0) (T : Nat) (hT : p.body.length = 3 * (popcount p.chmask * T)) :
    ∃ q, process pvt p = .ok q ∧ Inv q ∧ q.last_chmask = p.chmask ∧
      q.last_seqno = p.seqno ∧ q.errors = pvt.errors ∧ q.force = pvt.force ∧
      ∀ j, j < 32 → active p.chmask j = true →
        (q.out_channel j).content = HDR_INVALID
          ++ wbytes (chan_words p.body (popcount p.chmask) (rank p.chmask (List.range 32) j) T 0) := by
  obtain ⟨pvt1, hp1, -, -⟩ :=
    prepare_output_ok { pvt with first := false, last_chmask := p.chmask } (by exact hne)
  have hb : (if pvt.first then
          prepare_output { pvt with first := false, last_chmask := p.chmask }
        else gap_recover pvt p.chmask p.seqno p.nsec) = .ok pvt1 := by
    rw [hf]; exact hp1
  obtain ⟨hI0, hm, hfo, her, hcon⟩ := prepare_output_inv pvt pvt1 p.chmask hw.chmask_lt hp1
  obtain ⟨x, hx⟩ := extract_body_total pvt1 p hI0 hm T hT
  obtain ⟨T1, hT1, hI, e1, e2, -, -, e5, e6, hch⟩ := extract_body_spec pvt1 p hI0 hm hw x hx
  have hk := popcount_pos _ hI0.mask_ne hI0.mask_lt
  rw [hm] at hk
  have hTT : T1 = T := by
    have hd : p.body.length / 3 = popcount p.chmask * T := by
      rw [hT]; exact Nat.mul_div_cancel_left _ (by decide)
    rw [hd] at hT1
    exact (Nat.eq_of_mul_eq_mul_left hk hT1).symm
  subst hTT
  refine ⟨x.pvt, by rw [process_of_branch pvt pvt1 p hb, hx], hI, e1, e2, by rw [e5, her],
    by rw [e6, hfo], ?_⟩
  intro j hj ha
  rw [(hch j hj ha).1, hcon j hj ha]

/-- A later sample packet whose gap branch returned `pvt1` and whose body holds
`T` whole time points is processed without raising; each active channel
receives its `T` words after what the gap branch left. -/
theorem process_next (pvt pvt1 : priv) (p : Packet) (hI : Inv pvt) (hw : p.wf)
    (hg : gap_recover pvt p.chmask p.seqno p.nsec = .ok pvt1) (T : Nat)
    (hT : p.body.length = 3 * (popcount p.chmask * T)) :
    ∃ q, process pvt p = .ok q ∧ Inv q ∧ q.last_chmask = p.chmask ∧
      q.last_seqno = p.seqno ∧ q.last_nsamp = p.body.length / 3 ∧
      q.errors = pvt1.errors ∧ q.force = pvt.force ∧
      ∀ j, j < 32 → active p.chmask j = true →
        (q.out_channel j).content = (pvt1.out_channel j).content
          ++ wbytes (chan_words p.body (popcount p.chmask) (rank p.chmask (List.range 32) j) T 0) ∧
        q.last_channel j
          = (chan_words p.body (popcount p.chmask) (rank p.chmask (List.range 32) j) T 0).getLastD
              (pvt1.last_channel j) := by
  obtain ⟨hI1, hm, hm1, hfo⟩ := gap_recover_inv pvt pvt1 _ _ _ hI hg
  have hb : (if pvt.first then
          prepare_output { pvt with first := false, last_chmask := p.chmask }
        else gap_recover pvt p.chmask p.seqno p.nsec) = .ok pvt1 := by
    rw [hI.first]; exact hg
  have hmm : pvt1.last_chmask = p.chmask := by rw [hm1, hm]
  obtain ⟨x, hx⟩ := extract_body_total pvt1 p hI1.toInv0 hmm T hT
  obtain ⟨T1, hT1, hIx, e1, e2, -, e4, e5, e6, hch⟩ :=
    extract_body_spec pvt1 p hI1.toInv0 hmm hw x hx
  have hk := popcount_pos _ hI1.mask_ne hI1.mask_lt
  rw [hmm] at hk
  have hTT : T1 = T := by
    have hd : p.body.length / 3 = popcount p.chmask * T := by
      rw [hT]; exact Nat.mul_div_cancel_left _ (by decide)
    rw [hd] at hT1
    exact (Nat.eq_of_mul_eq_mul_left hk hT1).symm
  subst hTT
  exact ⟨x.pvt, by rw [process_of_branch pvt pvt1 p hb, hx], hIx, e1, e2, e4, e5,
    by rw [e6, hfo], hch⟩

theorem chan_words_eq_map (buf : List Nat) (k r : Nat) : ∀ (T cur : Nat),
    chan_words buf k r T cur
      = (List.range T).map (fun t => word_at buf (cur + 3 * (t * k + r)))
  | 0, _ => rfl
  | T + 1, cur => by
    have e0 : cur + 3 * (0 * k + r) = cur + 3 * r := by rw [Nat.zero_mul, Nat.zero_add]
    have e : (fun t => word_at buf (cur + 3 * k + 3 * (t * k + r)))
        = (fun t => word_at buf (cur + 3 * (t * k + r))) ∘ Nat.succ := by
      funext t
      have : cur + 3 * k + 3 * (t * k + r) = cur + 3 * (Nat.succ t * k + r) := by
        have h1 : Nat.succ t * k = t * k + k := Nat.succ_mul t k
        omega
      show word_at buf _ = word_at buf _
      rw [this]
    rw [chan_words, chan_words_eq_map buf k r T (cur + 3 * k), List.range_succ_eq_map,
      List.map_cons, List.map_map, e0, e]

/-! ## States after a sample packet -/

theorem Reachable_Inv_of_not_first (force : Bool) (pvt : priv) (hR : Reachable force pvt)
    (hf : pvt.first = false) : Inv pvt ∧ pvt.force = force := by
  obtain ⟨h1, h2⟩ := Reachable_Inv force pvt hR
  rcases h1 with h | h
  · rw [hf] at h; cases h
  · exact ⟨h, h2⟩

theorem div_popcount (pvt : priv) (hI : Inv pvt) (T : Nat)
    (hT : pvt.last_nsamp = popcount pvt.last_chmask * T) :
    pvt.last_nsamp / popcount pvt.last_chmask = T := by
  rw [hT]
  exact Nat.mul_div_cancel_left _ (popcount_pos _ hI.mask_ne hI.mask_lt)

/-! ## The extraction loop on a body that does not hold whole time points -/

theorem extract_chan_trunc (buf : List Nat) (m : Nat) (x : XState) (i : Nat) (e : Err)
    (ha : active m i = true) (hw : WOk (x.pvt.out_channel i))
    (hb : x.cur + 3 * x.nsamp ≤ buf.length) (h : extract_chan buf m x i = .error e) :
    e = .truncated_body ∧ x.nsamp = 0 := by
  by_cases hn : x.nsamp = 0
  · unfold extract_chan at h
    simp only [ha, Bool.not_true, Bool.false_eq_true, if_false, hn, if_true] at h
    exact ⟨(Except.error.inj h).symm, hn⟩
  · obtain ⟨y, hy⟩ := extract_chan_total buf m x i ha hw (Nat.pos_of_ne_zero hn) (by omega)
    rw [hy] at h
    cases h

theorem extract_round_err (buf : List Nat) (m : Nat) : ∀ (l : List Nat), l.Nodup →
    ∀ (x : XState) (e : Err), (∀ i ∈ l, active m i = true → WOk (x.pvt.out_channel i)) →
    x.cur + 3 * x.nsamp ≤ buf.length →
    for_chans (extract_chan buf m) l x = .error e →
    e = .truncated_body ∧ x.nsamp < cnt m l := by
  intro l
  induction l with
  | nil => intro _ x e _ _ h; rw [for_chans] at h; cases h
  | cons i rest ih =>
    intro hnd x e hw hb h
    have hi : i ∉ rest := (List.nodup_cons.mp hnd).1
    have hrest : rest.Nodup := (List.nodup_cons.mp hnd).2
    rw [for_chans] at h
    by_cases ha : active m i = true
    · have hwi := hw i (List.mem_cons_self i rest) ha
      rw [cnt_cons, if_pos ha]
      cases h1 : extract_chan buf m x i with
      | error e1 =>
        rw [h1] at h
        obtain ⟨he, hn⟩ := extract_chan_trunc buf m x i e1 ha hwi hb h1
        cases Except.error.inj h
        exact ⟨he, by omega⟩
      | ok x1 =>
        rw [h1] at h
        obtain ⟨hpos, -, o, hwo, -, he⟩ := extract_chan_ok buf m x i ha hwi x1 h1
        subst he
        have hw1 : ∀ k ∈ rest, active m k = true → WOk (upd x.pvt.out_channel i o k) := by
          intro k hk hak
          have : k ≠ i := fun e => hi (e ▸ hk)
          simpa [upd, this] using hw k (List.mem_cons_of_mem i hk) hak
        obtain ⟨he, hn⟩ := ih hrest _ e hw1 (by simp only; omega) h
        simp only at hn
        exact ⟨he, by omega⟩
    · rw [extract_chan_inactive buf m x i ha] at h
      rw [cnt_cons, if_neg ha, Nat.zero_add]
      exact ih hrest x e (fun k hk hak => hw k (List.mem_cons_of_mem i hk) hak) hb h

theorem extract_while_err (buf : List Nat) (m : Nat) (hk : 0 < cnt m (List.range 32)) :
    ∀ (fuel : Nat) (x : XState) (e : Err), x.nsamp < fuel →
    (∀ i, i < 32 → active m i = true → WOk (x.pvt.out_channel i)) →
    x.cur + 3 * x.nsamp ≤ buf.length →
    extract_while buf m fuel x = .error e →
    e = .truncated_body ∧ ¬ cnt m (List.range 32) ∣ x.nsamp := by
  intro fuel
  induction fuel with
  | zero => intro x e hf; exact absurd hf (Nat.not_lt_zero _)
  | succ fuel ih =>
    intro x e hf hw hb h
    rw [extract_while] at h
    by_cases hn : x.nsamp = 0
    · rw [if_pos hn] at h; cases h
    · rw [if_neg hn] at h
      have hwl : ∀ i ∈ List.range 32, active m i = true → WOk (x.pvt.out_channel i) :=
        fun i hi => hw i (List.mem_range.mp hi)
      cases h1 : for_chans (extract_chan buf m) (List.range 32) x with
      | error e1 =>
        rw [h1] at h
        cases Except.error.inj h
        obtain ⟨he, hlt⟩ := extract_round_err buf m _ (List.nodup_range 32) x _ hwl hb h1
        refine ⟨he, fun hd => ?_⟩
        have := Nat.le_of_dvd (Nat.pos_of_ne_zero hn) hd
        omega
      | ok x1 =>
        rw [h1] at h
        obtain ⟨hc, hn1, hcur, -, hch⟩ :=
          extract_round_ok buf m _ (List.nodup_range 32) x x1 hwl h1
        have hw1 : ∀ i, i < 32 → active m i = true → WOk (x1.pvt.out_channel i) :=
          fun i hi hai => ((hch i).1 ⟨List.mem_range.mpr hi, hai⟩).1
        obtain ⟨he, hnd⟩ := ih x1 e (by omega) hw1 (by omega) h
        refine ⟨he, fun hd => hnd ?_⟩
        rw [hn1]
        exact Nat.dvd_sub' hd (Nat.dvd_refl _)
/-- The state the first-packet or gap branch hands to the extraction loop has
its active channels in the appending state, under the mask of the packet. -/
theorem branch_Inv0 (pvt pvt1 : priv) (p : Packet) (hI : pvt.first = true ∨ Inv pvt)
    (hw : p.wf)
    (hb : (if pvt.first then
            prepare_output { pvt with first := false, last_chmask := p.chmask }
          else gap_recover pvt p.chmask p.seqno p.nsec) = .ok pvt1) :
    Inv0 pvt1 ∧ pvt1.last_chmask = p.chmask ∧ pvt1.force = pvt.force := by
  by_cases hf : pvt.first = true
  · rw [if_pos hf] at hb
    obtain ⟨h1, h2, h3, -, -⟩ := prepare_output_inv pvt pvt1 p.chmask hw.chmask_lt hb
    exact ⟨h1, h2, h3⟩
  · rw [if_neg hf] at hb
    rcases hI with h | h
    · exact absurd h hf
    · obtain ⟨h1, h2, h3, h4⟩ := gap_recover_inv pvt pvt1 _ _ _ h hb
      exact ⟨h1.toInv0, by rw [h3, h2], h4⟩

/-- The extraction loop over a packet body, started with the active channels in
the appending state: it returns normally exactly when the sample count is a
multiple of the channel count, and its only error is the truncated-body one. -/
theorem extract_body_cases (pvt1 : priv) (p : Packet) (hI0 : Inv0 pvt1)
    (hm : pvt1.last_chmask = p.chmask) :
    (popcount p.chmask ∣ p.body.length / 3 →
      ∃ x, extract_while p.body p.chmask (p.body.length / 3 + 1)
          { nsamp := p.body.length / 3, cur := 0,
            pvt := { pvt1 with last_seqno := p.seqno, last_ns := p.nsec,
                               last_nsamp := p.body.length / 3 } } = .ok x) ∧
    (¬ popcount p.chmask ∣ p.body.length / 3 →
      extract_while p.body p.chmask (p.body.length / 3 + 1)
          { nsamp := p.body.length / 3, cur := 0,
            pvt := { pvt1 with last_seqno := p.seqno, last_ns := p.nsec,
                               last_nsamp := p.body.length / 3 } } = .error .truncated_body) := by
  have hk := popcount_pos _ hI0.mask_ne hI0.mask_lt
  rw [hm] at hk
  have hwk : ∀ i, i < 32 → active p.chmask i = true → WOk (pvt1.out_channel i) := by
    intro i hi ha
    rw [← hm] at ha
    exact hI0.wok i hi ha
  have h3 : 3 * (p.body.length / 3) ≤ p.body.length := Nat.mul_div_le _ _
  constructor
  · rintro ⟨T, hT⟩
    have hTle : T ≤ popcount p.chmask * T := Nat.le_mul_of_pos_left T hk
    apply extract_while_total p.body p.chmask T
    · omega
    · exact hwk
    · show p.body.length / 3 = cnt p.chmask (List.range 32) * T
      rw [← popcount_eq_cnt]; exact hT
    · show 0 + 3 * (cnt p.chmask (List.range 32) * T) ≤ p.body.length
      rw [← popcount_eq_cnt, ← hT]; omega
  · intro hnd
    cases hx : extract_while p.body p.chmask (p.body.length / 3 + 1)
          { nsamp := p.body.length / 3, cur := 0,
            pvt := { pvt1 with last_seqno := p.seqno, last_ns := p.nsec,
                               last_nsamp := p.body.length / 3 } } with
    | error e =>
      obtain ⟨he, -⟩ := extract_while_err p.body p.chmask (by rw [← popcount_eq_cnt]; exact hk)
        _ _ e (Nat.lt_succ_self _) hwk (by show 0 + 3 * (p.body.length / 3) ≤ _; omega) hx
      rw [he]
    | ok x =>
      obtain ⟨T, hT, -⟩ := extract_while_ok p.body p.chmask _ _ x hwk hx
      exact absurd ⟨T, by rw [popcount_eq_cnt]; exact hT⟩ hnd
/-! ## C12 -/

/-- C12 (incomplete final time point).  A well-formed NA or NB packet at the
head of the stream, in a state reached by a run, whose first-packet or gap
branch returns normally, reaches the extraction loop with a mask of at least one
set bit; with `N = bodyLen / 3` (rounded down) the pass throws the truncated-body
error if and only if `N` is not a multiple of the channel count, and when `N` is
a multiple it returns normally and every active channel has received its
`N / n` words of the body. -/
theorem C12_truncated_iff (force : Bool) (pvt pvt1 : priv) (istrm : rawfile) (p : Packet)
    (rest : List Nat) (hR : Reachable force pvt) (hr : ROk istrm) (hc : istrm.cap = BUFSIZE)
    (hu : istrm.unread = p.encode ++ rest) (hw : p.wf) (hlen : p.msglen ≤ BUFSIZE)
    (hb : (if pvt.first then
            prepare_output { pvt with first := false, last_chmask := p.chmask }
          else gap_recover pvt p.chmask p.seqno p.nsec) = .ok pvt1) :
    1 ≤ popcount p.chmask ∧
    (convert1_body pvt istrm = .error .truncated_body
      ↔ ¬ popcount p.chmask ∣ p.body.length / 3) ∧
    (popcount p.chmask ∣ p.body.length / 3 →
      ∃ q is3, convert1_body pvt istrm = .ok (some (q, is3)) ∧
        ∀ j, j < 32 → active p.chmask j = true →
          (q.out_channel j).content = (pvt1.out_channel j).content
            ++ wbytes (chan_words p.body (popcount p.chmask) (rank p.chmask (List.range 32) j)
                (p.body.length / 3 / popcount p.chmask) 0) ∧
          nsamples (q.out_channel j)
            = nsamples (pvt1.out_channel j) + p.body.length / 3 / popcount p.chmask) := by
  obtain ⟨hI0, hm, -⟩ := branch_Inv0 pvt pvt1 p (Reachable_Inv force pvt hR).1 hw hb
  have hk := popcount_pos _ hI0.mask_ne hI0.mask_lt
  rw [hm] at hk
  obtain ⟨is3, -, -, -, hcb⟩ := convert1_body_sample pvt istrm p rest hr hu hw
    (by rw [hc]; exact hlen)
  obtain ⟨hyes, hno⟩ := extract_body_cases pvt1 p hI0 hm
  have hpb := process_of_branch pvt pvt1 p hb
  refine ⟨hk, ⟨fun h hd => ?_, fun hnd => ?_⟩, fun hd => ?_⟩
  · obtain ⟨x, hx⟩ := hyes hd
    rw [hcb, hpb, hx] at h
    cases h
  · rw [hcb, hpb, hno hnd]
    rfl
  · obtain ⟨x, hx⟩ := hyes hd
    obtain ⟨T, hT, -, -, -, -, -, -, -, hch⟩ := extract_body_spec pvt1 p hI0 hm hw x hx
    have hTT : p.body.length / 3 / popcount p.chmask = T := by
      rw [hT]; exact Nat.mul_div_cancel_left _ hk
    refine ⟨x.pvt, is3, by rw [hcb, hpb, hx]; rfl, ?_⟩
    intro j hj ha
    have hcj := (hch j hj ha).1
    rw [hTT]
    refine ⟨hcj, ?_⟩
    obtain ⟨n, hfmt⟩ := hI0.fmt
    obtain ⟨ws, hws, -⟩ := hfmt j hj (by rw [hm]; exact ha)
    unfold nsamples
    rw [hcj, hws, List.length_append, List.length_append, length_wbytes, length_wbytes,
      length_chan_words, length_HDR_INVALID]
    omega

/-- Witness for C12: packet 10 (mask `0b011`, 8 samples) as first packet of a run. -/
theorem C12_truncated_iff_witness :
    convert1_body (priv.init false)
        (rawfile.mk_open { data := (ex_packet 10).encode ++ [] } false)
      = .error .truncated_body
      ↔ ¬ popcount (ex_packet 10).chmask ∣ (ex_packet 10).body.length / 3 :=
  (C12_truncated_iff false (priv.init false)
    (state_of (prepare_output { priv.init false with first := false, last_chmask := 3 }))
    (rawfile.mk_open { data := (ex_packet 10).encode ++ [] } false) (ex_packet 10) []
    Reachable.init (ROk_mk_open _) rfl rfl
    ⟨by decide, by decide, by decide, by decide, by decide, fun b hb => by cases hb⟩
    (by decide)
    (eq_ok_of_succeeded (prepare_output
      { priv.init false with first := false, last_chmask := 3 }) (by decide!))).2.1

/-! ## C11 -/

theorem process_Inv (pvt q : priv) (p : Packet) (hI : pvt.first = true ∨ Inv pvt)
    (hw : p.wf) (h : process pvt p = .ok q) : Inv q ∧ q.force = pvt.force := by
  obtain ⟨pvt1, x, hb, hx, hq⟩ := process_ok_steps pvt q p h
  obtain ⟨hI0, hm, hfo⟩ := branch_Inv0 pvt pvt1 p hI hw hb
  obtain ⟨-, -, hIx, -, -, -, -, -, e6, -⟩ := extract_body_spec pvt1 p hI0 hm hw x hx
  subst hq
  exact ⟨hIx, by rw [e6, hfo]⟩

theorem process_all_Inv (cap : Nat) : ∀ (msgs : List Msg) (pvt q : priv),
    (pvt.first = true ∨ Inv pvt) → (∀ m ∈ msgs, m.ok cap) → process_all msgs pvt = .ok q →
    (q.first = true ∨ Inv q) ∧ q.force = pvt.force
  | [], pvt, q, hI, _, h => by
    rw [process_all] at h
    cases Except.ok.inj h
    exact ⟨hI, rfl⟩
  | .sample p :: ms, pvt, q, hI, hok, h => by
    rw [process_all] at h
    have hp : Msg.ok cap (.sample p) := hok _ (List.mem_cons_self _ _)
    cases hpr : process pvt p with
    | error e => rw [hpr] at h; cases h
    | ok q1 =>
      rw [hpr] at h
      obtain ⟨h1, h2⟩ := process_Inv pvt q1 p hI hp.1 hpr
      obtain ⟨h3, h4⟩ := process_all_Inv cap ms q1 q (Or.inr h1)
        (fun m hm => hok m (List.mem_cons_of_mem _ hm)) h
      exact ⟨h3, by rw [h4, h2]⟩
  | .other _ _ _ _ _ :: ms, pvt, q, hI, hok, h => by
    rw [process_all] at h
    exact process_all_Inv cap ms pvt q hI (fun m hm => hok m (List.mem_cons_of_mem _ hm)) h

/-- A sample packet whose sample count is not a multiple of its channel count
is never processed normally. -/
theorem process_trunc (pvt : priv) (p : Packet) (hI : pvt.first = true ∨ Inv pvt)
    (hw : p.wf) (hnd : ¬ popcount p.chmask ∣ p.body.length / 3) :
    (∃ e, process pvt p = .error e) ∧
    ∀ pvt1, (if pvt.first then
            prepare_output { pvt with first := false, last_chmask := p.chmask }
          else gap_recover pvt p.chmask p.seqno p.nsec) = .ok pvt1 →
      process pvt p = .error .truncated_body := by
  have h2 : ∀ pvt1, (if pvt.first then
            prepare_output { pvt with first := false, last_chmask := p.chmask }
          else gap_recover pvt p.chmask p.seqno p.nsec) = .ok pvt1 →
      process pvt p = .error .truncated_body := by
    intro pvt1 hb
    obtain ⟨hI0, hm, -⟩ := branch_Inv0 pvt pvt1 p hI hw hb
    rw [process_of_branch pvt pvt1 p hb, (extract_body_cases pvt1 p hI0 hm).2 hnd]
  refine ⟨?_, h2⟩
  cases hb : (if pvt.first then
            prepare_output { pvt with first := false, last_chmask := p.chmask }
          else gap_recover pvt p.chmask p.seqno p.nsec) with
  | error e =>
    refine ⟨e, ?_⟩
    unfold process
    simp only [hb]
  | ok pvt1 => exact ⟨_, h2 pvt1 hb⟩

theorem process_all_trunc (cap : Nat) (p : Packet) (hw : p.wf)
    (hnd : ¬ popcount p.chmask ∣ p.body.length / 3) (post : List Msg) :
    ∀ (pre : List Msg) (pvt : priv), (pvt.first = true ∨ Inv pvt) → (∀ m ∈ pre, m.ok cap) →
    ∃ e, process_all (pre ++ .sample p :: post) pvt = .error e
  | [], pvt, hI, _ => by
    obtain ⟨⟨e, he⟩, -⟩ := process_trunc pvt p hI hw hnd
    exact ⟨e, by rw [List.nil_append, process_all, he]⟩
  | .sample p1 :: pre, pvt, hI, hok => by
    rw [List.cons_append, process_all]
    have hp : Msg.ok cap (.sample p1) := hok _ (List.mem_cons_self _ _)
    cases hpr : process pvt p1 with
    | error e => exact ⟨e, rfl⟩
    | ok q1 =>
      exact process_all_trunc cap p hw hnd post pre q1
        (Or.inr (process_Inv pvt q1 p1 hI hp.1 hpr).1)
        (fun m hm => hok m (List.mem_cons_of_mem _ hm))
  | .other _ _ _ _ _ :: pre, pvt, hI, hok => by
    rw [List.cons_append, process_all]
    exact process_all_trunc cap p hw hnd post pre pvt hI
      (fun m hm => hok m (List.mem_cons_of_mem _ hm))

theorem convert_all_append : ∀ (a b : List KFile) (pvt : priv),
    convert_all (a ++ b) pvt =
      match convert_all a pvt with
      | .error e => .error e
      | .ok q => convert_all b q
  | [], b, pvt => by rw [List.nil_append, convert_all]
  | f :: a, b, pvt => by
    rw [List.cons_append, convert_all, convert_all]
    cases convert1 pvt f with
    | error e => rfl
    | ok q => exact convert_all_append a b q

/-- A run over a list of files fails once one file fails in whatever state the
run has reached. -/
theorem convert2j_fails (force : Bool) (f : KFile) (before after : List KFile)
    (h : ∀ pvt, Reachable force pvt → ∃ e, convert1 pvt f = .error e) :
    ∃ e, convert2j (before ++ f :: after) force = .error e := by
  unfold convert2j
  rw [convert_all_append]
  cases hb : convert_all before (priv.init force) with
  | error e => exact ⟨e, rfl⟩
  | ok q =>
    obtain ⟨e, he⟩ := h q (Reachable_convert_all force before _ q Reachable.init hb)
    refine ⟨e, ?_⟩
    simp only [convert_all, he]
/-- C11, as stated, fails: a body of 25 bytes for 2 channels is neither a
multiple of 3 nor of 6 bytes long, and the run over a file with that packet
returns normally (the 4 whole time points are written, the last byte is
skipped). -/
theorem C11_counterexample :
    ¬ 3 * popcount ex_leftover_packet.chmask ∣ ex_leftover_packet.body.length ∧
    ex_leftover_packet.body.length % 3 ≠ 0 ∧
    succeeded (convert2j [ex_leftover_file] false) = true :=
  ⟨by decide, by decide, by decide!⟩

/-- C11 (amended).  A well-formed NA or NB packet whose sample count
`bodyLen / 3` (rounded down) is not a multiple of its channel count makes the
pass of the loop throw in every state a run reaches; when the message fits the
buffer and the first-packet or gap branch returns normally the error is the
truncated-body one; and a run over files of well-formed messages one of which is
such a packet throws, so `finalize_output` is not reached. -/
theorem C11_body_validation (force : Bool) (pvt : priv) (istrm : rawfile) (p : Packet)
    (rest : List Nat) (hR : Reachable force pvt) (hr : ROk istrm) (hc : istrm.cap = BUFSIZE)
    (hu : istrm.unread = p.encode ++ rest) (hw : p.wf)
    (hnd : ¬ popcount p.chmask ∣ p.body.length / 3) :
    (∃ e, convert1_body pvt istrm = .error e) ∧
    (p.msglen ≤ BUFSIZE → ∀ pvt1,
      (if pvt.first then
          prepare_output { pvt with first := false, last_chmask := p.chmask }
        else gap_recover pvt p.chmask p.seqno p.nsec) = .ok pvt1 →
      convert1_body pvt istrm = .error .truncated_body) ∧
    (p.msglen ≤ BUFSIZE →
      ∀ (pre post : List Msg) (f : KFile) (before after : List KFile),
      (∀ m ∈ pre ++ post, m.ok BUFSIZE) → f.data = encode_all (pre ++ .sample p :: post) →
      ∃ e, convert2j (before ++ f :: after) force = .error e) := by
  have hI := (Reachable_Inv force pvt hR).1
  obtain ⟨⟨e, he⟩, htr⟩ := process_trunc pvt p hI hw hnd
  refine ⟨?_, ?_, ?_⟩
  · by_cases hm : p.msglen ≤ BUFSIZE
    · obtain ⟨is3, -, -, -, hb⟩ := convert1_body_sample pvt istrm p rest hr hu hw
        (by rw [hc]; exact hm)
      exact ⟨e, by rw [hb, he]; rfl⟩
    · rw [p.encode_eq] at hu
      exact convert1_body_too_long pvt istrm p.msgid p.msglen p.rxsec p.rxns _ hr hu
        hw.msglen_lt (by rw [hc]; decide) (by rw [hc]; omega)
  · intro hm pvt1 hb
    obtain ⟨is3, -, -, -, hcb⟩ := convert1_body_sample pvt istrm p rest hr hu hw
      (by rw [hc]; exact hm)
    rw [hcb, htr pvt1 hb]
    rfl
  · intro hm pre post f before after hall hf
    apply convert2j_fails
    intro pvt2 hR2
    rw [convert1_stream pvt2 f _ hf]
    · exact process_all_trunc BUFSIZE p hw hnd post pre pvt2 (Reachable_Inv force pvt2 hR2).1
        (fun m hmm => hall m (List.mem_append_left _ hmm))
    · intro m hmm
      rcases List.mem_append.mp hmm with h | h
      · exact hall m (List.mem_append_left _ h)
      · rcases List.mem_cons.mp h with h | h
        · rw [h]; exact ⟨hw, hm⟩
        · exact hall m (List.mem_append_right _ h)

/-- Witness for C11: a first packet with 7 samples for 2 channels. -/
theorem C11_body_validation_witness :
    convert1_body (priv.init false)
        (rawfile.mk_open { data := ex_odd_packet.encode ++ [] } false)
      = .error .truncated_body :=
  (C11_body_validation false (priv.init false)
    (rawfile.mk_open { data := ex_odd_packet.encode ++ [] } false) ex_odd_packet []
    Reachable.init (ROk_mk_open _) rfl rfl
    ⟨by decide, by decide, by decide, by decide, by decide, fun b hb => by cases hb⟩
    (by decide)).2.1 (by decide)
    (state_of (prepare_output { priv.init false with first := false, last_chmask := 3 }))
    (eq_ok_of_succeeded (prepare_output
      { priv.init false with first := false, last_chmask := 3 }) (by decide!))

/-! ## C13 -/

/-- A pass of the loop is its header part followed by the rest. -/
theorem convert1_body_eq (pvt : priv) (istrm : rawfile) :
    convert1_body pvt istrm = after_header pvt (header_phase istrm) := by
  unfold convert1_body header_phase
  cases h1 : istrm.read SIZE_HEAD with
  | error e => rfl
  | ok v =>
    obtain ⟨o, is1⟩ := v
    cases o with
    | none => rfl
    | some hb =>
      simp only
      by_cases hc : (PSCHead.decode hb).ps ≠ 0x5053 ∨ (PSCHead.decode hb).msglen < SIZE_NA
      · rw [if_pos hc, if_pos hc]; rfl
      · rw [if_neg hc, if_neg hc]
        cases h2 : is1.ensure (PSCHead.decode hb).msglen with
        | error e => rfl
        | ok w =>
          obtain ⟨b, is2⟩ := w
          cases b with
          | false => rfl
          | true =>
            simp only
            by_cases hA : (PSCHead.decode hb).msgid = 0x4e41
            · rw [if_pos hA, if_pos hA]; rfl
            · rw [if_neg hA, if_neg hA]
              by_cases hB : (PSCHead.decode hb).msgid = 0x4e42
              · rw [if_pos hB, if_pos hB]
                by_cases hl : (PSCHead.decode hb).msglen < SIZE_NA + SIZE_NB
                · rw [if_pos hl, if_pos hl]; rfl
                · rw [if_neg hl, if_neg hl]; rfl
              · rw [if_neg hB, if_neg hB]
                cases h3 : is2.drain (PSCHead.decode hb).msglen with
                | error e => rfl
                | ok is3 => rfl

/-- C13 (header validation).  For a 16 byte header `hb` read by a pass of the
loop: when its big-endian marker is not 0x5053 or its big-endian message length
is below 24 the pass throws the corrupt-header error whatever the type is; when
the type is 0x4E42 and the length is below 40 the pass throws as well.  The
error is raised by the header part of the pass, which has no access to the
conversion state or to an output channel, so the same error results in every
state and nothing is written. -/
theorem C13_header_validation (istrm is1 : rawfile) (hb : List Nat)
    (hh : istrm.read SIZE_HEAD = .ok (some hb, is1)) :
    ((PSCHead.decode hb).ps ≠ 0x5053 ∨ (PSCHead.decode hb).msglen < 24 →
      header_phase istrm = .error .corrupt_header ∧
      ∀ pvt, convert1_body pvt istrm = .error .corrupt_header) ∧
    ((PSCHead.decode hb).msgid = 0x4e42 ∧ (PSCHead.decode hb).msglen < 40 →
      ∃ e, header_phase istrm = .error e ∧ ∀ pvt, convert1_body pvt istrm = .error e) ∧
    (∀ pvt, convert1_body pvt istrm = after_header pvt (header_phase istrm)) := by
  have hbad : (PSCHead.decode hb).ps ≠ 0x5053 ∨ (PSCHead.decode hb).msglen < 24 →
      header_phase istrm = .error .corrupt_header := by
    intro hc
    have hc1 : (PSCHead.decode hb).ps ≠ 0x5053 ∨ (PSCHead.decode hb).msglen < SIZE_NA := hc
    unfold header_phase
    simp only [hh]
    rw [if_pos hc1]
  refine ⟨fun hc => ⟨hbad hc, fun pvt => ?_⟩, ?_, fun pvt => convert1_body_eq pvt istrm⟩
  · rw [convert1_body_eq, hbad hc]; rfl
  · rintro ⟨hB, hl⟩
    have key : ∃ e, header_phase istrm = .error e := by
      by_cases hc : (PSCHead.decode hb).ps ≠ 0x5053 ∨ (PSCHead.decode hb).msglen < 24
      · exact ⟨_, hbad hc⟩
      · have hc1 : ¬ ((PSCHead.decode hb).ps ≠ 0x5053 ∨ (PSCHead.decode hb).msglen < SIZE_NA) :=
          hc
        have hl1 : (PSCHead.decode hb).msglen < SIZE_NA + SIZE_NB := hl
        unfold header_phase
        simp only [hh]
        rw [if_neg hc1]
        cases h2 : is1.ensure (PSCHead.decode hb).msglen with
        | error e => exact ⟨e, rfl⟩
        | ok w =>
          obtain ⟨b, is2⟩ := w
          cases b with
          | false => exact ⟨_, rfl⟩
          | true =>
            simp only
            have hA : ¬ (PSCHead.decode hb).msgid = 0x4e41 := by rw [hB]; decide
            rw [if_neg hA, if_pos hB, if_pos hl1]
            exact ⟨_, rfl⟩
    obtain ⟨e, he⟩ := key
    exact ⟨e, he, fun pvt => by rw [convert1_body_eq, he]; rfl⟩

/-- Witness for C13: a header with the marker 0x5054 at the head of a file. -/
theorem C13_header_validation_witness :
    header_phase (rawfile.mk_open ex_badmark_file false) = .error .corrupt_header :=
  (read_total (rawfile.mk_open ex_badmark_file false) SIZE_HEAD (ROk_mk_open _)
    (by decide) (by decide)).elim
    (fun is1 h =>
      ((C13_header_validation (rawfile.mk_open ex_badmark_file false) is1 _ h.1).1
        (Or.inl (by decide))).1)

/-! ## C15 -/

/-- One pass of the refill loop that received data. -/
theorem refill_spec (r : rawfile) (hr : ROk r) (hp : r.pos = 0) :
    ∃ r2 : rawfile,
      r2 = { r with
        buf := r.buf.take r.limit ++ (sys_read r.file (r.cap - r.limit)).1,
        limit := r.limit + (sys_read r.file (r.cap - r.limit)).1.length,
        file := (sys_read r.file (r.cap - r.limit)).2 } ∧
      ROk r2 ∧ r2.pos = 0 ∧ r2.unread = r.unread ∧ r2.cap = r.cap ∧
      r2.limit = r.limit + (sys_read r.file (r.cap - r.limit)).1.length := by
  obtain ⟨hd, ho, hsp, hle, -⟩ := sys_read_spec r.file (r.cap - r.limit)
  have hlim := hr.limit_cap
  obtain ⟨r2, hr2def⟩ : ∃ r2 : rawfile, r2 = { r with
      buf := r.buf.take r.limit ++ (sys_read r.file (r.cap - r.limit)).1,
      limit := r.limit + (sys_read r.file (r.cap - r.limit)).1.length,
      file := (sys_read r.file (r.cap - r.limit)).2 } := ⟨_, rfl⟩
  have e1 : r2.pos = 0 := by rw [hr2def]; exact hp
  have e2 : r2.limit = r.limit + (sys_read r.file (r.cap - r.limit)).1.length := by
    rw [hr2def]
  have e3 : r2.buf = r.buf.take r.limit ++ (sys_read r.file (r.cap - r.limit)).1 := by
    rw [hr2def]
  have e4 : r2.file = (sys_read r.file (r.cap - r.limit)).2 := by rw [hr2def]
  have e5 : r2.cap = r.cap := by rw [hr2def]
  have e6 : r2.writing = r.writing := by rw [hr2def]
  have hblen : r2.buf.length = r2.limit := by
    rw [e3, e2, List.length_append, List.length_take, Nat.min_eq_left hr.limit_le]
  refine ⟨r2, hr2def, ⟨by rw [e6]; exact hr.writing, by rw [e1]; exact Nat.zero_le _,
    by rw [hblen], by rw [e2, e5]; omega⟩, e1, ?_, e5, e2⟩
  rw [unread_pos_zero r2 e1, unread_pos_zero r hp,
    List.take_of_length_le (by rw [hblen]), e3, e4, ho, hd, List.append_assoc, ← hsp]

theorem unread_length_pos_zero (r : rawfile) (hr : ROk r) (hp : r.pos = 0) :
    r.unread.length = r.limit + (r.file.data.drop r.file.off).length := by
  rw [unread_pos_zero r hp, List.length_append, List.length_take, Nat.min_eq_left hr.limit_le]

/-- A `false` return of the refill loop: nothing was buffered and the file was
at its end. -/
theorem ensure_loop_false : ∀ (fuel : Nat) (r r1 : rawfile) (need : Nat),
    ROk r → r.pos = 0 → 0 < r.cap → r.ensure_loop fuel need = .ok (false, r1) →
    r.unread = [] ∧ r1.unread = [] ∧ r.limit = 0 ∧ 0 < need
  | 0, r, r1, need, _, _, _, h => by rw [rawfile.ensure_loop] at h; cases h
  | fuel + 1, r, r1, need, hr, hp, hcap, h => by
    rw [rawfile.ensure_loop] at h
    by_cases hc : r.limit - r.pos < need
    · rw [if_pos hc] at h
      obtain ⟨hd, ho, hsp, hle, hzero⟩ := sys_read_spec r.file (r.cap - r.limit)
      by_cases hz : (sys_read r.file (r.cap - r.limit)).1.length = 0
      · simp only [hz, if_true] at h
        by_cases hl : r.limit = 0
        · rw [if_pos hl] at h
          have hr1 := (Prod.mk.inj (Except.ok.inj h)).2
          have hrest : r.file.data.drop r.file.off = [] := by
            rcases hzero hz with h0 | h0
            · omega
            · exact h0
          have hu : r.unread = [] := by
            rw [unread_pos_zero r hp, hl, List.take_zero, hrest]; rfl
          refine ⟨hu, ?_, hl, by omega⟩
          rw [← hr1]
          unfold rawfile.unread
          show List.take (r.limit - r.pos) (List.drop r.pos r.buf)
            ++ List.drop (sys_read r.file (r.cap - r.limit)).2.off
                (sys_read r.file (r.cap - r.limit)).2.data = []
          rw [hd, ho, hz, Nat.add_zero, hrest, hl, hp, Nat.sub_zero, List.take_zero]
          rfl
        · rw [if_neg hl] at h; cases h
      · simp only [hz, if_false] at h
        obtain ⟨r2, hdef, hr2, e1, hu2, e5, e2⟩ := refill_spec r hr hp
        rw [← hdef] at h
        obtain ⟨-, -, h3, -⟩ := ensure_loop_false fuel r2 r1 need hr2 e1
          (by rw [e5]; exact hcap) h
        omega
    · rw [if_neg hc] at h
      cases (Prod.mk.inj (Except.ok.inj h)).1

/-- The refill loop throws when the stream is not empty and ends before `need`
bytes. -/
theorem ensure_loop_short : ∀ (fuel : Nat) (r : rawfile) (need : Nat),
    ROk r → r.pos = 0 → 0 < r.cap → r.unread.length < need → r.unread ≠ [] →
    need - r.limit < fuel → r.ensure_loop fuel need = .error .unexpected_eof
  | 0, _, _, _, _, _, _, _, hf => absurd hf (Nat.not_lt_zero _)
  | fuel + 1, r, need, hr, hp, hcap, hlen, hne, hf => by
    have hul := unread_length_pos_zero r hr hp
    obtain ⟨hd, ho, hsp, hle, hzero⟩ := sys_read_spec r.file (r.cap - r.limit)
    rw [rawfile.ensure_loop]
    have hc : r.limit - r.pos < need := by omega
    rw [if_pos hc]
    by_cases hz : (sys_read r.file (r.cap - r.limit)).1.length = 0
    · simp only [hz, if_true]
      have hl : ¬ r.limit = 0 := by
        intro hl
        apply hne
        have hrest : r.file.data.drop r.file.off = [] := by
          rcases hzero hz with h0 | h0
          · omega
          · exact h0
        rw [unread_pos_zero r hp, hl, List.take_zero, hrest]; rfl
      rw [if_neg hl]
    · simp only [hz, if_false]
      obtain ⟨r2, hdef, hr2, e1, hu2, e5, e2⟩ := refill_spec r hr hp
      rw [← hdef]
      exact ensure_loop_short fuel r2 need hr2 e1 (by rw [e5]; exact hcap)
        (by rw [hu2]; exact hlen) (by rw [hu2]; exact hne) (by omega)

theorem ensure_false (r r1 : rawfile) (need : Nat) (hr : ROk r) (hcap : 0 < r.cap)
    (h : r.ensure need = .ok (false, r1)) :
    r.unread = [] ∧ r1.unread = [] ∧ 0 < need := by
  rw [ensure_unfold r hr] at h
  by_cases hc : r.limit - r.pos ≥ need
  · rw [if_pos hc] at h
    cases (Prod.mk.inj (Except.ok.inj h)).1
  · rw [if_neg hc] at h
    obtain ⟨r0, hdef, hr0, hp0, hu0, hc0, -⟩ := compact_spec r hr
    rw [← hdef] at h
    obtain ⟨h1, h2, -, h4⟩ := ensure_loop_false _ r0 r1 need hr0 hp0 (by rw [hc0]; exact hcap) h
    exact ⟨by rw [← hu0]; exact h1, h2, h4⟩

theorem ensure_short (r : rawfile) (need : Nat) (hr : ROk r) (hcap : 0 < r.cap)
    (hlen : r.unread.length < need) (hne : r.unread ≠ []) :
    r.ensure need = .error .unexpected_eof := by
  rw [ensure_unfold r hr]
  have hb := (advance_spec r (r.limit - r.pos) hr (Nat.le_refl _)).2.2.2
  have hc : ¬ r.limit - r.pos ≥ need := by omega
  rw [if_neg hc]
  obtain ⟨r0, hdef, hr0, hp0, hu0, hc0, -⟩ := compact_spec r hr
  rw [← hdef]
  exact ensure_loop_short _ r0 need hr0 hp0 (by rw [hc0]; exact hcap)
    (by rw [hu0]; exact hlen) (by rw [hu0]; exact hne) (by omega)

theorem unread_eq_nil_iff (r : rawfile) (hr : ROk r) :
    r.unread = [] ↔ r.pos = r.limit ∧ r.file.data.length ≤ r.file.off := by
  have hbl := buffered_length r hr
  have h1 := hr.pos_le
  unfold rawfile.unread
  rw [List.append_eq_nil, List.drop_eq_nil_iff]
  constructor
  · rintro ⟨ha, hb⟩
    rw [ha, List.length_nil] at hbl
    exact ⟨by omega, hb⟩
  · rintro ⟨ha, hb⟩
    refine ⟨List.length_eq_zero.mp ?_, hb⟩
    rw [hbl]; omega

/-- C15 (the contract of `ensure`).  For a file open for reading with
`pos <= limit <= buf.size()` and a buffer of non-zero size, whatever the chunks
in which the reads deliver the data: (i) a `true` return leaves at least `n`
bytes buffered; (ii) `false` is returned exactly when `n > 0`, nothing is
buffered and the file is at its end; (iii) in every other case in which fewer
than `n` unread bytes remain the call throws "Unexpected EoF"; (iv) a return,
`true` or `false`, leaves the unread byte stream as it was.  Moreover the call
returns `true` whenever `n` unread bytes remain and `n` does not exceed the
buffer size. -/
theorem C15_ensure_contract (r : rawfile) (n : Nat) (hr : ROk r) (_ho : r.is_open = true)
    (hcap : 0 < r.cap) :
    (∀ r1, r.ensure n = .ok (true, r1) → n ≤ r1.limit - r1.pos ∧ ROk r1) ∧
    ((∃ r1, r.ensure n = .ok (false, r1))
      ↔ 0 < n ∧ r.pos = r.limit ∧ r.file.data.length ≤ r.file.off) ∧
    (r.unread.length < n → ¬ (r.pos = r.limit ∧ r.file.data.length ≤ r.file.off) →
      r.ensure n = .error .unexpected_eof) ∧
    (∀ b r1, r.ensure n = .ok (b, r1) → r1.unread = r.unread) ∧
    (n ≤ r.unread.length → n ≤ r.cap → ∃ r1, r.ensure n = .ok (true, r1)) := by
  refine ⟨?_, ⟨?_, ?_⟩, ?_, ?_, ?_⟩
  · intro r1 h
    obtain ⟨h1, -, h3, -⟩ := ensure_true r r1 n hr h
    exact ⟨h3, h1⟩
  · rintro ⟨r1, h⟩
    obtain ⟨h1, -, h3⟩ := ensure_false r r1 n hr hcap h
    exact ⟨h3, (unread_eq_nil_iff r hr).mp h1⟩
  · rintro ⟨hn, he⟩
    exact ensure_eof r n hr ((unread_eq_nil_iff r hr).mpr he) hn
  · intro hlen hne
    exact ensure_short r n hr hcap hlen (fun h => hne ((unread_eq_nil_iff r hr).mp h))
  · intro b r1 h
    cases b with
    | true => exact (ensure_true r r1 n hr h).2.1
    | false =>
      obtain ⟨h1, h2, -⟩ := ensure_false r r1 n hr hcap h
      rw [h1, h2]
  · intro hlen hc
    exact ensure_total r n hr hc hlen

/-- Witness for C15: a request for 5 bytes on a file of 3 bytes read in chunks
of 2 bytes throws. -/
theorem C15_ensure_contract_witness :
    (rawfile.mk_open { data := [1, 2, 3], chunks := [1, 1, 1] } false).ensure 5
      = .error .unexpected_eof :=
  (C15_ensure_contract (rawfile.mk_open { data := [1, 2, 3], chunks := [1, 1, 1] } false) 5
    (ROk_mk_open _) rfl (by decide)).2.2.1 (by decide) (by decide)

/-! ## Framing of a pass of the loop -/

theorem drain_some (r r1 : rawfile) (n : Nat) (hr : ROk r) (h : r.drain n = .ok r1) :
    ROk r1 ∧ r1.unread = r.unread.drop n ∧ r1.cap = r.cap ∧ n ≤ r.unread.length := by
  unfold rawfile.drain at h
  cases he : r.ensure n with
  | error e => rw [he] at h; cases h
  | ok v =>
    obtain ⟨b, r2⟩ := v
    rw [he] at h
    cases b with
    | false => cases h
    | true =>
      obtain ⟨h1, h2, h3, h4⟩ := ensure_true r r2 n hr he
      obtain ⟨a1, a2, -, a4⟩ := advance_spec r2 n h1 h3
      cases Except.ok.inj h
      exact ⟨a1, by rw [a2, h2], h4, by rw [← h2]; exact a4⟩

theorem read_as_some (r r1 : rawfile) (n : Nat) (b : List Nat) (hr : ROk r)
    (h : r.read_as n = .ok (b, r1)) :
    b = r.unread.take n ∧ ROk r1 ∧ r1.unread = r.unread.drop n ∧ r1.cap = r.cap ∧
    n ≤ r.unread.length := by
  unfold rawfile.read_as at h
  cases he : r.read n with
  | error e => rw [he] at h; cases h
  | ok v =>
    obtain ⟨o, r2⟩ := v
    rw [he] at h
    cases o with
    | none => cases h
    | some b2 =>
      cases Except.ok.inj h
      exact read_some r r1 n b hr he

/-- A normal return of `sample_packet` on a stream with the message buffered
has consumed exactly the message. -/
theorem sample_packet_framing (pvt q : priv) (is2 is3 : rawfile) (msglen : Nat) (hasB : Bool)
    (hr : ROk is2) (h24 : 24 ≤ msglen) (h40 : hasB = true → 40 ≤ msglen)
    (h : sample_packet pvt is2 msglen hasB = .ok (q, is3)) :
    ROk is3 ∧ is3.unread = is2.unread.drop msglen ∧ is3.cap = is2.cap ∧
    msglen ≤ is2.unread.length := by
  obtain ⟨bA, i1, i2, pvt1, ml, x, hA, -, hB, -, hD, -⟩ :=
    sample_packet_inv_steps pvt q is2 is3 msglen hasB h
  obtain ⟨-, r1, u1, c1, l1⟩ := read_as_some is2 i1 SIZE_NA bA hr hA
  have hl1 : i1.unread.length = is2.unread.length - 24 := by rw [u1, List.length_drop]; rfl
  cases hasB with
  | false =>
    simp only [Bool.false_eq_true, if_false] at hB
    obtain ⟨e1, e2⟩ := hB
    subst e1
    obtain ⟨r3, u3, c3, l3⟩ := drain_some i2 is3 ml r1 hD
    have hs : SIZE_NA = 24 := rfl
    rw [hs] at e2 u1 l1
    refine ⟨r3, ?_, by rw [c3, c1], by omega⟩
    rw [u3, u1, List.drop_drop, e2]
    congr 1
    omega
  | true =>
    simp only [if_true] at hB
    obtain ⟨⟨bB, hBr⟩, e2⟩ := hB
    obtain ⟨-, r2, u2, c2, l2⟩ := read_as_some i1 i2 SIZE_NB bB r1 hBr
    obtain ⟨r3, u3, c3, l3⟩ := drain_some i2 is3 ml r2 hD
    have h40' := h40 rfl
    have hs : SIZE_NA = 24 := rfl
    have hs2 : SIZE_NB = 16 := rfl
    rw [hs, hs2] at e2
    rw [hs] at u1 l1
    rw [hs2] at u2 l2
    have hl2 : i2.unread.length = i1.unread.length - 16 := by rw [u2, List.length_drop]
    refine ⟨r3, ?_, by rw [c3, c2, c1], by omega⟩
    rw [u3, u2, u1, List.drop_drop, List.drop_drop, e2]
    congr 1
    omega
/-- What a normal return of the header part of a pass implies: the header was
there and valid, and the message it announces is buffered (for a sample packet)
or has been drained (for another type). -/
theorem header_phase_ok (istrm : rawfile) (hr : ROk istrm) (hd : Head)
    (h : header_phase istrm = .ok hd) :
    (hd = .eof ∧ ∃ r1, istrm.read SIZE_HEAD = .ok (none, r1)) ∨
    (16 ≤ istrm.unread.length ∧
     (PSCHead.decode (istrm.unread.take 16)).ps = 0x5053 ∧
     24 ≤ (PSCHead.decode (istrm.unread.take 16)).msglen ∧
     ((∃ is3, hd = .skip is3 ∧
        (PSCHead.decode (istrm.unread.take 16)).msgid ≠ 0x4e41 ∧
        (PSCHead.decode (istrm.unread.take 16)).msgid ≠ 0x4e42 ∧
        ROk is3 ∧ is3.cap = istrm.cap ∧
        is3.unread
          = istrm.unread.drop (16 + (PSCHead.decode (istrm.unread.take 16)).msglen) ∧
        16 + (PSCHead.decode (istrm.unread.take 16)).msglen ≤ istrm.unread.length ∧
        (PSCHead.decode (istrm.unread.take 16)).msglen ≤ istrm.cap) ∨
      (∃ is2 hasB, hd = .sample is2 (PSCHead.decode (istrm.unread.take 16)).msglen hasB ∧
        (PSCHead.decode (istrm.unread.take 16)).msgid = (if hasB then 0x4e42 else 0x4e41) ∧
        (hasB = true → 40 ≤ (PSCHead.decode (istrm.unread.take 16)).msglen) ∧
        ROk is2 ∧ is2.cap = istrm.cap ∧ is2.unread = istrm.unread.drop 16 ∧
        (PSCHead.decode (istrm.unread.take 16)).msglen ≤ is2.limit - is2.pos))) := by
  unfold header_phase at h
  cases h1 : istrm.read SIZE_HEAD with
  | error e => rw [h1] at h; cases h
  | ok v =>
    obtain ⟨o, is1⟩ := v
    rw [h1] at h
    cases o with
    | none =>
      left
      exact ⟨(Except.ok.inj h).symm, is1, rfl⟩
    | some hb =>
      right
      obtain ⟨ehb, r1, u1, c1, l1⟩ := read_some istrm is1 SIZE_HEAD hb hr h1
      have hs : SIZE_HEAD = 16 := rfl
      rw [hs] at ehb u1 l1
      subst ehb
      simp only at h
      by_cases hc : (PSCHead.decode (istrm.unread.take 16)).ps ≠ 0x5053 ∨
          (PSCHead.decode (istrm.unread.take 16)).msglen < SIZE_NA
      · rw [if_pos hc] at h; cases h
      · rw [if_neg hc] at h
        have hps : (PSCHead.decode (istrm.unread.take 16)).ps = 0x5053 := by
          by_contra hx; exact hc (Or.inl hx)
        have h24 : 24 ≤ (PSCHead.decode (istrm.unread.take 16)).msglen := by
          have : ¬ (PSCHead.decode (istrm.unread.take 16)).msglen < SIZE_NA :=
            fun hx => hc (Or.inr hx)
          have hs : SIZE_NA = 24 := rfl
          omega
        refine ⟨l1, hps, h24, ?_⟩
        cases h2 : is1.ensure (PSCHead.decode (istrm.unread.take 16)).msglen with
        | error e => rw [h2] at h; cases h
        | ok w =>
          obtain ⟨b, is2⟩ := w
          rw [h2] at h
          cases b with
          | false => cases h
          | true =>
            obtain ⟨r2, u2, n2, c2⟩ := ensure_true is1 is2 _ r1 h2
            simp only at h
            by_cases hA : (PSCHead.decode (istrm.unread.take 16)).msgid = 0x4e41
            · rw [if_pos hA] at h
              right
              exact ⟨is2, false, (Except.ok.inj h).symm, hA, (fun hx => by cases hx), r2,
                by rw [c2, c1], by rw [u2, u1], n2⟩
            · rw [if_neg hA] at h
              by_cases hB : (PSCHead.decode (istrm.unread.take 16)).msgid = 0x4e42
              · rw [if_pos hB] at h
                by_cases hl : (PSCHead.decode (istrm.unread.take 16)).msglen < SIZE_NA + SIZE_NB
                · rw [if_pos hl] at h; cases h
                · rw [if_neg hl] at h
                  right
                  have hs : SIZE_NA + SIZE_NB = 40 := rfl
                  exact ⟨is2, true, (Except.ok.inj h).symm, hB, (fun _ => by omega), r2,
                    by rw [c2, c1], by rw [u2, u1], n2⟩
              · rw [if_neg hB] at h
                left
                cases h3 : is2.drain (PSCHead.decode (istrm.unread.take 16)).msglen with
                | error e => rw [h3] at h; cases h
                | ok is3 =>
                  rw [h3] at h
                  obtain ⟨r3, u3, c3, l3⟩ := drain_some is2 is3 _ r2 h3
                  refine ⟨is3, (Except.ok.inj h).symm, hA, hB, r3, by rw [c3, c2, c1], ?_, ?_, ?_⟩
                  · rw [u3, u2, u1, List.drop_drop]
                  · rw [u2, u1, List.length_drop] at l3
                    omega
                  · have := r2.limit_cap
                    rw [c2, c1] at this
                    omega

/-- A pass of the loop that returns normally with a packet processed has taken
exactly the 16 header bytes and the message off the unread stream. -/
theorem convert1_body_framing (pvt q : priv) (istrm is3 : rawfile) (hr : ROk istrm)
    (h : convert1_body pvt istrm = .ok (some (q, is3))) :
    ROk is3 ∧
    16 + (PSCHead.decode (istrm.unread.take 16)).msglen ≤ istrm.unread.length ∧
    is3.unread = istrm.unread.drop (16 + (PSCHead.decode (istrm.unread.take 16)).msglen) ∧
    is3.cap = istrm.cap := by
  rw [convert1_body_eq] at h
  cases hh : header_phase istrm with
  | error e => rw [hh] at h; cases h
  | ok hd =>
    rw [hh] at h
    rcases header_phase_ok istrm hr hd hh with ⟨he, -⟩ | ⟨l16, -, h24, hk | hs⟩
    · rw [he] at h; cases h
    · obtain ⟨i3, he, -, -, r3, c3, u3, l3, -⟩ := hk
      rw [he] at h
      cases (Prod.mk.inj (Option.some.inj (Except.ok.inj h))).2
      exact ⟨r3, l3, u3, c3⟩
    · obtain ⟨i2, hasB, he, -, h40, r2, c2, u2, n2⟩ := hs
      rw [he] at h
      simp only [after_header] at h
      cases hsp : sample_packet pvt i2 (PSCHead.decode (istrm.unread.take 16)).msglen hasB with
      | error e => rw [hsp] at h; cases h
      | ok v =>
        obtain ⟨q1, i3⟩ := v
        rw [hsp] at h
        cases (Prod.mk.inj (Option.some.inj (Except.ok.inj h))).2
        obtain ⟨r3, u3, c3, l3⟩ := sample_packet_framing pvt _ i2 _ _ hasB r2 h24 h40 hsp
        rw [u2, List.length_drop] at l3
        refine ⟨r3, by omega, ?_, by rw [c3, c2]⟩
        rw [u3, u2, List.drop_drop]

/-! ## C16 -/

/-- C16 (packet framing).  After every pass of the loop of `convert1` that
returns normally with a packet processed (NA, NB or a skipped type), the unread
input stream is the stream before the pass without its first `16 + msglen`
bytes, `msglen` being the big-endian length field of the 16 header bytes; so the
next header is read at the byte right after the packet, whatever part of the
body the extraction loop has used. -/
theorem C16_packet_framing (pvt q : priv) (istrm is3 : rawfile) (hr : ROk istrm)
    (h : convert1_body pvt istrm = .ok (some (q, is3))) :
    ROk is3 ∧
    16 + (PSCHead.decode (istrm.unread.take 16)).msglen ≤ istrm.unread.length ∧
    is3.unread = istrm.unread.drop (16 + (PSCHead.decode (istrm.unread.take 16)).msglen) ∧
    is3.unread.length + (16 + (PSCHead.decode (istrm.unread.take 16)).msglen)
      = istrm.unread.length := by
  obtain ⟨h1, h2, h3, -⟩ := convert1_body_framing pvt q istrm is3 hr h
  refine ⟨h1, h2, h3, ?_⟩
  rw [h3, List.length_drop]
  omega

/-- Witness for C16: the pass over the packet with a 25 byte body leaves
packet 11 as the unread stream. -/
theorem C16_packet_framing_witness :
    ∃ q is3, convert1_body (priv.init false) (rawfile.mk_open ex_leftover_file false)
        = .ok (some (q, is3)) ∧
      is3.unread = (rawfile.mk_open ex_leftover_file false).unread.drop (16 + 49) :=
  (convert1_body_sample (priv.init false) (rawfile.mk_open ex_leftover_file false)
    ex_leftover_packet (ex_packet 11).encode (ROk_mk_open _) rfl
    ⟨by decide, by decide, by decide, by decide, by decide, fun b hb => by cases hb⟩
    (by decide)).elim
    (fun is3 h3 =>
      have hq : convert1_body (priv.init false) (rawfile.mk_open ex_leftover_file false)
          = .ok (some (state_of (process (priv.init false) ex_leftover_packet), is3)) := by
        rw [h3.2.2.2, eq_ok_of_succeeded (process (priv.init false) ex_leftover_packet)
          (by decide!)]
        rfl
      ⟨_, is3, hq,
        (C16_packet_framing (priv.init false) _ (rawfile.mk_open ex_leftover_file false) is3
          (ROk_mk_open _) hq).2.2.1⟩)

/-! ## Reads through the body pointer -/

theorem flush_no_oob (r : rawfile) : r.flush ≠ .error .out_of_buffer := by
  unfold rawfile.flush
  intro h
  split at h
  · cases h
  · split at h
    · cases h
    · split at h <;> cases h

theorem write_no_oob (r : rawfile) (b : List Nat) : r.write b ≠ .error .out_of_buffer := by
  unfold rawfile.write
  intro h
  simp only at h
  split at h
  · cases hf : r.flush with
    | error e =>
      rw [hf] at h
      simp only at h
      cases Except.error.inj h
      exact flush_no_oob r hf
    | ok r1 => rw [hf] at h; cases h
  · cases h

theorem for_chans_no_oob {σ : Type} (body : σ → Nat → Except Err σ)
    (hb : ∀ x i, body x i ≠ .error .out_of_buffer) :
    ∀ (l : List Nat) (x : σ), for_chans body l x ≠ .error .out_of_buffer
  | [], x => by rw [for_chans]; intro h; cases h
  | i :: rest, x => by
    rw [for_chans]
    cases h1 : body x i with
    | error e =>
      intro h
      cases Except.error.inj h
      exact hb x i h1
    | ok x1 => exact for_chans_no_oob body hb rest x1

theorem inject_chan_no_oob (m : Nat) (x : Nat × priv) (i : Nat) :
    inject_chan m x i ≠ .error .out_of_buffer := by
  unfold inject_chan
  intro h
  split at h
  · cases h
  · simp only at h
    cases hw : (x.2.out_channel i).write (host32 (x.2.last_channel i)) with
    | error e =>
      rw [hw] at h
      simp only at h
      cases Except.error.inj h
      exact write_no_oob _ _ hw
    | ok o => rw [hw] at h; cases h

theorem inject_while_no_oob (m : Nat) : ∀ (fuel : Nat) (x : Nat × priv),
    inject_while m fuel x ≠ .error .out_of_buffer
  | 0, _ => by rw [inject_while]; intro h; cases h
  | fuel + 1, x => by
    rw [inject_while]
    split
    · intro h; cases h
    · cases h1 : for_chans (inject_chan m) (List.range 32) x with
      | error e =>
        intro h
        cases Except.error.inj h
        exact for_chans_no_oob _ (inject_chan_no_oob m) _ x h1
      | ok x1 => exact inject_while_no_oob m fuel x1

theorem inject_no_oob (m : Nat) : ∀ (n : Nat) (pvt : priv),
    inject m n pvt ≠ .error .out_of_buffer
  | 0, _ => by rw [inject]; intro h; cases h
  | n + 1, pvt => by
    rw [inject]
    cases h1 : inject_while m W64 (pvt.last_nsamp, pvt) with
    | error e =>
      intro h
      cases Except.error.inj h
      exact inject_while_no_oob m _ _ h1
    | ok x => exact inject_no_oob m n x.2

theorem gap_recover_no_oob (pvt : priv) (chmask seqno nsec : Nat) :
    gap_recover pvt chmask seqno nsec ≠ .error .out_of_buffer := by
  unfold gap_recover
  intro h
  split at h
  · cases h
  · simp only at h
    split at h
    · split at h
      · cases h
      · exact inject_no_oob _ _ _ h
    · cases h

theorem prepare_output_no_oob (pvt : priv) : prepare_output pvt ≠ .error .out_of_buffer := by
  unfold prepare_output
  intro h
  simp only at h
  split at h
  · cases h
  · refine for_chans_no_oob _ ?_ _ _ h
    intro x i hx
    unfold prepare_chan at hx
    split at hx
    · cases hx
    · cases hw : (rawfile.mk_open {} true).write HDR_INVALID with
      | error e =>
        rw [hw] at hx
        simp only at hx
        cases Except.error.inj hx
        exact write_no_oob _ _ hw
      | ok o => rw [hw] at hx; cases hx

theorem extract_chan_no_oob (buf : List Nat) (m : Nat) (x : XState) (i : Nat)
    (hb : x.cur + 3 * x.nsamp ≤ buf.length) :
    extract_chan buf m x i ≠ .error .out_of_buffer := by
  intro h
  unfold extract_chan at h
  split at h
  · cases h
  · split at h
    · cases h
    · rename_i hn
      have h0 : buf[x.cur]? = some (buf.get ⟨x.cur, by omega⟩) :=
        List.getElem?_eq_getElem (by omega)
      have h1 : buf[x.cur + 1]? = some (buf.get ⟨x.cur + 1, by omega⟩) :=
        List.getElem?_eq_getElem (by omega)
      have h2 : buf[x.cur + 2]? = some (buf.get ⟨x.cur + 2, by omega⟩) :=
        List.getElem?_eq_getElem (by omega)
      simp only [h0, h1, h2] at h
      split at h
      · rename_i e hw
        cases Except.error.inj h
        exact write_no_oob _ _ hw
      · cases h

theorem extract_round_no_oob (buf : List Nat) (m : Nat) : ∀ (l : List Nat) (x : XState),
    x.cur + 3 * x.nsamp ≤ buf.length →
    for_chans (extract_chan buf m) l x ≠ .error .out_of_buffer
  | [], x, _ => by rw [for_chans]; intro h; cases h
  | i :: rest, x, hb => by
    rw [for_chans]
    cases h1 : extract_chan buf m x i with
    | error e =>
      intro h
      cases Except.error.inj h
      exact extract_chan_no_oob buf m x i hb h1
    | ok x1 =>
      have hm := extract_chan_measure buf m x x1 i h1
      exact extract_round_no_oob buf m rest x1 (by omega)

/-- The extraction loop started with `3 * nsamp` bytes of the buffer ahead of
`cur` never reads outside the buffer, whatever the conversion state. -/
theorem extract_while_no_oob (buf : List Nat) (m : Nat) : ∀ (fuel : Nat) (x : XState),
    x.cur + 3 * x.nsamp ≤ buf.length →
    extract_while buf m fuel x ≠ .error .out_of_buffer
  | 0, _, _ => by rw [extract_while]; intro h; cases h
  | fuel + 1, x, hb => by
    rw [extract_while]
    split
    · intro h; cases h
    · cases h1 : for_chans (extract_chan buf m) (List.range 32) x with
      | error e =>
        intro h
        cases Except.error.inj h
        exact extract_round_no_oob buf m _ x hb h1
      | ok x1 =>
        have hm := for_chans_measure buf m _ x x1 h1
        exact extract_while_no_oob buf m fuel x1 (by omega)
/-- With the message buffered, `sample_packet` never takes the out-of-buffer
branch of the body reads, whatever the conversion state. -/
theorem sample_packet_no_oob (pvt : priv) (is2 : rawfile) (msglen : Nat) (hasB : Bool)
    (hr : ROk is2) (hn : msglen ≤ is2.limit - is2.pos) (h24 : 24 ≤ msglen)
    (h40 : hasB = true → 40 ≤ msglen) :
    sample_packet pvt is2 msglen hasB ≠ .error .out_of_buffer := by
  have hs : SIZE_NA = 24 := rfl
  have hs2 : SIZE_NB = 16 := rfl
  have hpl := hr.pos_le
  have hlb := hr.limit_le
  obtain ⟨is1, his1⟩ : ∃ is1 : rawfile, is1 = { is2 with pos := is2.pos + SIZE_NA } :=
    ⟨_, rfl⟩
  have hA : is2.read_as SIZE_NA = .ok (is2.unread.take SIZE_NA, is1) := by
    rw [his1]; exact read_as_buffered is2 SIZE_NA hr (by omega)
  have r1 : ROk is1 := by
    rw [his1]; exact (advance_spec is2 SIZE_NA hr (by omega)).1
  have p1 : is1.pos = is2.pos + 24 := by rw [his1]; rfl
  have l1 : is1.limit = is2.limit := by rw [his1]
  have b1 : is1.buf = is2.buf := by rw [his1]
  intro h
  unfold sample_packet at h
  rw [hA] at h
  simp only at h
  split at h
  · rename_i e hr1
    cases Except.error.inj h
    split at hr1
    · exact prepare_output_no_oob _ hr1
    · exact gap_recover_no_oob _ _ _ _ hr1
  · rename_i pvt1 hr1
    split at h
    · rename_i e hr2
      cases hasB with
      | false => simp only [Bool.false_eq_true, if_false] at hr2; cases hr2
      | true =>
        have := h40 rfl
        rw [read_as_buffered is1 SIZE_NB r1 (by omega)] at hr2
        simp only [if_true] at hr2
        cases hr2
    · rename_i ml is2a hr2
      have hfacts : is2a.buf = is2.buf ∧ is2a.pos + ml = is2.pos + msglen ∧ ROk is2a ∧
          is2a.limit = is2.limit := by
        cases hasB with
        | false =>
          simp only [Bool.false_eq_true, if_false, Except.ok.injEq, Prod.mk.injEq] at hr2
          obtain ⟨e1, e2⟩ := hr2
          subst e2
          exact ⟨b1, by omega, r1, l1⟩
        | true =>
          have := h40 rfl
          rw [read_as_buffered is1 SIZE_NB r1 (by omega)] at hr2
          simp only [if_true, Except.ok.injEq, Prod.mk.injEq] at hr2
          obtain ⟨e1, e2⟩ := hr2
          subst e2
          refine ⟨b1, ?_, (advance_spec is1 SIZE_NB r1 (by omega)).1, l1⟩
          show is1.pos + SIZE_NB + ml = _
          omega
      obtain ⟨f1, f2, f3, f4⟩ := hfacts
      have h3 : 3 * (ml / 3) ≤ ml := Nat.mul_div_le _ _
      split at h
      · rename_i e hx
        cases Except.error.inj h
        exact extract_while_no_oob _ _ _ _ (by rw [f1]; show is2a.pos + 3 * (ml / 3) ≤ _; omega) hx
      · rename_i x hx
        rw [drain_buffered is2a ml f3 (by omega)] at h
        cases h

/-! ## C20 -/

/-- C20 (body reads stay inside the buffered message).  For a packet that has
passed the header checks and `ensure(msglen)`: the read of the 24 byte NA prefix
and, for NB, of the further 16 bytes only move `pos` (the buffer, `limit` and
the file are untouched, and no end of data is met); every body byte at offset
`k < 3 * (bodyLen / 3)` from the body pointer lies below `limit` and below the
end of the message, and is the byte of the unread stream at that place; and the
pass never takes the out-of-buffer branch of the body reads. -/
theorem C20_body_reads_buffered (istrm is2 : rawfile) (msglen : Nat) (hasB : Bool)
    (hr : ROk istrm) (hh : header_phase istrm = .ok (.sample is2 msglen hasB)) :
    is2.read_as SIZE_NA = .ok (is2.unread.take 24, { is2 with pos := is2.pos + 24 }) ∧
    (hasB = true →
      rawfile.read_as { is2 with pos := is2.pos + 24 } SIZE_NB
        = .ok ((is2.unread.drop 24).take 16, { is2 with pos := is2.pos + 40 })) ∧
    (∀ k, k < 3 * ((msglen - (if hasB then 40 else 24)) / 3) →
      is2.pos + (if hasB then 40 else 24) + k < is2.limit ∧
      is2.pos + (if hasB then 40 else 24) + k < is2.pos + msglen ∧
      ∃ b, is2.buf[is2.pos + (if hasB then 40 else 24) + k]? = some b ∧
        is2.unread[(if hasB then 40 else 24) + k]? = some b) ∧
    (∀ pvt, sample_packet pvt is2 msglen hasB ≠ .error .out_of_buffer) ∧
    (∀ pvt, convert1_body pvt istrm ≠ .error .out_of_buffer) := by
  have hs : SIZE_NA = 24 := rfl
  have hs2 : SIZE_NB = 16 := rfl
  rcases header_phase_ok istrm hr _ hh with ⟨he, -⟩ | ⟨-, -, h24, hk | hsm⟩
  · cases he
  · obtain ⟨i3, he, -⟩ := hk
    cases he
  · obtain ⟨i2, hB, he, -, h40, r2, -, -, n2⟩ := hsm
    cases he
    have hpl := r2.pos_le
    have hlb := r2.limit_le
    have hnoob := fun pvt => sample_packet_no_oob pvt is2 _ hasB r2 n2 h24 h40
    refine ⟨read_as_buffered is2 24 r2 (by omega), ?_, ?_, hnoob, ?_⟩
    · intro hb
      have := h40 hb
      obtain ⟨a1, a2, -, -⟩ := advance_spec is2 24 r2 (by omega)
      have := read_as_buffered { is2 with pos := is2.pos + 24 } 16 a1
        (by show 16 ≤ is2.limit - (is2.pos + 24); omega)
      rw [a2] at this
      exact this
    · intro k hk
      have h3 : 3 * (((PSCHead.decode (istrm.unread.take 16)).msglen
          - (if hasB then 40 else 24)) / 3)
          ≤ (PSCHead.decode (istrm.unread.take 16)).msglen - (if hasB then 40 else 24) :=
        Nat.mul_div_le _ _
      have hhd : (if hasB then 40 else 24) ≤ (PSCHead.decode (istrm.unread.take 16)).msglen := by
        cases hasB with
        | false => exact h24
        | true => exact h40 rfl
      have hlt : (if hasB = true then 40 else 24) + k < is2.limit - is2.pos := by omega
      have hin : is2.pos + (if hasB = true then 40 else 24) + k < is2.buf.length := by omega
      refine ⟨by omega, by omega, is2.buf.get ⟨_, hin⟩, List.getElem?_eq_getElem hin, ?_⟩
      unfold rawfile.unread
      rw [List.getElem?_append_left (by rw [buffered_length is2 r2]; exact hlt),
        window_getElem? is2.buf is2.pos _ _ hlt, ← Nat.add_assoc]
      exact List.getElem?_eq_getElem hin
    · intro pvt h
      rw [convert1_body_eq, hh] at h
      simp only [after_header] at h
      cases hsp : sample_packet pvt is2 (PSCHead.decode (istrm.unread.take 16)).msglen hasB with
      | error e =>
        rw [hsp] at h
        cases Except.error.inj h
        exact hnoob pvt hsp
      | ok v => rw [hsp] at h; cases h
theorem eq_sample_of_head_is_sample (r : Except Err Head) (msglen : Nat) (hasB : Bool)
    (h : head_is_sample r msglen hasB = true) :
    r = .ok (.sample (head_stream r) msglen hasB) := by
  unfold head_is_sample at h
  split at h
  · rename_i is2 ml b
    rw [Bool.and_eq_true, decide_eq_true_iff, decide_eq_true_iff] at h
    rw [h.1, h.2]
    rfl
  · cases h

/-- Witness for C20: packet 10 at the head of a file read in chunks. -/
theorem C20_body_reads_buffered_witness :
    convert1_body (priv.init false) (rawfile.mk_open ex_first_file false)
      ≠ .error .out_of_buffer :=
  (C20_body_reads_buffered (rawfile.mk_open ex_first_file false)
    (head_stream (header_phase (rawfile.mk_open ex_first_file false))) 48 false
    (ROk_mk_open _)
    (eq_sample_of_head_is_sample _ 48 false (by decide!))).2.2.2.2 (priv.init false)

/-! ## C19 -/

/-- In write mode `tell` is the number of bytes written through the channel. -/
theorem tell_write_mode (r : rawfile) (hw : WOk r) : r.tell = .ok r.content.length := by
  unfold rawfile.tell rawfile.content
  rw [hw.is_open, List.length_append, List.length_take, Nat.min_eq_left hw.pos_le, hw.off]
  rfl

/-- C17, evaluated on a file open for reading: after `read_into(head)` has
taken the 16 header bytes of the 40 byte file `ex_badmark_file`, 24 bytes are
unread, so the next unread byte is at offset 16 of the file; `tell` returns 56,
the file offset after the refill (40) plus `pos` (16). -/
theorem C17_tell_read_mode :
    ((rawfile.mk_open ex_badmark_file false).read SIZE_HEAD).toOption.map (fun x => x.1)
      = some (some (ex_badmark_file.data.take 16)) ∧
    (read_stream ((rawfile.mk_open ex_badmark_file false).read SIZE_HEAD)).unread
      = ex_badmark_file.data.drop 16 ∧
    ex_badmark_file.data.length = 40 ∧
    (read_stream ((rawfile.mk_open ex_badmark_file false).read SIZE_HEAD)).tell = .ok 56 := by
  refine ⟨by decide, by decide, by decide, ?_⟩
  have h : (read_stream ((rawfile.mk_open ex_badmark_file false).read SIZE_HEAD)).tell.toOption
      = some 56 := by decide
  cases ht : (read_stream ((rawfile.mk_open ex_badmark_file false).read SIZE_HEAD)).tell with
  | error e => rw [ht] at h; cases h
  | ok v =>
    rw [ht] at h
    cases h
    rfl

/-- Whatever offset is asked for, `seek` positions the file at offset 0 and
returns 0. -/
theorem seek_ignores_offset (r r2 : rawfile) (off q : Nat) (h : r.seek off = .ok (q, r2)) :
    q = 0 ∧ r2.file.off = 0 ∧ r2.pos = 0 ∧ r.seek 0 = .ok (q, r2) := by
  refine ⟨?_, ?_, ?_, h⟩ <;>
  · unfold rawfile.seek at h
    simp only at h
    split at h
    · split at h
      · cases h
      · split at h
        · cases h
        · cases Except.ok.inj h; rfl
    · split at h
      · cases h
      · cases Except.ok.inj h; rfl

/-- C18, evaluated on a channel open for writing that holds 36 bytes:
`seek(20)` returns 0, leaves the file offset at 0, and a `tell` right after it
returns 0; the next write goes to offset 0 of the file. -/
theorem C18_seek_offset_ignored :
    ex_channel.content.length = 36 ∧
    (ex_channel.seek 20).toOption.map (fun x => (x.1, x.2.file.off, x.2.tell.toOption))
      = some (0, 0, some 0) ∧
    (ex_channel.seek 20).toOption.map (fun x => (x.2.write [7]).toOption.map
        (fun y => (y.flush).toOption.map (fun z => z.file.data.take 1)))
      = some (some (some [7])) := by
  refine ⟨by decide!, by decide!, by decide!⟩

/-! ## Every header is the encoding of its decoded fields -/

theorem be_append_one (l : List Nat) (b : Nat) : be (l ++ [b]) = be l * 256 + b % 256 := by
  unfold be
  rw [List.foldl_append]
  rfl

theorem be_bytes_be : ∀ (n : Nat) (l : List Nat), l.length = n → (∀ b ∈ l, b < 256) →
    be_bytes n (be l) = l
  | 0, l, hl, _ => by
    rw [List.length_eq_zero.mp hl]
    rfl
  | n + 1, l, hl, hb => by
    have hne : l ≠ [] := by
      intro h; rw [h] at hl; cases hl
    obtain ⟨l1, b, rfl⟩ : ∃ l1 b, l = l1 ++ [b] :=
      ⟨l.dropLast, l.getLast hne, (List.dropLast_append_getLast hne).symm⟩
    have hb1 : b < 256 := hb b (List.mem_append_right _ (List.mem_singleton_self b))
    have hl1 : l1.length = n := by
      rw [List.length_append, List.length_singleton] at hl
      omega
    rw [be_bytes, be_append_one]
    have e1 : (be l1 * 256 + b % 256) / 256 = be l1 := by omega
    have e2 : (be l1 * 256 + b % 256) % 256 = b := by omega
    rw [e1, e2, be_bytes_be n l1 hl1 (fun c hc => hb c (List.mem_append_left _ hc))]

theorem length_slice (l : List Nat) (lo hi : Nat) (h1 : lo ≤ hi) (h2 : hi ≤ l.length) :
    (slice l lo hi).length = hi - lo := by
  unfold slice
  rw [List.length_take, List.length_drop]
  omega

theorem slice_append (l : List Nat) (a b c : Nat) (hab : a ≤ b) (hbc : b ≤ c) :
    slice l a b ++ slice l b c = slice l a c := by
  unfold slice
  have e1 : c - a = (b - a) + (c - b) := by omega
  have e2 : l.drop b = (l.drop a).drop (b - a) := by
    rw [List.drop_drop]
    congr 1
    omega
  rw [e1, List.take_add, e2]

theorem mem_slice {l : List Nat} {lo hi x : Nat} (h : x ∈ slice l lo hi) : x ∈ l :=
  List.mem_of_mem_drop (List.mem_of_mem_take h)

theorem slice_full (l : List Nat) (n : Nat) (h : l.length = n) : slice l 0 n = l := by
  unfold slice
  rw [List.drop_zero, Nat.sub_zero, ← h, List.take_length]

theorem be_bytes_slice (l : List Nat) (lo hi k : Nat) (hk : hi - lo = k) (h1 : lo ≤ hi)
    (h2 : hi ≤ l.length) (hb : ∀ b ∈ l, b < 256) :
    be_bytes k (be (slice l lo hi)) = slice l lo hi :=
  be_bytes_be k _ (by rw [length_slice l lo hi h1 h2, hk]) (fun b hm => hb b (mem_slice hm))

theorem encode_decode_head (hb : List Nat) (hl : hb.length = 16) (hby : ∀ b ∈ hb, b < 256) :
    encode_head (PSCHead.decode hb).ps (PSCHead.decode hb).msgid (PSCHead.decode hb).msglen
      (PSCHead.decode hb).rxsec (PSCHead.decode hb).rxns = hb := by
  unfold encode_head PSCHead.decode
  simp only
  rw [be_bytes_slice hb 0 2 2 rfl (by omega) (by omega) hby,
    be_bytes_slice hb 2 4 2 rfl (by omega) (by omega) hby,
    be_bytes_slice hb 4 8 4 rfl (by omega) (by omega) hby,
    be_bytes_slice hb 8 12 4 rfl (by omega) (by omega) hby,
    be_bytes_slice hb 12 16 4 rfl (by omega) (by omega) hby,
    slice_append hb 0 2 4 (by omega) (by omega), slice_append hb 0 4 8 (by omega) (by omega),
    slice_append hb 0 8 12 (by omega) (by omega), slice_append hb 0 12 16 (by omega) (by omega),
    slice_full hb 16 hl]

theorem encode_decode_NA (b : List Nat) (hl : b.length = 24) (hby : ∀ x ∈ b, x < 256) :
    encode_NA (QuartzNA.decode b).status (QuartzNA.decode b).chmask (QuartzNA.decode b).seqno
      (QuartzNA.decode b).sec (QuartzNA.decode b).ns = b := by
  unfold encode_NA QuartzNA.decode
  simp only
  rw [be_bytes_slice b 0 4 4 rfl (by omega) (by omega) hby,
    be_bytes_slice b 4 8 4 rfl (by omega) (by omega) hby,
    be_bytes_slice b 8 16 8 rfl (by omega) (by omega) hby,
    be_bytes_slice b 16 20 4 rfl (by omega) (by omega) hby,
    be_bytes_slice b 20 24 4 rfl (by omega) (by omega) hby,
    slice_append b 0 4 8 (by omega) (by omega), slice_append b 0 8 16 (by omega) (by omega),
    slice_append b 0 16 20 (by omega) (by omega), slice_append b 0 20 24 (by omega) (by omega),
    slice_full b 24 hl]
theorem seg_append (l : List Nat) (a b c : Nat) (h : a + b = c) :
    (l.drop a).take b ++ l.drop c = l.drop a := by
  rw [← h, ← List.drop_drop, List.take_append_drop]

theorem be_slice4_lt (b : List Nat) (lo hi : Nat) (h : hi - lo = 4) :
    be (slice b lo hi) < 4294967296 := by
  have := be_slice_lt b lo hi
  rw [h] at this
  exact this

theorem parse_packet_spec (u : List Nat) (hasB : Bool) (hby : ∀ b ∈ u, b < 256)
    (hlen : 16 + (PSCHead.decode (u.take 16)).msglen ≤ u.length)
    (hps : (PSCHead.decode (u.take 16)).ps = 0x5053)
    (hid : (PSCHead.decode (u.take 16)).msgid = (if hasB then 0x4e42 else 0x4e41))
    (h24 : 24 ≤ (PSCHead.decode (u.take 16)).msglen)
    (h40 : hasB = true → 40 ≤ (PSCHead.decode (u.take 16)).msglen) :
    u = (parse_packet u hasB).encode ++ u.drop (16 + (PSCHead.decode (u.take 16)).msglen) ∧
    (parse_packet u hasB).wf ∧
    (parse_packet u hasB).msglen = (PSCHead.decode (u.take 16)).msglen := by
  have hH := encode_decode_head (u.take 16) (by rw [List.length_take]; omega)
    (fun b hb => hby b (List.mem_of_mem_take hb))
  have hA := encode_decode_NA ((u.drop 16).take 24)
    (by rw [List.length_take, List.length_drop]; omega)
    (fun b hb => hby b (List.mem_of_mem_drop (List.mem_of_mem_take hb)))
  rw [hps, hid] at hH
  have hmll : (PSCHead.decode (u.take 16)).msglen < 4294967296 := be_slice4_lt _ 4 8 rfl
  have hseq : (QuartzNA.decode ((u.drop 16).take 24)).seqno < 18446744073709551616 := by
    have := decode_seqno_lt ((u.drop 16).take 24)
    rw [W64_eq] at this
    exact this
  have s2 : (u.drop 16).take 24 ++ u.drop 40 = u.drop 16 := seg_append u 16 24 40 rfl
  cases hasB with
  | false =>
    have hbl : (parse_packet u false).body.length = (PSCHead.decode (u.take 16)).msglen - 24 := by
      show ((u.drop 40).take _).length = _
      rw [List.length_take, List.length_drop]; omega
    have hml : (parse_packet u false).msglen = (PSCHead.decode (u.take 16)).msglen := by
      rw [Packet.msglen_eq, hbl]
      show 24 + 0 + _ = _
      omega
    have s3 : (u.drop 40).take ((PSCHead.decode (u.take 16)).msglen - 24)
        ++ u.drop (16 + (PSCHead.decode (u.take 16)).msglen) = u.drop 40 :=
      seg_append u 40 _ _ (by omega)
    refine ⟨?_, ⟨be_slice4_lt _ 4 8 rfl, hseq, be_slice4_lt _ 16 20 rfl,
      be_slice4_lt _ 20 24 rfl, by rw [hml]; exact hmll, fun b hb => by cases hb⟩, hml⟩
    simp only [Bool.false_eq_true, if_false] at hH
    have e1 : encode_head 0x5053 (parse_packet u false).msgid
        (PSCHead.decode (u.take 16)).msglen (parse_packet u false).rxsec
        (parse_packet u false).rxns = u.take 16 := hH
    have e2 : encode_NA (parse_packet u false).status (parse_packet u false).chmask
        (parse_packet u false).seqno (parse_packet u false).sec (parse_packet u false).ns
        = (u.drop 16).take 24 := hA
    have e3 : (parse_packet u false).ext ++ (parse_packet u false).body
        = (u.drop 40).take ((PSCHead.decode (u.take 16)).msglen - 24) := rfl
    rw [Packet.encode_eq, hml, e1, e2, e3, List.append_assoc, List.append_assoc, s3, s2,
      List.take_append_drop]
  | true =>
    have h40a := h40 rfl
    have hbl : (parse_packet u true).body.length = (PSCHead.decode (u.take 16)).msglen - 40 := by
      show ((u.drop 56).take _).length = _
      rw [List.length_take, List.length_drop]; omega
    have hel : (parse_packet u true).ext.length = 16 := by
      show ((u.drop 40).take 16).length = 16
      rw [List.length_take, List.length_drop]; omega
    have hml : (parse_packet u true).msglen = (PSCHead.decode (u.take 16)).msglen := by
      rw [Packet.msglen_eq, hbl, hel]
      omega
    have s4 : (u.drop 56).take ((PSCHead.decode (u.take 16)).msglen - 40)
        ++ u.drop (16 + (PSCHead.decode (u.take 16)).msglen) = u.drop 56 :=
      seg_append u 56 _ _ (by omega)
    have s3 : (u.drop 40).take 16 ++ u.drop 56 = u.drop 40 := seg_append u 40 16 56 rfl
    refine ⟨?_, ⟨be_slice4_lt _ 4 8 rfl, hseq, be_slice4_lt _ 16 20 rfl,
      be_slice4_lt _ 20 24 rfl, by rw [hml]; exact hmll, fun b hb => ?_⟩, hml⟩
    · simp only [if_true] at hH
      have e1 : encode_head 0x5053 (parse_packet u true).msgid
          (PSCHead.decode (u.take 16)).msglen (parse_packet u true).rxsec
          (parse_packet u true).rxns = u.take 16 := hH
      have e2 : encode_NA (parse_packet u true).status (parse_packet u true).chmask
          (parse_packet u true).seqno (parse_packet u true).sec (parse_packet u true).ns
          = (u.drop 16).take 24 := hA
      have e3 : (parse_packet u true).ext ++ (parse_packet u true).body
          = (u.drop 40).take 16
            ++ (u.drop 56).take ((PSCHead.decode (u.take 16)).msglen - 40) := rfl
      rw [Packet.encode_eq, hml, e1, e2, e3, List.append_assoc, List.append_assoc,
        List.append_assoc, s4, s3, s2, List.take_append_drop]
    · have : (parse_packet u true).extB = some ((u.drop 40).take 16) := rfl
      rw [this] at hb
      cases hb
      exact hel
/-- A pass of the loop that returns normally has read one well-formed message,
which is the message `parse_msg` reads back from the stream. -/
theorem convert1_body_parse (pvt q : priv) (istrm is3 : rawfile) (hr : ROk istrm)
    (hby : ∀ b ∈ istrm.unread, b < 256)
    (h : convert1_body pvt istrm = .ok (some (q, is3))) :
    (parse_msg istrm.unread).ok istrm.cap ∧
    istrm.unread = (parse_msg istrm.unread).encode ++ is3.unread ∧
    process_all [parse_msg istrm.unread] pvt = .ok q ∧ ROk is3 ∧ is3.cap = istrm.cap := by
  obtain ⟨r3, l3, u3, c3⟩ := convert1_body_framing pvt q istrm is3 hr h
  have h0 := h
  rw [convert1_body_eq] at h
  have hmll : (PSCHead.decode (istrm.unread.take 16)).msglen < 4294967296 :=
    be_slice4_lt _ 4 8 rfl
  cases hh : header_phase istrm with
  | error e => rw [hh] at h; cases h
  | ok hd =>
    rw [hh] at h
    rcases header_phase_ok istrm hr hd hh with ⟨he, -⟩ | ⟨l16, hps, h24, hk | hs⟩
    · rw [he] at h; cases h
    · obtain ⟨i3, he, hA, hB, -, -, -, -, hcap⟩ := hk
      rw [he] at h
      have hq : pvt = q := (Prod.mk.inj (Option.some.inj (Except.ok.inj h))).1
      have hpm : parse_msg istrm.unread
          = .other (PSCHead.decode (istrm.unread.take 16)).msgid
              (PSCHead.decode (istrm.unread.take 16)).msglen
              (PSCHead.decode (istrm.unread.take 16)).rxsec
              (PSCHead.decode (istrm.unread.take 16)).rxns
              ((istrm.unread.drop 16).take (PSCHead.decode (istrm.unread.take 16)).msglen) := by
        unfold parse_msg
        simp only
        rw [if_neg hA, if_neg hB]
      have hH := encode_decode_head (istrm.unread.take 16) (by rw [List.length_take]; omega)
        (fun b hb => hby b (List.mem_of_mem_take hb))
      rw [hps] at hH
      rw [hpm]
      refine ⟨⟨?_, hA, hB, h24, hmll, ?_, hcap⟩, ?_, ?_, r3, c3⟩
      · have := be_slice_lt (istrm.unread.take 16) 2 4
        exact this
      · rw [List.length_take, List.length_drop]; omega
      · show _ = encode_head 0x5053 _ _ _ _ ++ _ ++ _
        rw [hH, u3, List.append_assoc, seg_append _ 16 _ _ rfl, List.take_append_drop]
      · rw [← hq]; rfl
    · obtain ⟨i2, hasB, he, hid, h40, r2, c2, u2, n2⟩ := hs
      obtain ⟨hu, hw, hml⟩ := parse_packet_spec istrm.unread hasB hby l3 hps hid h24 h40
      have hcap : (parse_packet istrm.unread hasB).msglen ≤ istrm.cap := by
        have := r2.limit_cap
        rw [c2] at this
        rw [hml]
        omega
      have hpm : parse_msg istrm.unread = .sample (parse_packet istrm.unread hasB) := by
        unfold parse_msg
        simp only
        cases hasB with
        | false =>
          simp only [Bool.false_eq_true, if_false] at hid
          rw [if_pos hid]
        | true =>
          simp only [if_true] at hid
          have hA : ¬ (PSCHead.decode (istrm.unread.take 16)).msgid = 0x4e41 := by
            rw [hid]; decide
          rw [if_neg hA, if_pos hid]
      obtain ⟨is3a, -, -, -, hb⟩ := convert1_body_sample pvt istrm
        (parse_packet istrm.unread hasB) _ hr hu hw hcap
      rw [hb] at h0
      rw [hpm]
      refine ⟨⟨hw, hcap⟩, ?_, ?_, r3, c3⟩
      · show _ = (parse_packet istrm.unread hasB).encode ++ _
        rw [u3]
        exact hu
      · rw [process_all]
        cases hp : process pvt (parse_packet istrm.unread hasB) with
        | error e => rw [hp] at h0; cases h0
        | ok q1 =>
          rw [hp] at h0
          have : q1 = q := (Prod.mk.inj (Option.some.inj (Except.ok.inj h0))).1
          rw [this]
          rfl
theorem process_all_append : ∀ (a b : List Msg) (pvt : priv),
    process_all (a ++ b) pvt =
      match process_all a pvt with
      | .error e => .error e
      | .ok q => process_all b q
  | [], b, pvt => by rw [List.nil_append, process_all]
  | .sample p :: a, b, pvt => by
    rw [List.cons_append, process_all, process_all]
    cases process pvt p with
    | error e => rfl
    | ok q => exact process_all_append a b q
  | .other _ _ _ _ _ :: a, b, pvt => by
    rw [List.cons_append, process_all, process_all]
    exact process_all_append a b pvt

theorem encode_all_append (a b : List Msg) :
    encode_all (a ++ b) = encode_all a ++ encode_all b := by
  unfold encode_all
  rw [List.map_append, List.flatten_append]

theorem read_none (r r1 : rawfile) (n : Nat) (hr : ROk r) (hcap : 0 < r.cap)
    (h : r.read n = .ok (none, r1)) : r.unread = [] := by
  unfold rawfile.read at h
  cases he : r.ensure n with
  | error e => rw [he] at h; cases h
  | ok v =>
    obtain ⟨b, r2⟩ := v
    rw [he] at h
    cases b with
    | false => exact (ensure_false r r2 n hr hcap he).1
    | true => cases (Prod.mk.inj (Except.ok.inj h)).1

theorem convert1_body_none (pvt : priv) (istrm : rawfile) (hr : ROk istrm)
    (hcap : 0 < istrm.cap) (h : convert1_body pvt istrm = .ok none) : istrm.unread = [] := by
  rw [convert1_body_eq] at h
  cases hh : header_phase istrm with
  | error e => rw [hh] at h; cases h
  | ok hd =>
    rw [hh] at h
    cases hd with
    | eof =>
      rcases header_phase_ok istrm hr _ hh with ⟨-, r1, hrd⟩ | ⟨-, -, -, hk | hs⟩
      · exact read_none istrm r1 _ hr hcap hrd
      · obtain ⟨i3, he, -⟩ := hk
        cases he
      · obtain ⟨i2, hasB, he, -⟩ := hs
        cases he
    | skip is3 => cases h
    | sample is2 ml hasB =>
      simp only [after_header] at h
      cases hsp : sample_packet pvt is2 ml hasB with
      | error e => rw [hsp] at h; cases h
      | ok v => rw [hsp] at h; cases h

/-- A normal return of the loop of `convert1`: the stream was a sequence of
well-formed messages and the state is what `process_all` makes of them. -/
theorem convert1_loop_parse : ∀ (fuel : Nat) (pvt q : priv) (istrm : rawfile),
    ROk istrm → 0 < istrm.cap → (∀ b ∈ istrm.unread, b < 256) →
    convert1_loop fuel pvt istrm = .ok q →
    ∃ msgs, (∀ m ∈ msgs, m.ok istrm.cap) ∧ istrm.unread = encode_all msgs ∧
      process_all msgs pvt = .ok q
  | 0, _, _, _, _, _, _, h => by rw [convert1_loop] at h; cases h
  | fuel + 1, pvt, q, istrm, hr, hcap, hby, h => by
    rw [convert1_loop] at h
    cases hb : convert1_body pvt istrm with
    | error e => rw [hb] at h; cases h
    | ok v =>
      rw [hb] at h
      cases v with
      | none =>
        cases Except.ok.inj h
        exact ⟨[], fun m hm => absurd hm (List.not_mem_nil m),
          convert1_body_none pvt istrm hr hcap hb, rfl⟩
      | some w =>
        obtain ⟨q1, is1⟩ := w
        obtain ⟨hok, hu, hp, r1, c1⟩ := convert1_body_parse pvt q1 istrm is1 hr hby hb
        obtain ⟨msgs, hall, hu1, hp1⟩ := convert1_loop_parse fuel q1 q is1 r1
          (by rw [c1]; exact hcap)
          (fun b hm => hby b (by rw [hu]; exact List.mem_append_right _ hm)) h
        refine ⟨parse_msg istrm.unread :: msgs, ?_, ?_, ?_⟩
        · intro m hm
          rcases List.mem_cons.mp hm with e | e
          · rw [e]; exact hok
          · rw [← c1]; exact hall m e
        · rw [encode_all_cons, ← hu1]; exact hu
        · have := process_all_append [parse_msg istrm.unread] msgs pvt
          rw [hp] at this
          rw [← hp1]
          exact this

theorem convert1_parse (pvt q : priv) (f : KFile) (hby : ∀ b ∈ f.data, b < 256)
    (h : convert1 pvt f = .ok q) :
    ∃ msgs, (∀ m ∈ msgs, m.ok BUFSIZE) ∧ f.data = encode_all msgs ∧
      process_all msgs pvt = .ok q := by
  unfold convert1 at h
  exact convert1_loop_parse _ pvt q _ (ROk_mk_open _) (by show 0 < BUFSIZE; decide)
    (by rw [unread_mk_open]; exact hby) h

theorem convert_all_parse : ∀ (fs : List KFile) (pvt q : priv),
    (∀ f ∈ fs, ∀ b ∈ f.data, b < 256) → convert_all fs pvt = .ok q →
    ∃ msgs, (∀ m ∈ msgs, m.ok BUFSIZE) ∧ (fs.map KFile.data).flatten = encode_all msgs ∧
      process_all msgs pvt = .ok q
  | [], pvt, q, _, h => by
    rw [convert_all] at h
    exact ⟨[], fun m hm => absurd hm (List.not_mem_nil m), rfl, h⟩
  | f :: fs, pvt, q, hby, h => by
    rw [convert_all] at h
    cases h1 : convert1 pvt f with
    | error e => rw [h1] at h; cases h
    | ok q1 =>
      rw [h1] at h
      obtain ⟨m1, a1, d1, p1⟩ := convert1_parse pvt q1 f (hby f (List.mem_cons_self _ _)) h1
      obtain ⟨m2, a2, d2, p2⟩ := convert_all_parse fs q1 q
        (fun g hg => hby g (List.mem_cons_of_mem _ hg)) h
      refine ⟨m1 ++ m2, ?_, ?_, ?_⟩
      · intro m hm
        rcases List.mem_append.mp hm with e | e
        · exact a1 m e
        · exact a2 m e
      · rw [List.map_cons, List.flatten_cons, encode_all_append, d1, d2]
      · rw [process_all_append, p1]
        exact p2
/-! ## C14 -/

theorem convert1_empty (pvt : priv) (e : KFile) (he : e.data = []) :
    convert1 pvt e = .ok pvt := by
  rw [convert1_stream pvt e [] (by rw [he]; rfl) (fun m hm => absurd hm (List.not_mem_nil m))]
  rfl

/-- C14 (a multi-file run is one logical stream).  When the conversion of a
list of input files (of bytes) returns normally file by file, the conversion of
one file holding the bytes of the listed files in order returns the same state,
so `convert2j` gives the same result for both: the same channel files, the same
final state and the same diagnostics.  An empty input file anywhere in the list
changes nothing. -/
theorem C14_multi_file (fs : List KFile) (g : KFile) (force : Bool) (pvt : priv)
    (hby : ∀ f ∈ fs, ∀ b ∈ f.data, b < 256) (hcat : g.data = (fs.map KFile.data).flatten)
    (h : convert_all fs (priv.init force) = .ok pvt) :
    convert_all [g] (priv.init force) = .ok pvt ∧
    convert2j [g] force = convert2j fs force ∧
    (∀ (e : KFile) (before after : List KFile), e.data = [] →
      convert2j (before ++ e :: after) force = convert2j (before ++ after) force) := by
  obtain ⟨msgs, hall, hd, hp⟩ := convert_all_parse fs (priv.init force) pvt hby h
  have h1 : convert_all [g] (priv.init force) = .ok pvt := by
    rw [convert_all, convert1_stream (priv.init force) g msgs (by rw [hcat, hd]) hall, hp]
    rfl
  refine ⟨h1, ?_, ?_⟩
  · unfold convert2j
    rw [h1, h]
  · intro e before after he
    unfold convert2j
    rw [convert_all_append, convert_all_append]
    cases convert_all before (priv.init force) with
    | error x => rfl
    | ok q =>
      simp only
      rw [convert_all, convert1_empty q e he]

/-- Witness for C14: packets 10 and 11 in two files, and in one. -/
theorem C14_multi_file_witness :
    convert2j [ex_pre_file] false = convert2j ex_two_files false :=
  (C14_multi_file ex_two_files ex_pre_file false
    (state_of (convert_all ex_two_files (priv.init false)))
    (by decide) rfl (eq_ok_of_succeeded _ (by decide!))).2.1

/-! ## C4 -/

/-- What a normal return of `process` leaves in the header fields of the state. -/
theorem process_fields (pvt q : priv) (p : Packet) (hI : pvt.first = true ∨ Inv pvt)
    (hw : p.wf) (h : process pvt p = .ok q) :
    Inv q ∧ q.last_chmask = p.chmask ∧ q.last_seqno = p.seqno ∧ q.last_ns = p.nsec ∧
    q.last_nsamp = p.body.length / 3 ∧ q.force = pvt.force := by
  obtain ⟨pvt1, x, hb, hx, hq⟩ := process_ok_steps pvt q p h
  obtain ⟨hI0, hm, hfo⟩ := branch_Inv0 pvt pvt1 p hI hw hb
  obtain ⟨-, -, hIx, e1, e2, e3, e4, -, e6, -⟩ := extract_body_spec pvt1 p hI0 hm hw x hx
  subst hq
  exact ⟨hIx, e1, e2, e3, e4, by rw [e6, hfo]⟩

theorem gap_nmissing_one (pvt : priv) (seqno : Nat)
    (hseq : seqno = (pvt.last_seqno + 2) % W64) :
    gap_nmissing pvt seqno = 1 ∧ (pvt.last_seqno + 1) % W64 ≠ seqno := by
  unfold gap_nmissing
  rw [W64_eq] at hseq ⊢
  omega

theorem gap_nmissing_regress (pvt : priv) (seqno : Nat) (hle : seqno ≤ pvt.last_seqno)
    (hnw : pvt.last_seqno + 1 < W64) :
    (pvt.last_seqno + 1) % W64 ≠ seqno ∧
    gap_nmissing pvt seqno = W64 - (pvt.last_seqno + 1 - seqno) := by
  unfold gap_nmissing
  rw [W64_eq] at hnw ⊢
  omega

/-! ## C5 -/

theorem popcount_three : popcount 3 = 2 := by decide

/-- The state after packets 10 and 11 of the scenario of C5. -/
theorem scenario_pre (force : Bool) (p10 p11 : Packet) (w10 : p10.wf) (w11 : p11.wf)
    (m10 : p10.chmask = 3) (m11 : p11.chmask = 3) (s10 : p10.seqno = 10) (s11 : p11.seqno = 11)
    (b10 : p10.body.length = 24) (b11 : p11.body.length = 24) :
    ∃ q10 q11, process (priv.init force) p10 = .ok q10 ∧ process q10 p11 = .ok q11 ∧
      Inv q11 ∧ q11.last_chmask = 3 ∧ q11.last_seqno = 11 ∧ q11.last_ns = p11.nsec ∧
      q11.last_nsamp = 8 ∧ q11.errors = [] ∧ q11.force = force ∧
      ∀ j, j < 32 → active 3 j = true → (q11.out_channel j).content.length = 20 + 4 * 8 := by
  have hT10 : p10.body.length = 3 * (popcount p10.chmask * 4) := by
    rw [m10, popcount_three, b10]
  have hT11 : p11.body.length = 3 * (popcount p11.chmask * 4) := by
    rw [m11, popcount_three, b11]
  obtain ⟨q10, hp10, hI10, c10, e10, er10, f10, ch10⟩ :=
    process_first (priv.init force) p10 rfl w10 (by rw [m10]; decide) 4 hT10
  have hnext : (q10.last_seqno + 1) % W64 = p11.seqno := by
    rw [e10, s10, s11, W64_eq]
  have hg : gap_recover q10 p11.chmask p11.seqno p11.nsec = .ok q10 := by
    have := gap_recover_next q10 p11.seqno p11.nsec hnext
    rw [c10, m10, ← m11] at this
    exact this
  obtain ⟨q11, hp11, hI11, c11, e11, n11, er11, f11, ch11⟩ :=
    process_next q10 q10 p11 hI10 w11 hg 4 hT11
  obtain ⟨-, -, -, l11, -, -⟩ := process_fields q10 q11 p11 (Or.inr hI10) w11 hp11
  refine ⟨q10, q11, hp10, hp11, hI11, by rw [c11, m11], by rw [e11, s11], l11,
    by rw [n11, b11], by rw [er11, er10]; rfl, by rw [f11, f10]; rfl, ?_⟩
  intro j hj ha
  rw [(ch11 j hj (by rw [m11]; exact ha)).1, ch10 j hj (by rw [m10]; exact ha),
    List.length_append, List.length_append, length_wbytes, length_wbytes,
    length_chan_words, length_chan_words, length_HDR_INVALID]

theorem scenario_gap (q11 : priv) (p13 : Packet) (h1 : q11.last_chmask = 3)
    (h2 : q11.last_seqno = 11) (h3 : q11.last_nsamp = 8) (s13 : p13.seqno = 13)
    (t13 : p13.nsec = q11.last_ns + 8000000) :
    (q11.last_seqno + 1) % W64 ≠ p13.seqno ∧
    gap_diag q11 p13.seqno p13.nsec = { nmissing := 1, lo := 12, hi := 13, dt_ns := 8000000 } ∧
    gap_nmissing q11 p13.seqno = 1 ∧
    gap_rejected q11 p13.seqno p13.nsec = !q11.force := by
  have hnm := gap_nmissing_one q11 p13.seqno (by rw [h2, s13, W64_eq])
  have hlo : (q11.last_seqno + 1) % W64 = 12 := by rw [h2, W64_eq]
  have hdt : gap_dt q11 p13.nsec = 8000000 := by
    unfold gap_dt
    rw [t13, W64_eq]
    omega
  have hc : gap_count q11 p13.seqno = 4 := by
    unfold gap_count
    rw [hnm.1, h3, h1, popcount_three, W64_eq]
  refine ⟨hnm.2, ?_, hnm.1, ?_⟩
  · unfold gap_diag
    rw [hnm.1, hlo, hdt, s13]
  · unfold gap_rejected
    rw [hc, hdt]
    have : Fsamp_out_of_range 4 8000000 = true := by decide!
    rw [this, Bool.and_true]

theorem process_branch_error (pvt : priv) (p : Packet) (e : Err) (hf : pvt.first = false)
    (hg : gap_recover pvt p.chmask p.seqno p.nsec = .error e) : process pvt p = .error e := by
  unfold process
  simp only [hf, Bool.false_eq_true, if_false, hg]

theorem Packet.msglen_NA (p : Packet) (ha : p.extB = none) : p.msglen = 24 + p.body.length := by
  rw [Packet.msglen_eq]
  unfold Packet.ext
  rw [ha]
  rfl

/-- C5, as stated, fails: on the file with packets 10, 11 and 13 of the scenario
the run with `force` unset throws, and the run with `force` set leaves 16
samples in each of the channels 0 and 1 and one diagnostic entry, for 1 missing
packet over the range [12, 13). -/
theorem C5_counterexample :
    succeeded (convert2j [ex_gap_file] false) = false ∧
    nsamples ((state_of (convert2j [ex_gap_file] true)).out_channel 0) = 16 ∧
    nsamples ((state_of (convert2j [ex_gap_file] true)).out_channel 1) = 16 ∧
    (state_of (convert2j [ex_gap_file] true)).errors
      = [{ nmissing := 1, lo := 12, hi := 13, dt_ns := 8000000 }] :=
  ⟨by decide!, by decide!, by decide!, by decide!⟩

/-- C5 (amended).  For an input file of three well-formed NA packets with mask
`0b011`, sequence numbers 10, 11 and 13, bodies of 24 bytes (4 samples for each
of the channels 0 and 1) and time stamps advancing 4 ms per sequence number, so
that packet 13 is stamped 8 ms after packet 11: the estimated rate is
`4 / 0.008 s = 500 Hz`, below 900 Hz, and the run with `force` unset throws the
inconsistency error; the run with `force` set returns normally, the files of
channels 0 and 1 each hold the header and `4 + 4 + 4 + 4 = 16` samples, and the
diagnostics are one entry, for 1 missing packet over the range [12, 13). -/
theorem C5_gap_scenario (f : KFile) (p10 p11 p13 : Packet)
    (w10 : p10.wf) (w11 : p11.wf) (w13 : p13.wf)
    (m10 : p10.chmask = 3) (m11 : p11.chmask = 3) (m13 : p13.chmask = 3)
    (s10 : p10.seqno = 10) (s11 : p11.seqno = 11) (s13 : p13.seqno = 13)
    (a10 : p10.extB = none) (a11 : p11.extB = none) (a13 : p13.extB = none)
    (b10 : p10.body.length = 24) (b11 : p11.body.length = 24) (b13 : p13.body.length = 24)
    (_t11 : p11.nsec = p10.nsec + 4000000) (t13 : p13.nsec = p11.nsec + 8000000)
    (hd : f.data = p10.encode ++ p11.encode ++ p13.encode) :
    convert2j [f] false = .error .inconsistency ∧
    ∃ q, convert2j [f] true = .ok q ∧
      q.errors = [{ nmissing := 1, lo := 12, hi := 13, dt_ns := 8000000 }] ∧
      ∀ j, j < 2 → (q.out_channel j).file.data.length = 20 + 4 * 16 := by
  have hok : ∀ m ∈ [Msg.sample p10, Msg.sample p11, Msg.sample p13], m.ok BUFSIZE := by
    intro m hm
    simp only [List.mem_cons, List.mem_singleton, List.not_mem_nil, or_false] at hm
    rcases hm with h | h | h
    · rw [h]; exact ⟨w10, by rw [p10.msglen_NA a10, b10]; decide⟩
    · rw [h]; exact ⟨w11, by rw [p11.msglen_NA a11, b11]; decide⟩
    · rw [h]; exact ⟨w13, by rw [p13.msglen_NA a13, b13]; decide⟩
  have hdata : f.data = encode_all [Msg.sample p10, Msg.sample p11, Msg.sample p13] := by
    rw [hd, encode_all_cons, encode_all_cons, encode_all_cons]
    show _ = p10.encode ++ (p11.encode ++ (p13.encode ++ []))
    rw [List.append_nil, List.append_assoc]
  have hconv : ∀ force, convert2j [f] force =
      match process_all [Msg.sample p10, Msg.sample p11, Msg.sample p13] (priv.init force) with
      | .error e => .error e
      | .ok pvt => finalize_output pvt := by
    intro force
    unfold convert2j
    rw [convert_all, convert1_stream _ f _ hdata hok]
    cases process_all [Msg.sample p10, Msg.sample p11, Msg.sample p13] (priv.init force) with
    | error e => rfl
    | ok q => rfl
  have hT13 : p13.body.length = 3 * (popcount p13.chmask * 4) := by
    rw [m13, popcount_three, b13]
  constructor
  · obtain ⟨q10, q11, hp10, hp11, hI, c11, e11, l11, n11, er11, f11, -⟩ :=
      scenario_pre false p10 p11 w10 w11 m10 m11 s10 s11 b10 b11
    obtain ⟨hgap, -, -, hrej⟩ := scenario_gap q11 p13 c11 e11 n11 s13 (by rw [l11]; exact t13)
    rw [f11] at hrej
    have hg : gap_recover q11 p13.chmask p13.seqno p13.nsec = .error .inconsistency := by
      rw [m13, ← c11, gap_recover_gap q11 _ _ hgap, hrej]
      rfl
    rw [hconv]
    simp only [process_all, hp10, hp11, process_branch_error q11 p13 _ hI.first hg]
  · obtain ⟨q10, q11, hp10, hp11, hI, c11, e11, l11, n11, er11, f11, len11⟩ :=
      scenario_pre true p10 p11 w10 w11 m10 m11 s10 s11 b10 b11
    obtain ⟨hgap, hdiag, hnm, hrej⟩ :=
      scenario_gap q11 p13 c11 e11 n11 s13 (by rw [l11]; exact t13)
    rw [f11] at hrej
    obtain ⟨pvt1, hg, hfr, hch⟩ := gap_recover_inject q11 p13.seqno p13.nsec 4 hI.toInv0
      (by rw [n11, c11, popcount_three]) hI.nsamp_lt hgap hrej
    rw [c11, ← m13] at hg
    obtain ⟨q13, hp13, hI13, c13, -, -, er13, -, ch13⟩ :=
      process_next q11 pvt1 p13 hI w13 hg 4 hT13
    obtain ⟨q, hq, hqfr, hqch⟩ := finalize_output_ok q13 hI13.wok
    refine ⟨q, ?_, ?_, ?_⟩
    · rw [hconv]
      simp only [process_all, hp10, hp11, hp13]
      exact hq
    · rw [hqfr]
      show q13.errors = _
      rw [er13, hfr]
      show q11.errors ++ [gap_diag q11 p13.seqno p13.nsec] = _
      rw [er11, hdiag]
      rfl
    · intro j hj
      have ha : active 3 j = true := by
        have : j = 0 ∨ j = 1 := by omega
        rcases this with h | h <;> rw [h] <;> decide
      have hj32 : j < 32 := by omega
      have e1 := ((hqch j).1 ⟨hj32, by rw [c13, m13]; exact ha⟩).2
      have e2 := (ch13 j hj32 (by rw [m13]; exact ha)).1
      have e3 := ((hch j).1 ⟨hj32, by rw [c11]; exact ha⟩).2
      have e4 := len11 j hj32 ha
      have e5 : (q13.out_channel j).content.length = 20 + 4 * 8 + 4 * 4 + 4 * 4 := by
        rw [e2, e3, hnm, List.length_append, List.length_append, e4, rep_eq_wbytes,
          length_wbytes, length_wbytes, length_chan_words, List.length_replicate]
      rw [e1, List.length_append, length_hdr_final, List.length_drop, e5]

/-- Witness for C5: the packets 10, 11 and 13 of `ex_gap_file`, with `force`
unset. -/
theorem C5_gap_scenario_witness : convert2j [ex_gap_file] false = .error .inconsistency :=
  (C5_gap_scenario ex_gap_file (ex_packet 10) (ex_packet 11) (ex_packet 13)
    ⟨by decide, by decide, by decide, by decide, by decide, fun b hb => by cases hb⟩
    ⟨by decide, by decide, by decide, by decide, by decide, fun b hb => by cases hb⟩
    ⟨by decide, by decide, by decide, by decide, by decide, fun b hb => by cases hb⟩
    rfl rfl rfl rfl rfl rfl rfl rfl rfl (by decide) (by decide) (by decide)
    (by decide!) (by decide!) rfl).1

/-! ## C2 -/

theorem chan_words_eq_body_words (m c : Nat) (body : List Nat) (T : Nat)
    (hk : 0 < popcount m) (hT : body.length = 3 * (popcount m * T)) :
    chan_words body (popcount m) (rank m (List.range 32) c) T 0 = body_words m c body := by
  have hdiv : body.length / (3 * popcount m) = T := by
    rw [hT, ← Nat.mul_assoc]
    exact Nat.mul_div_cancel_left _ (by omega)
  unfold body_words
  rw [chan_words_eq_map, hdiv]
  apply List.map_congr_left
  intro t _
  rw [Nat.zero_add]

theorem active_zero (i : Nat) : active 0 i = false := by
  unfold active
  rw [Nat.and_zero]
  rfl

/-- Packets in sequence, all with the mask of the state and bodies of whole
time points, are processed without a gap: nothing is appended to the
diagnostics and every active channel receives its words, packet after packet. -/
theorem process_all_gapfree (m : Nat) : ∀ (ps : List Packet) (pvt : priv),
    Inv pvt → pvt.last_chmask = m →
    (∀ p ∈ ps, p.wf ∧ p.chmask = m ∧ 3 * popcount m ∣ p.body.length) →
    List.Chain' next_seq ps →
    (∀ p ∈ ps.head?, p.seqno = (pvt.last_seqno + 1) % W64) →
    ∃ q, process_all (ps.map Msg.sample) pvt = .ok q ∧ Inv q ∧ q.last_chmask = m ∧
      q.errors = pvt.errors ∧
      ∀ c, c < 32 → active m c = true →
        (q.out_channel c).content = (pvt.out_channel c).content ++ wbytes (demux_words m c ps)
  | [], pvt, hI, hm, _, _, _ =>
    ⟨pvt, rfl, hI, hm, rfl, fun c _ _ => by
      show _ = _ ++ wbytes []
      rw [wbytes_nil, List.append_nil]⟩
  | p :: rest, pvt, hI, hm, hps, hch, hhd => by
    obtain ⟨hw, hpm, T, hT⟩ := hps p (List.mem_cons_self _ _)
    have hk : 0 < popcount m := by rw [← hm]; exact popcount_pos _ hI.mask_ne hI.mask_lt
    have hT1 : p.body.length = 3 * (popcount p.chmask * T) := by
      rw [hpm, hT, Nat.mul_assoc]
    have hseq : (pvt.last_seqno + 1) % W64 = p.seqno := (hhd p rfl).symm
    have hg : gap_recover pvt p.chmask p.seqno p.nsec = .ok pvt := by
      have := gap_recover_next pvt p.seqno p.nsec hseq
      rw [hm, ← hpm] at this
      exact this
    obtain ⟨q1, hp1, hI1, c1, e1, -, er1, -, ch1⟩ := process_next pvt pvt p hI hw hg T hT1
    obtain ⟨hr, hc2⟩ := List.chain'_cons'.mp hch
    obtain ⟨q, hq, hIq, cq, erq, chq⟩ := process_all_gapfree m rest q1 hI1 (by rw [c1, hpm])
      (fun p2 h2 => hps p2 (List.mem_cons_of_mem _ h2)) hc2
      (fun p2 h2 => by rw [e1]; exact hr p2 h2)
    refine ⟨q, ?_, hIq, cq, by rw [erq, er1], ?_⟩
    · rw [List.map_cons, process_all, hp1]
      exact hq
    · intro c hc ha
      have h1 := (ch1 c hc (by rw [hpm]; exact ha)).1
      rw [hpm, chan_words_eq_body_words m c p.body T hk (by rw [hT, Nat.mul_assoc])] at h1
      rw [chq c hc ha, h1, List.append_assoc, ← wbytes_append]
      rfl

theorem length_demux_words (m c : Nat) (ps : List Packet) :
    (demux_words m c ps).length = (ps.map (fun p => p.body.length / (3 * popcount m))).sum := by
  unfold demux_words
  rw [List.length_flatten, List.map_map]
  congr 1
  apply List.map_congr_left
  intro p _
  show (body_words m c p.body).length = _
  unfold body_words
  rw [List.length_map, List.length_range]
/-- C2, as stated, fails: the packet `ex_big_packet` has a valid header, the
non-zero mask `0b1` and a body of `3 * 22369614` bytes, a multiple of `3 * n`,
but its message is longer than the 64 MiB buffer and the run over the file that
holds it throws. -/
theorem C2_counterexample :
    ex_big_packet.wf ∧ ex_big_packet.chmask ≠ 0 ∧
    3 * popcount ex_big_packet.chmask ∣ ex_big_packet.body.length ∧
    ∃ e, convert2j [ex_big_file] false = .error e := by
  have hlen : ex_big_packet.body.length = 67108842 := List.length_replicate _ _
  have hml : ex_big_packet.msglen = 67108866 := by
    rw [ex_big_packet.msglen_NA rfl, hlen]
  have hw : ex_big_packet.wf :=
    ⟨by decide, by decide, by decide, by decide, by rw [hml]; decide, fun b hb => by cases hb⟩
  refine ⟨hw, by decide, ?_, ?_⟩
  · rw [hlen]
    exact ⟨22369614, by decide⟩
  · obtain ⟨e, he⟩ := convert1_body_too_long (priv.init false)
      (rawfile.mk_open { ex_big_file with off := 0 } false) ex_big_packet.msgid
      ex_big_packet.msglen ex_big_packet.rxsec ex_big_packet.rxns _ (ROk_mk_open _)
      (by rw [unread_mk_open]; exact ex_big_packet.encode_eq)
      hw.msglen_lt (by decide) (by rw [hml]; decide)
    exact ⟨e, convert2j_error_of_body ex_big_file false e he⟩

/-- C2 (amended).  For a file that holds a sequence of NA/NB packets with valid
headers and messages of at most 64 MiB, one common non-zero mask `m` with `n`
set bits, consecutive sequence numbers and body lengths that are multiples of
`3 * n`: the run returns normally with no diagnostic, and the file of each
active channel `c`, the `r`-th set bit of `m`, holds after its 20 byte header
exactly the words of the body bytes `[3 * (t * n + r), 3 * (t * n + r) + 3)`,
packet after packet and time point after time point; so it holds as many
samples as the sum over the packets of `bodyLen / (3 * n)`. -/
theorem C2_gap_free_demux (ps : List Packet) (m : Nat) (f : KFile) (force : Bool)
    (hm0 : m ≠ 0)
    (hps : ∀ p ∈ ps, p.wf ∧ p.msglen ≤ BUFSIZE ∧ p.chmask = m ∧
      3 * popcount m ∣ p.body.length)
    (hseq : List.Chain' next_seq ps) (hd : f.data = encode_all (ps.map Msg.sample)) :
    ∃ q, convert2j [f] force = .ok q ∧ q.errors = [] ∧
      (ps ≠ [] → ∀ c, c < 32 → active m c = true →
        (q.out_channel c).file.data.drop 20 = wbytes (demux_words m c ps) ∧
        (q.out_channel c).file.data.length
          = 20 + 4 * (ps.map (fun p => p.body.length / (3 * popcount m))).sum) := by
  have hok : ∀ x ∈ ps.map Msg.sample, x.ok BUFSIZE := by
    intro x hx
    obtain ⟨p, hp, rfl⟩ := List.mem_map.mp hx
    exact ⟨(hps p hp).1, (hps p hp).2.1⟩
  have hconv : convert2j [f] force =
      match process_all (ps.map Msg.sample) (priv.init force) with
      | .error e => .error e
      | .ok pvt => finalize_output pvt := by
    unfold convert2j
    rw [convert_all, convert1_stream _ f _ hd hok]
    cases process_all (ps.map Msg.sample) (priv.init force) with
    | error e => rfl
    | ok q => rfl
  cases ps with
  | nil =>
    obtain ⟨q, hq, hfr, -⟩ := finalize_output_ok (priv.init force)
      (fun i _ ha => by
        have h0 : active 0 i = false := active_zero i
        have h1 : active 0 i = true := ha
        rw [h0] at h1
        cases h1)
    refine ⟨q, ?_, by rw [hfr]; rfl, fun h => absurd rfl h⟩
    rw [hconv]
    exact hq
  | cons p rest =>
    obtain ⟨hw, -, hpm, T, hT⟩ := hps p (List.mem_cons_self _ _)
    have hT1 : p.body.length = 3 * (popcount p.chmask * T) := by
      rw [hpm, hT, Nat.mul_assoc]
    obtain ⟨q1, hp1, hI1, c1, e1, er1, -, ch1⟩ :=
      process_first (priv.init force) p rfl hw (by rw [hpm]; exact hm0) T hT1
    have hk : 0 < popcount m := by
      have := popcount_pos _ hI1.mask_ne hI1.mask_lt
      rw [c1, hpm] at this
      exact this
    obtain ⟨hr, hc2⟩ := List.chain'_cons'.mp hseq
    obtain ⟨q2, hq2, hI2, c2, er2, ch2⟩ := process_all_gapfree m rest q1 hI1 (by rw [c1, hpm])
      (fun p2 h2 => ⟨(hps p2 (List.mem_cons_of_mem _ h2)).1,
        (hps p2 (List.mem_cons_of_mem _ h2)).2.2⟩) hc2
      (fun p2 h2 => by rw [e1]; exact hr p2 h2)
    obtain ⟨q, hq, hfr, hch⟩ := finalize_output_ok q2 hI2.wok
    refine ⟨q, ?_, ?_, ?_⟩
    · rw [hconv, List.map_cons, process_all, hp1]
      simp only [hq2]
      exact hq
    · rw [hfr]
      show q2.errors = []
      rw [er2, er1]
      rfl
    · intro _ c hc ha
      have hcont : (q2.out_channel c).content
          = HDR_INVALID ++ wbytes (demux_words m c (p :: rest)) := by
        have h1 := ch1 c hc (by rw [hpm]; exact ha)
        rw [hpm, chan_words_eq_body_words m c p.body T hk (by rw [hT, Nat.mul_assoc])] at h1
        rw [ch2 c hc ha, h1, List.append_assoc, ← wbytes_append]
        rfl
      have hfile := ((hch c).1 ⟨hc, by rw [c2]; exact ha⟩).2
      rw [hcont, List.drop_left' length_HDR_INVALID] at hfile
      constructor
      · rw [hfile, List.drop_left' (length_hdr_final _)]
      · rw [hfile, List.length_append, length_hdr_final, length_wbytes, length_demux_words]

/-- Witness for C2: the file with packets 10 and 11. -/
theorem C2_gap_free_demux_witness :
    ∃ q, convert2j [ex_pre_file] false = .ok q ∧ q.errors = [] :=
  (C2_gap_free_demux [ex_packet 10, ex_packet 11] 3 ex_pre_file false (by decide)
    (fun p hp => by
      simp only [List.mem_cons, List.mem_singleton, List.not_mem_nil, or_false] at hp
      rcases hp with h | h <;> rw [h] <;>
      exact ⟨⟨by decide, by decide, by decide, by decide, by decide, fun b hb => by cases hb⟩,
        by decide, rfl, by decide⟩)
    (List.chain'_pair.mpr (by unfold next_seq; rw [W64_eq]; rfl))
    (by decide)).elim (fun q h => ⟨q, h.1, h.2.1⟩)

/-! ## Accuracy of the binary64 model -/

theorem ilog2_spec : ∀ (fuel n : Nat), 1 ≤ n → n ≤ fuel →
    2 ^ ilog2 fuel n ≤ n ∧ n < 2 ^ (ilog2 fuel n + 1)
  | 0, n, h1, h2 => by omega
  | fuel + 1, n, h1, h2 => by
    rw [ilog2]
    by_cases h : n < 2
    · rw [if_pos h]
      have : n = 1 := by omega
      rw [this]
      exact ⟨by decide, by decide⟩
    · rw [if_neg h]
      obtain ⟨a, b⟩ := ilog2_spec fuel (n / 2) (by omega) (by omega)
      rw [pow_succ] at b
      rw [pow_succ, pow_succ, pow_succ]
      generalize 2 ^ ilog2 fuel (n / 2) = P at a b ⊢
      constructor <;> omega

/-- The integer significand chosen by `round_double`: the quotient `a / b`
rounded to nearest, ties to even. -/
theorem nearest_spec (a b : Nat) (hb : 0 < b) :
    ∃ m1 : Nat,
      m1 = (if 2 * (a % b) > b ∨ (2 * (a % b) = b ∧ a / b % 2 = 1) then a / b + 1 else a / b) ∧
      2 * (m1 * b) ≤ 2 * a + b ∧ 2 * a ≤ 2 * (m1 * b) + b := by
  have h1 : b * (a / b) + a % b = a := Nat.div_add_mod a b
  have h2 : a % b < b := Nat.mod_lt a hb
  refine ⟨_, rfl, ?_⟩
  by_cases hc : 2 * (a % b) > b ∨ (2 * (a % b) = b ∧ a / b % 2 = 1)
  · rw [if_pos hc, Nat.add_mul, Nat.one_mul, Nat.mul_comm (a / b) b]
    have : b ≤ 2 * (a % b) := by
      rcases hc with h | h
      · omega
      · omega
    constructor <;> omega
  · rw [if_neg hc, Nat.mul_comm (a / b) b]
    have : 2 * (a % b) ≤ b := by
      by_contra hx
      exact hc (Or.inl (by omega))
    constructor <;> omega

theorem round_double_nat (n d : Nat) (hn : 0 < n) (hd : 0 < d) :
    ∃ sh m1 : Nat, round_double n d = (m1 * 2 ^ ilog2 n n, 2 ^ sh) ∧
      2 * (m1 * (d * 2 ^ ilog2 n n)) ≤ 2 * (n * 2 ^ sh) + d * 2 ^ ilog2 n n ∧
      2 * (n * 2 ^ sh) ≤ 2 * (m1 * (d * 2 ^ ilog2 n n)) + d * 2 ^ ilog2 n n ∧
      d * 2 ^ ilog2 n n * 2 ^ 52 ≤ n * 2 ^ sh := by
  obtain ⟨n1, n2⟩ := ilog2_spec n n hn (Nat.le_refl _)
  obtain ⟨d1, d2⟩ := ilog2_spec d d hd (Nat.le_refl _)
  have hb : 0 < d * 2 ^ ilog2 n n := Nat.mul_pos hd (Nat.pow_pos (by decide))
  by_cases hup : n * 2 ^ (52 + ilog2 d d) < d * 2 ^ ilog2 n n * 2 ^ 52
  · obtain ⟨m1, hm1, h1, h2⟩ := nearest_spec (n * 2 ^ (53 + ilog2 d d)) (d * 2 ^ ilog2 n n) hb
    refine ⟨53 + ilog2 d d, m1, ?_, h1, h2, ?_⟩
    · unfold round_double
      simp only [Nat.shiftLeft_eq, hup, decide_True, if_true]
      have e : 2 * (n * 2 ^ (52 + ilog2 d d)) = n * 2 ^ (53 + ilog2 d d) := by
        have : 53 + ilog2 d d = (52 + ilog2 d d) + 1 := by omega
        rw [this, pow_succ]
        ring
      rw [e, hm1]
    · have e1 : (2 : Nat) ^ (53 + ilog2 d d) = 2 ^ 52 * 2 ^ (ilog2 d d + 1) := by
        rw [← pow_add]
        congr 1
        omega
      rw [e1]
      calc d * 2 ^ ilog2 n n * 2 ^ 52
          ≤ 2 ^ (ilog2 d d + 1) * n * 2 ^ 52 :=
            Nat.mul_le_mul_right _ (Nat.mul_le_mul (Nat.le_of_lt d2) n1)
        _ = n * (2 ^ 52 * 2 ^ (ilog2 d d + 1)) := by ring
  · obtain ⟨m1, hm1, h1, h2⟩ := nearest_spec (n * 2 ^ (52 + ilog2 d d)) (d * 2 ^ ilog2 n n) hb
    refine ⟨52 + ilog2 d d, m1, ?_, h1, h2, Nat.le_of_not_lt hup⟩
    unfold round_double
    simp only [Nat.shiftLeft_eq, hup, decide_False, if_false, Bool.false_eq_true]
    rw [hm1]

/-- The value `round_double n d` is within a relative `2^-53` of `n / d`. -/
theorem round_double_spec (n d : Nat) (hn : 0 < n) (hd : 0 < d) :
    0 < (round_double n d).1 ∧ 0 < (round_double n d).2 ∧
    ((n : ℚ) / d) * (1 - 1 / 2 ^ 53)
      ≤ ((round_double n d).1 : ℚ) / ((round_double n d).2 : ℚ) ∧
    ((round_double n d).1 : ℚ) / ((round_double n d).2 : ℚ)
      ≤ ((n : ℚ) / d) * (1 + 1 / 2 ^ 53) := by
  obtain ⟨sh, m1, he, h1, h2, h3⟩ := round_double_nat n d hn hd
  rw [he]
  simp only
  have hS : 0 < 2 ^ ilog2 n n := Nat.pow_pos (by decide)
  have hH : 0 < 2 ^ sh := Nat.pow_pos (by decide)
  have hm : 0 < m1 := by
    rcases Nat.eq_zero_or_pos m1 with h | h
    · rw [h, Nat.zero_mul, Nat.mul_zero, Nat.zero_add] at h2
      have hb : 0 < d * 2 ^ ilog2 n n := Nat.mul_pos hd hS
      have : d * 2 ^ ilog2 n n * 1 ≤ d * 2 ^ ilog2 n n * 2 ^ 52 :=
        Nat.mul_le_mul_left _ (by decide)
      omega
    · exact h
  have q1 : 2 * ((m1 : ℚ) * ((d : ℚ) * (2 ^ ilog2 n n : ℕ)))
      ≤ 2 * ((n : ℚ) * (2 ^ sh : ℕ)) + (d : ℚ) * (2 ^ ilog2 n n : ℕ) := by exact_mod_cast h1
  have q2 : 2 * ((n : ℚ) * (2 ^ sh : ℕ))
      ≤ 2 * ((m1 : ℚ) * ((d : ℚ) * (2 ^ ilog2 n n : ℕ))) + (d : ℚ) * (2 ^ ilog2 n n : ℕ) := by
    exact_mod_cast h2
  have q3 : (d : ℚ) * (2 ^ ilog2 n n : ℕ) * 2 ^ 52 ≤ (n : ℚ) * (2 ^ sh : ℕ) := by
    exact_mod_cast h3
  have hdq : (0 : ℚ) < d := by exact_mod_cast hd
  have hHq : (0 : ℚ) < ((2 ^ sh : ℕ) : ℚ) := by exact_mod_cast hH
  refine ⟨Nat.mul_pos hm hS, hH, ?_, ?_⟩
  · rw [div_mul_eq_mul_div, div_le_div_iff₀ hdq hHq]
    push_cast
    push_cast at q1 q2 q3
    nlinarith [q1, q2, q3]
  · rw [div_mul_eq_mul_div, div_le_div_iff₀ hHq hdq]
    push_cast
    push_cast at q1 q2 q3
    nlinarith [q1, q2, q3]

/-- Four roundings and the rounded constant `1e-9` keep the computed rate
within `(1-u)^2/(1+u)^3` and `(1+u)^2/(1-u)^3` of the exact one. -/
theorem rate_chain (u vt vD vc vF k dt c : ℚ) (hu0 : 0 < u) (hu1 : u < 1)
    (hdt : 0 < dt) (hc : 0 < c)
    (hk1 : (1 - u) / 1000000000 ≤ k) (hk2 : k ≤ (1 + u) / 1000000000)
    (t1 : dt * (1 - u) ≤ vt) (t2 : vt ≤ dt * (1 + u))
    (D1 : vt * k * (1 - u) ≤ vD) (D2 : vD ≤ vt * k * (1 + u))
    (c1 : c * (1 - u) ≤ vc) (c2 : vc ≤ c * (1 + u))
    (F1 : vc / vD * (1 - u) ≤ vF) (F2 : vF ≤ vc / vD * (1 + u)) :
    c / (dt / 1000000000) * ((1 - u) ^ 2 / (1 + u) ^ 3) ≤ vF ∧
    vF ≤ c / (dt / 1000000000) * ((1 + u) ^ 2 / (1 - u) ^ 3) := by
  have hm : 0 < 1 - u := by linarith
  have hp : 0 < 1 + u := by linarith
  have hk0 : 0 < k := lt_of_lt_of_le (by positivity) hk1
  have hvt : 0 < vt := lt_of_lt_of_le (by positivity) t1
  have hvc : 0 < vc := lt_of_lt_of_le (by positivity) c1
  have hDL : dt * (1 - u) * ((1 - u) / 1000000000) * (1 - u) ≤ vD := by
    refine le_trans ?_ D1
    gcongr
  have hDU : vD ≤ dt * (1 + u) * ((1 + u) / 1000000000) * (1 + u) := by
    refine le_trans D2 ?_
    gcongr
  have hDLpos : 0 < dt * (1 - u) * ((1 - u) / 1000000000) * (1 - u) := by positivity
  have hvD : 0 < vD := lt_of_lt_of_le hDLpos hDL
  constructor
  · refine le_trans ?_ F1
    have h1 : c * (1 - u) / (dt * (1 + u) * ((1 + u) / 1000000000) * (1 + u)) ≤ vc / vD :=
      div_le_div₀ (le_of_lt hvc) c1 hvD hDU
    have e : c / (dt / 1000000000) * ((1 - u) ^ 2 / (1 + u) ^ 3)
        = c * (1 - u) / (dt * (1 + u) * ((1 + u) / 1000000000) * (1 + u)) * (1 - u) := by
      field_simp
      ring
    rw [e]
    gcongr
  · refine le_trans F2 ?_
    have h1 : vc / vD ≤ c * (1 + u) / (dt * (1 - u) * ((1 - u) / 1000000000) * (1 - u)) :=
      div_le_div₀ (by positivity) c2 hDLpos hDL
    have e : c / (dt / 1000000000) * ((1 + u) ^ 2 / (1 - u) ^ 3)
        = c * (1 + u) / (dt * (1 - u) * ((1 - u) / 1000000000) * (1 - u)) * (1 + u) := by
      field_simp
      ring
    rw [e]
    gcongr

theorem nano_bounds :
    (1 - 1 / 2 ^ 53 : ℚ) / 1000000000 ≤ (NANO_NUM : ℚ) / (NANO_DEN : ℚ) ∧
    (NANO_NUM : ℚ) / (NANO_DEN : ℚ) ≤ (1 + 1 / 2 ^ 53 : ℚ) / 1000000000 := by
  unfold NANO_NUM NANO_DEN
  constructor <;> norm_num

/-- The value `Fsamp` the rate check computes, for a positive count and time
difference: the test is a test on that value, and the value is the exact rate up
to the rounding of the four operations and of the constant `1e-9`. -/
theorem Fsamp_value (count dt : Nat) (hc : 0 < count) (hdt : 0 < dt) :
    ∃ vF : ℚ, (Fsamp_out_of_range count dt = true ↔ vF < 900 ∨ 290000 < vF) ∧
      exact_rate count dt * ((1 - 1 / 2 ^ 53) ^ 2 / (1 + 1 / 2 ^ 53) ^ 3) ≤ vF ∧
      vF ≤ exact_rate count dt * ((1 + 1 / 2 ^ 53) ^ 2 / (1 - 1 / 2 ^ 53) ^ 3) := by
  obtain ⟨t, ht⟩ : ∃ t, t = round_double dt 1 := ⟨_, rfl⟩
  obtain ⟨tp1, tp2, tl, tu⟩ := round_double_spec dt 1 hdt (by decide)
  rw [← ht] at tp1 tp2 tl tu
  obtain ⟨D, hD⟩ : ∃ D, D = round_double (t.1 * NANO_NUM) (t.2 * NANO_DEN) := ⟨_, rfl⟩
  obtain ⟨Dp1, Dp2, Dl, Du⟩ := round_double_spec (t.1 * NANO_NUM) (t.2 * NANO_DEN)
    (Nat.mul_pos tp1 (by decide)) (Nat.mul_pos tp2 (by decide))
  rw [← hD] at Dp1 Dp2 Dl Du
  obtain ⟨c, hcd⟩ : ∃ c, c = round_double count 1 := ⟨_, rfl⟩
  obtain ⟨cp1, cp2, cl, cu⟩ := round_double_spec count 1 hc (by decide)
  rw [← hcd] at cp1 cp2 cl cu
  obtain ⟨F, hF⟩ : ∃ F, F = round_double (c.1 * D.2) (c.2 * D.1) := ⟨_, rfl⟩
  obtain ⟨Fp1, Fp2, Fl, Fu⟩ := round_double_spec (c.1 * D.2) (c.2 * D.1)
    (Nat.mul_pos cp1 Dp2) (Nat.mul_pos cp2 Dp1)
  rw [← hF] at Fp1 Fp2 Fl Fu
  have hval : Fsamp_out_of_range count dt
      = (decide (F.1 < 900 * F.2) || decide (F.1 > 290000 * F.2)) := by
    unfold Fsamp_out_of_range
    rw [if_neg (Nat.ne_of_gt hdt), if_neg (Nat.ne_of_gt hc), hF, hcd, hD, ht]
  have hF2 : (0 : ℚ) < (F.2 : ℚ) := by exact_mod_cast Fp2
  have hD1 : (0 : ℚ) < (D.1 : ℚ) := by exact_mod_cast Dp1
  have hD2 : (0 : ℚ) < (D.2 : ℚ) := by exact_mod_cast Dp2
  have hc2 : (0 : ℚ) < (c.2 : ℚ) := by exact_mod_cast cp2
  have ht2 : (0 : ℚ) < (t.2 : ℚ) := by exact_mod_cast tp2
  refine ⟨(F.1 : ℚ) / (F.2 : ℚ), ?_, ?_⟩
  · rw [hval, Bool.or_eq_true, decide_eq_true_iff, decide_eq_true_iff, div_lt_iff₀ hF2,
      lt_div_iff₀ hF2]
    constructor
    · rintro (h | h)
      · left; exact_mod_cast h
      · right; exact_mod_cast h
    · rintro (h | h)
      · left; exact_mod_cast h
      · right; exact_mod_cast h
  · simp only [Nat.cast_one, div_one] at tl tu cl cu
    have eD : ((t.1 * NANO_NUM : ℕ) : ℚ) / ((t.2 * NANO_DEN : ℕ) : ℚ)
        = (t.1 : ℚ) / (t.2 : ℚ) * ((NANO_NUM : ℚ) / (NANO_DEN : ℚ)) := by
      push_cast
      rw [mul_div_mul_comm]
    have eF : ((c.1 * D.2 : ℕ) : ℚ) / ((c.2 * D.1 : ℕ) : ℚ)
        = (c.1 : ℚ) / (c.2 : ℚ) / ((D.1 : ℚ) / (D.2 : ℚ)) := by
      push_cast
      field_simp
    rw [eD] at Dl Du
    rw [eF] at Fl Fu
    unfold exact_rate
    exact rate_chain (1 / 2 ^ 53) _ _ _ _ _ (dt : ℚ) (count : ℚ) (by norm_num) (by norm_num)
      (by exact_mod_cast hdt) (by exact_mod_cast hc) nano_bounds.1 nano_bounds.2
      tl tu Dl Du cl cu Fl Fu

/-- The rate check against the exact rate: a rate outside `[900, 290000]` by
more than a relative `2^-50` is out of range for the check, and a rate inside
by that margin is in range. -/
theorem Fsamp_margin (count dt : Nat) (hdt : 0 < dt) :
    (exact_rate count dt < 900 * (1 - 1 / 2 ^ 50) ∨
        290000 * (1 + 1 / 2 ^ 50) < exact_rate count dt →
      Fsamp_out_of_range count dt = true) ∧
    (900 * (1 + 1 / 2 ^ 50) ≤ exact_rate count dt ∧
        exact_rate count dt ≤ 290000 * (1 - 1 / 2 ^ 50) →
      Fsamp_out_of_range count dt = false) := by
  rcases Nat.eq_zero_or_pos count with hc | hc
  · subst hc
    have h0 : exact_rate 0 dt = 0 := by unfold exact_rate; simp
    have hv : Fsamp_out_of_range 0 dt = true := by
      unfold Fsamp_out_of_range
      rw [if_neg (Nat.ne_of_gt hdt), if_pos rfl]
    rw [h0, hv]
    refine ⟨fun _ => rfl, fun h => ?_⟩
    exfalso
    have := h.1
    norm_num at this
  · obtain ⟨vF, hiff, lo, hi⟩ := Fsamp_value count dt hc hdt
    have hA : (1 : ℚ) ≤ (1 + 1 / 2 ^ 50) * ((1 - 1 / 2 ^ 53) ^ 2 / (1 + 1 / 2 ^ 53) ^ 3) := by
      norm_num
    have hB : (1 - 1 / 2 ^ 50) * ((1 + 1 / 2 ^ 53) ^ 2 / (1 - 1 / 2 ^ 53) ^ 3) ≤ (1 : ℚ) := by
      norm_num
    have hA0 : (0 : ℚ) < (1 - 1 / 2 ^ 53) ^ 2 / (1 + 1 / 2 ^ 53) ^ 3 := by norm_num
    have hB0 : (0 : ℚ) < (1 + 1 / 2 ^ 53) ^ 2 / (1 - 1 / 2 ^ 53) ^ 3 := by norm_num
    generalize (1 - 1 / 2 ^ 53 : ℚ) ^ 2 / (1 + 1 / 2 ^ 53) ^ 3 = A at hA hA0 lo
    generalize (1 + 1 / 2 ^ 53 : ℚ) ^ 2 / (1 - 1 / 2 ^ 53) ^ 3 = B at hB hB0 hi
    generalize (1 / 2 ^ 50 : ℚ) = e at hA hB
    generalize exact_rate count dt = r at lo hi ⊢
    constructor
    · intro h
      rw [hiff]
      rcases h with h | h
      · left
        have h1 : r * B < 900 * (1 - e) * B := mul_lt_mul_of_pos_right h hB0
        have h2 : 900 * (1 - e) * B = 900 * ((1 - e) * B) := by ring
        have h3 : 900 * ((1 - e) * B) ≤ 900 := by linarith
        linarith
      · right
        have h1 : 290000 * (1 + e) * A < r * A := mul_lt_mul_of_pos_right h hA0
        have h2 : 290000 * (1 + e) * A = 290000 * ((1 + e) * A) := by ring
        have h3 : (290000 : ℚ) ≤ 290000 * ((1 + e) * A) := by linarith
        linarith
    · rintro ⟨h1, h2⟩
      have hn : ¬ (vF < 900 ∨ 290000 < vF) := by
        rintro (h | h)
        · have a1 : 900 * (1 + e) * A ≤ r * A := mul_le_mul_of_nonneg_right h1 (le_of_lt hA0)
          have a2 : 900 * (1 + e) * A = 900 * ((1 + e) * A) := by ring
          have a3 : (900 : ℚ) ≤ 900 * ((1 + e) * A) := by linarith
          linarith
        · have a1 : r * B ≤ 290000 * (1 - e) * B := mul_le_mul_of_nonneg_right h2 (le_of_lt hB0)
          have a2 : 290000 * (1 - e) * B = 290000 * ((1 - e) * B) := by ring
          have a3 : 290000 * ((1 - e) * B) ≤ 290000 := by linarith
          linarith
      cases hv : Fsamp_out_of_range count dt with
      | false => rfl
      | true => exact absurd (hiff.mp hv) hn

/-! ## C8 -/

/-- Without wrap-around of the product, the integer the code divides is the
exact quotient of the specification. -/
theorem Fsamp_spec_eq_exact (pvt : priv) (seqno nsec : Nat) (hI : Inv pvt)
    (hnw : gap_nmissing pvt seqno * pvt.last_nsamp < W64) :
    gap_count pvt seqno = gap_nmissing pvt seqno * pvt.last_nsamp / popcount pvt.last_chmask ∧
    Fsamp_spec pvt seqno nsec = exact_rate (gap_count pvt seqno) (gap_dt pvt nsec) := by
  have hc : gap_count pvt seqno
      = gap_nmissing pvt seqno * pvt.last_nsamp / popcount pvt.last_chmask := by
    unfold gap_count
    rw [Nat.mod_eq_of_lt hnw]
  refine ⟨hc, ?_⟩
  obtain ⟨T, hT⟩ := hI.nsamp
  have hk := popcount_pos _ hI.mask_ne hI.mask_lt
  have hkq : (popcount pvt.last_chmask : ℚ) ≠ 0 := by
    exact_mod_cast Nat.ne_of_gt hk
  have hn : gap_nmissing pvt seqno * pvt.last_nsamp / popcount pvt.last_chmask
      = gap_nmissing pvt seqno * T := by
    rw [hT, Nat.mul_left_comm]
    exact Nat.mul_div_cancel_left _ hk
  unfold Fsamp_spec exact_rate
  rw [hc, hn, hT]
  push_cast
  congr 1
  field_simp
  ring

theorem Fsamp_spec_eq (pvt : priv) (seqno nsec n s k d : Nat)
    (h1 : gap_nmissing pvt seqno = n) (h2 : pvt.last_nsamp = s)
    (h3 : popcount pvt.last_chmask = k) (h4 : gap_dt pvt nsec = d) :
    Fsamp_spec pvt seqno nsec = (n : ℚ) * (s : ℚ) / (k : ℚ) / ((d : ℚ) / 1000000000) := by
  unfold Fsamp_spec
  rw [h1, h2, h3, h4]

/-- The gap branch with the product `nmissing * last_nsamp` below `2^64` and a
non-zero time difference, against the exact rate. -/
theorem rate_gate (force : Bool) (pvt : priv) (seqno nsec : Nat)
    (hR : Reachable force pvt) (hf : pvt.first = false)
    (hnw : gap_nmissing pvt seqno * pvt.last_nsamp < W64)
    (hdt : 0 < gap_dt pvt nsec) :
    ((Fsamp_spec pvt seqno nsec < 900 * (1 - 1 / 2 ^ 50) ∨
          290000 * (1 + 1 / 2 ^ 50) < Fsamp_spec pvt seqno nsec) →
        gap_rejected pvt seqno nsec = !force) ∧
    (900 * (1 + 1 / 2 ^ 50) ≤ Fsamp_spec pvt seqno nsec ∧
          Fsamp_spec pvt seqno nsec ≤ 290000 * (1 - 1 / 2 ^ 50) →
        gap_rejected pvt seqno nsec = false) ∧
    (force = true → gap_rejected pvt seqno nsec = false) ∧
    (gap_rejected pvt seqno nsec = true ↔
      force = false ∧
        Fsamp_out_of_range
          (gap_nmissing pvt seqno * pvt.last_nsamp / popcount pvt.last_chmask)
          (gap_dt pvt nsec) = true) := by
  obtain ⟨hI, hfo⟩ := Reachable_Inv_of_not_first force pvt hR hf
  obtain ⟨hc, he⟩ := Fsamp_spec_eq_exact pvt seqno nsec hI hnw
  obtain ⟨m1, m2⟩ := Fsamp_margin (gap_count pvt seqno) (gap_dt pvt nsec) hdt
  rw [← he] at m1 m2
  refine ⟨fun h => ?_, fun h => ?_, fun h => ?_, ?_⟩
  · unfold gap_rejected
    rw [hfo, m1 h, Bool.and_true]
  · unfold gap_rejected
    rw [m2 h, Bool.and_false]
  · unfold gap_rejected
    rw [hfo, h]
    rfl
  · unfold gap_rejected
    rw [hfo, ← hc]
    cases force <;> simp

theorem ex_pre_state_reachable (force : Bool) (h : succeeded (convert_all [ex_pre_file] (priv.init force)) = true) :
    Reachable force (ex_pre_state force) :=
  Reachable_convert_all force [ex_pre_file] _ _ Reachable.init (eq_ok_of_succeeded _ h)

/-- C8 (amended).  In a state reached after a sample packet, for a same-mask
packet that is not the next in sequence, with the product
`nmissing * last_nsamp` below `2^64` and a non-zero time difference, and with
`Fsamp_spec` the exact rate `(missing * last_sample_count / active_channels) /
deltaT`: when the rate is outside `[900, 290000]` by more than a relative
`2^-50` and `force` is false, the gap branch throws the inconsistency error;
when the rate is inside the range by that margin, or `force` is true, the
inconsistency error is not thrown, and if every active channel file stays
below `2^63` bytes the branch returns normally, one entry has been appended to
the diagnostics and every active channel has received `nmissing` times
`last_nsamp / nchan` copies of its last value; in every case the inconsistency
error is thrown exactly when `force` is false and the binary64 test on the
unwrapped count holds. -/
theorem C8_rate_gate (force : Bool) (pvt : priv) (seqno nsec : Nat)
    (hR : Reachable force pvt) (hf : pvt.first = false)
    (hgap : (pvt.last_seqno + 1) % W64 ≠ seqno)
    (hnw : gap_nmissing pvt seqno * pvt.last_nsamp < W64)
    (hdt : 0 < gap_dt pvt nsec) :
    ((Fsamp_spec pvt seqno nsec < 900 * (1 - 1 / 2 ^ 50) ∨
          290000 * (1 + 1 / 2 ^ 50) < Fsamp_spec pvt seqno nsec) ∧ force = false →
        gap_recover pvt pvt.last_chmask seqno nsec = .error .inconsistency) ∧
    ((900 * (1 + 1 / 2 ^ 50) ≤ Fsamp_spec pvt seqno nsec ∧
          Fsamp_spec pvt seqno nsec ≤ 290000 * (1 - 1 / 2 ^ 50)) ∨ force = true →
        gap_recover pvt pvt.last_chmask seqno nsec ≠ .error .inconsistency ∧
        ((∀ j, j < 32 → active pvt.last_chmask j = true →
            (pvt.out_channel j).content.length
              + 4 * (gap_nmissing pvt seqno * (pvt.last_nsamp / popcount pvt.last_chmask))
              < 2 ^ 63) →
          ∃ q, gap_recover pvt pvt.last_chmask seqno nsec = .ok q ∧
            q.errors = pvt.errors ++ [gap_diag pvt seqno nsec] ∧
            ∀ j, j < 32 → active pvt.last_chmask j = true →
              (q.out_channel j).content = (pvt.out_channel j).content
                ++ rep (gap_nmissing pvt seqno * (pvt.last_nsamp / popcount pvt.last_chmask))
                    (pvt.last_channel j))) ∧
    (gap_recover pvt pvt.last_chmask seqno nsec = .error .inconsistency ↔
      force = false ∧
        Fsamp_out_of_range
          (gap_nmissing pvt seqno * pvt.last_nsamp / popcount pvt.last_chmask)
          (gap_dt pvt nsec) = true) := by
  obtain ⟨hI, -⟩ := Reachable_Inv_of_not_first force pvt hR hf
  obtain ⟨g1, g2, g3, g4⟩ := rate_gate force pvt seqno nsec hR hf hnw hdt
  obtain ⟨T, hT⟩ := hI.nsamp
  have hacc : gap_rejected pvt seqno nsec = false →
      ∃ q, gap_recover pvt pvt.last_chmask seqno nsec = .ok q ∧
        q.errors = pvt.errors ++ [gap_diag pvt seqno nsec] ∧
        ∀ j, j < 32 → active pvt.last_chmask j = true →
          (q.out_channel j).content = (pvt.out_channel j).content
            ++ rep (gap_nmissing pvt seqno * (pvt.last_nsamp / popcount pvt.last_chmask))
                (pvt.last_channel j) := by
    intro hrej
    obtain ⟨q, hq, hfr, hch⟩ :=
      gap_recover_inject pvt seqno nsec T hI.toInv0 hT hI.nsamp_lt hgap hrej
    refine ⟨q, hq, by rw [hfr], ?_⟩
    intro j hj ha
    rw [div_popcount pvt hI T hT]
    exact ((hch j).1 ⟨hj, ha⟩).2
  refine ⟨?_, ?_, ?_⟩
  · rintro ⟨ho, hff⟩
    rw [gap_recover_gap pvt seqno nsec hgap, g1 ho, hff]
    rfl
  · intro hor
    have hrej : gap_rejected pvt seqno nsec = false := by
      rcases hor with h | h
      · exact g2 h
      · exact g3 h
    obtain ⟨q, hq, hrest⟩ := hacc hrej
    refine ⟨?_, fun _ => ⟨q, hq, hrest⟩⟩
    rw [hq]
    intro h
    cases h
  · rw [← g4]
    constructor
    · intro h
      cases hr : gap_rejected pvt seqno nsec with
      | true => rfl
      | false =>
        obtain ⟨q, hq, -⟩ := hacc hr
        rw [hq] at h
        cases h
    · intro hr
      rw [gap_recover_gap pvt seqno nsec hgap, hr]
      rfl

/-- Witness for C8: after packets 10 and 11 with `force` false, packet 13
stamped 8 ms after packet 11 has the rate 500 Hz and is rejected; stamped 4 ms
after packet 11 it has the rate 1000 Hz and passes the check. -/
theorem C8_rate_gate_witness :
    gap_recover (ex_pre_state false) (ex_pre_state false).last_chmask 13 ex_nsec13
      = .error .inconsistency ∧
    gap_recover (ex_pre_state false) (ex_pre_state false).last_chmask 13 100048000000
      ≠ .error .inconsistency :=
  ⟨(C8_rate_gate false (ex_pre_state false) 13 ex_nsec13
      (ex_pre_state_reachable false (by decide!))
      (by decide!) (by decide!) (by decide!) (by decide!)).1
      ⟨Or.inl (by
        rw [Fsamp_spec_eq (ex_pre_state false) 13 ex_nsec13 1 8 2 8000000
          (by decide!) (by decide!) (by decide!) (by decide!)]
        norm_num), rfl⟩,
   ((C8_rate_gate false (ex_pre_state false) 13 100048000000
      (ex_pre_state_reachable false (by decide!))
      (by decide!) (by decide!) (by decide!) (by decide!)).2.1
      (Or.inl (by
        rw [Fsamp_spec_eq (ex_pre_state false) 13 100048000000 1 8 2 4000000
          (by decide!) (by decide!) (by decide!) (by decide!)]
        norm_num))).1⟩

/-- A gap that passes the rate check: the inconsistency error is not thrown and
control reaches the placeholder loop. -/
theorem gap_recover_passed (force : Bool) (pvt : priv) (seqno nsec : Nat)
    (hR : Reachable force pvt) (hf : pvt.first = false)
    (h : (pvt.last_seqno + 1) % W64 ≠ seqno) (hrej : gap_rejected pvt seqno nsec = false) :
    gap_recover pvt pvt.last_chmask seqno nsec
      = inject pvt.last_chmask (gap_nmissing pvt seqno)
          { pvt with errors := pvt.errors ++ [gap_diag pvt seqno nsec] } ∧
    gap_recover pvt pvt.last_chmask seqno nsec ≠ .error .inconsistency ∧
    ∃ q, gap_recover pvt pvt.last_chmask seqno nsec = .ok q := by
  obtain ⟨hI, -⟩ := Reachable_Inv_of_not_first force pvt hR hf
  have e := gap_recover_gap pvt seqno nsec h
  rw [hrej] at e
  obtain ⟨T, hT⟩ := hI.nsamp
  obtain ⟨q, hq, -, -⟩ :=
    gap_recover_inject pvt seqno nsec T hI.toInv0 hT hI.nsamp_lt h hrej
  refine ⟨e, ?_, q, hq⟩
  rw [hq]
  intro hc
  cases hc

theorem gap_recover_rejected (pvt : priv) (seqno nsec : Nat)
    (h : (pvt.last_seqno + 1) % W64 ≠ seqno) (hrej : gap_rejected pvt seqno nsec = true) :
    gap_recover pvt pvt.last_chmask seqno nsec = .error .inconsistency := by
  rw [gap_recover_gap pvt seqno nsec h, hrej]
  rfl

/-- C8, as stated, fails in two ways, both after packets 10 and 11 (8 samples
for 2 channels in the last packet) with `force` false.  First, a packet with
the sequence number `12 + 2^61 + 1` stamped 4 ms after packet 11: `2^61 + 1`
packets are missing, the rate of the claim is `(2^61 + 1) * 1000` Hz, far
above 290 kHz, but the product `nmissing * last_nsamp` is `2^64 + 8`, the code
divides its low 64 bits, `8`, by the channel count and tests 1000 Hz; the
inconsistency error is not thrown and control reaches the placeholder loop.
Second, a packet with the sequence number `12 + 9860029590` stamped
136000408137931 ns after packet 11: the product does not wrap, the exact rate
is above 290 kHz, the binary64 quotient is rounded to `290000.0`, the check
passes and the gap branch returns normally. -/
theorem C8_counterexample :
    ((ex_pre_state false).force = false ∧ (ex_pre_state false).first = false ∧
      ((ex_pre_state false).last_seqno + 1) % W64 ≠ 2305843009213693965 ∧
      gap_nmissing (ex_pre_state false) 2305843009213693965 = 2305843009213693953 ∧
      (ex_pre_state false).last_nsamp = 8 ∧
      popcount (ex_pre_state false).last_chmask = 2 ∧
      gap_dt (ex_pre_state false) 100048000000 = 4000000 ∧
      Fsamp_spec (ex_pre_state false) 2305843009213693965 100048000000
        = 2305843009213693953000 ∧
      gap_count (ex_pre_state false) 2305843009213693965 = 4 ∧
      gap_recover (ex_pre_state false) (ex_pre_state false).last_chmask
          2305843009213693965 100048000000 ≠ .error .inconsistency ∧
      gap_recover (ex_pre_state false) (ex_pre_state false).last_chmask
          2305843009213693965 100048000000
        = inject (ex_pre_state false).last_chmask
            (gap_nmissing (ex_pre_state false) 2305843009213693965)
            { ex_pre_state false with
              errors := (ex_pre_state false).errors
                ++ [gap_diag (ex_pre_state false) 2305843009213693965 100048000000] }) ∧
    (((ex_pre_state false).last_seqno + 1) % W64 ≠ 9860029602 ∧
      gap_nmissing (ex_pre_state false) 9860029602 = 9860029590 ∧
      gap_dt (ex_pre_state false) 136100452137931 = 136000408137931 ∧
      gap_nmissing (ex_pre_state false) 9860029602 * (ex_pre_state false).last_nsamp < W64 ∧
      gap_count (ex_pre_state false) 9860029602 = 39440118360 ∧
      290000 < Fsamp_spec (ex_pre_state false) 9860029602 136100452137931 ∧
      Fsamp_out_of_range 39440118360 136000408137931 = false ∧
      ∃ q, gap_recover (ex_pre_state false) (ex_pre_state false).last_chmask
          9860029602 136100452137931 = .ok q) :=
  ⟨⟨by decide!, by decide!, by decide!, by decide!, by decide!, by decide!, by decide!,
    by
      rw [Fsamp_spec_eq (ex_pre_state false) 2305843009213693965 100048000000
        2305843009213693953 8 2 4000000 (by decide!) (by decide!) (by decide!) (by decide!)]
      norm_num,
    by decide!,
    (gap_recover_passed false (ex_pre_state false) 2305843009213693965 100048000000
      (ex_pre_state_reachable false (by decide!)) (by decide!) (by decide!) (by decide!)).2.1,
    (gap_recover_passed false (ex_pre_state false) 2305843009213693965 100048000000
      (ex_pre_state_reachable false (by decide!)) (by decide!) (by decide!) (by decide!)).1⟩,
   ⟨by decide!, by decide!, by decide!, by decide!, by decide!,
    by
      rw [Fsamp_spec_eq (ex_pre_state false) 9860029602 136100452137931
        9860029590 8 2 136000408137931 (by decide!) (by decide!) (by decide!) (by decide!)]
      norm_num,
    by decide!,
    (gap_recover_passed false (ex_pre_state false) 9860029602 136100452137931
      (ex_pre_state_reachable false (by decide!)) (by decide!) (by decide!) (by decide!)).2.2⟩⟩

/-! ## C6 -/

/-- With `force` set, a packet that repeats `last_seqno` is taken for a gap of
`2^64 - 1` packets: no error is thrown, the entry is appended, the first pass
of the placeholder loop writes `T` copies of the last value to every active
channel, and the loop goes on with `2^64 - 2` further passes. -/
theorem regress_replay (pvt : priv) (seqno nsec T : Nat) (hR : Reachable true pvt)
    (hf : pvt.first = false) (hs : seqno = pvt.last_seqno) (hnw : pvt.last_seqno + 1 < W64)
    (hT : pvt.last_nsamp = popcount pvt.last_chmask * T) :
    gap_nmissing pvt seqno = W64 - 1 ∧ gap_rejected pvt seqno nsec = false ∧
    ∃ q, inject_while pvt.last_chmask W64
          (pvt.last_nsamp, { pvt with errors := pvt.errors ++ [gap_diag pvt seqno nsec] })
          = .ok (0, q) ∧
      q.errors = pvt.errors ++ [gap_diag pvt seqno nsec] ∧
      (∀ j, j < 32 → active pvt.last_chmask j = true →
        (q.out_channel j).content
          = (pvt.out_channel j).content ++ rep T (pvt.last_channel j)) ∧
      gap_recover pvt pvt.last_chmask seqno nsec = inject pvt.last_chmask (W64 - 2) q := by
  obtain ⟨hI, hfo⟩ := Reachable_Inv_of_not_first true pvt hR hf
  obtain ⟨hgap, hnm⟩ := gap_nmissing_regress pvt seqno (by rw [hs]) hnw
  have hnm1 : gap_nmissing pvt seqno = W64 - 1 := by
    rw [hnm, hs]
    congr 1
    omega
  have hrej : gap_rejected pvt seqno nsec = false := by
    unfold gap_rejected
    rw [hfo]
    rfl
  refine ⟨hnm1, hrej, ?_⟩
  have hk := popcount_pos _ hI.mask_ne hI.mask_lt
  rw [popcount_eq_cnt] at hk hT
  have hlt : cnt pvt.last_chmask (List.range 32) * T < W64 := by
    rw [← hT]; exact hI.nsamp_lt
  have ht : T < W64 := lt_of_le_of_lt (Nat.le_mul_of_pos_left T hk) hlt
  obtain ⟨q, hq, hfr, hch⟩ := inject_while_ok pvt.last_chmask hk T W64
    { pvt with errors := pvt.errors ++ [gap_diag pvt seqno nsec] } ht hlt hI.wok
  have hq1 : inject_while pvt.last_chmask W64
      (pvt.last_nsamp, { pvt with errors := pvt.errors ++ [gap_diag pvt seqno nsec] })
      = .ok (0, q) := by
    rw [← hT] at hq
    exact hq
  refine ⟨q, hq1, by rw [hfr], fun j hj ha => ((hch j).1 ⟨hj, ha⟩).2, ?_⟩
  have h2 : W64 - 1 = (W64 - 2) + 1 := by
    rw [W64_eq]
  rw [gap_recover_gap pvt seqno nsec hgap, hrej, hnm1, h2]
  simp only [Bool.false_eq_true, if_false]
  rw [inject]
  have hq2 : inject_while pvt.last_chmask W64
      (({ pvt with errors := pvt.errors ++ [gap_diag pvt seqno nsec] } : priv).last_nsamp,
        { pvt with errors := pvt.errors ++ [gap_diag pvt seqno nsec] })
      = .ok (0, q) := hq1
  rw [hq2]

/-- C6 at its failing input: after packets 10 and 11 with `force` set, packet
11 arrives a second time (same mask, sequence number equal to `last_seqno`).
The code has no test for a sequence number that does not advance: the unsigned
difference `seqno - (last_seqno+1)` is `2^64 - 1`, the rate check is skipped
because of `force`, no error is thrown at the gap detection, and the
placeholder loop starts: its first pass writes 4 copies of the last value to
channel 0 and `2^64 - 2` passes remain.  With `force` false the same packet is
rejected by the rate check. -/
theorem C6_regression_replayed :
    (ex_packet 11).seqno ≤ (ex_pre_state true).last_seqno ∧
    (ex_packet 11).chmask = (ex_pre_state true).last_chmask ∧
    (ex_pre_state true).first = false ∧ (ex_pre_state true).force = true ∧
    gap_nmissing (ex_pre_state true) (ex_packet 11).seqno = W64 - 1 ∧
    (∃ q, inject_while (ex_pre_state true).last_chmask W64
          ((ex_pre_state true).last_nsamp,
            { ex_pre_state true with
              errors := (ex_pre_state true).errors
                ++ [gap_diag (ex_pre_state true) (ex_packet 11).seqno (ex_packet 11).nsec] })
          = .ok (0, q) ∧
      (q.out_channel 0).content
        = ((ex_pre_state true).out_channel 0).content
          ++ rep 4 ((ex_pre_state true).last_channel 0) ∧
      gap_recover (ex_pre_state true) (ex_pre_state true).last_chmask
          (ex_packet 11).seqno (ex_packet 11).nsec
        = inject (ex_pre_state true).last_chmask (W64 - 2) q) ∧
    gap_recover (ex_pre_state false) (ex_pre_state false).last_chmask
        (ex_packet 11).seqno (ex_packet 11).nsec = .error .inconsistency :=
  ⟨by decide!, by decide!, by decide!, by decide!,
   (regress_replay (ex_pre_state true) (ex_packet 11).seqno (ex_packet 11).nsec 4
      (ex_pre_state_reachable true (by decide!)) (by decide!) (by decide!) (by decide!)
      (by decide!)).1,
   (regress_replay (ex_pre_state true) (ex_packet 11).seqno (ex_packet 11).nsec 4
      (ex_pre_state_reachable true (by decide!)) (by decide!) (by decide!) (by decide!)
      (by decide!)).2.2.elim
     (fun q hq => ⟨q, hq.1, hq.2.2.1 0 (by decide) (by decide!), hq.2.2.2⟩),
   gap_recover_rejected (ex_pre_state false) (ex_packet 11).seqno (ex_packet 11).nsec
     (by decide!) (by decide!)⟩

end Atf
